import Mathlib

/-!
Verification of the glyph-path normalization engine of the `alphabet`
repository (`scripts/generate-alphabet-paths.ts` and the alternate generator
script).  Numbers are modelled as rationals (the idealization of the script's
IEEE doubles); the 6-decimal rounding performed by `formatNumber`
(`Number(value.toFixed(6))`) is modelled exactly as rounding to an integer
number of millionths, ties away from zero, as specified for `toFixed`.
-/

namespace Alphabet

/-- `10^6`: the fixed denominator of 6-decimal rounding. -/
def mega : ℕ := 1000000

/-- Round a rational to the nearest integer, ties away from zero
(the rounding used by JavaScript's `Number.prototype.toFixed`). -/
def jround (q : ℚ) : ℤ :=
  if 0 ≤ q then ⌊q + 1/2⌋ else -⌊-q + 1/2⌋

/-- `Number(value.toFixed(6))` as an integer count of millionths. -/
def r6 (q : ℚ) : ℤ := jround (q * (mega : ℚ))

/-- `Number(value.toFixed(6))` as a rational. -/
def r6q (q : ℚ) : ℚ := (r6 q : ℚ) / (mega : ℚ)

/-- A rational is representable with 6 fractional decimal digits. -/
def Micro (q : ℚ) : Prop := ∃ n : ℤ, q = (n : ℚ) / (mega : ℚ)

theorem mega_pos : (0 : ℚ) < (mega : ℚ) := by norm_num [mega]

theorem jround_intCast (n : ℤ) : jround (n : ℚ) = n := by
  unfold jround
  rcases le_or_lt 0 (n : ℚ) with h | h
  · rw [if_pos h, Int.floor_int_add]
    norm_num
  · rw [if_neg (not_le.mpr h)]
    have : -(n : ℚ) + 1/2 = ((-n : ℤ) : ℚ) + 1/2 := by push_cast; ring
    rw [this, Int.floor_int_add]
    norm_num

theorem jround_nonneg_add_int (q : ℚ) (m : ℤ) (h : 0 ≤ q) (h2 : 0 ≤ q + m) :
    jround (q + m) = jround q + m := by
  unfold jround
  rw [if_pos h2, if_pos h]
  have : q + (m : ℚ) + 1/2 = q + 1/2 + m := by ring
  rw [this, Int.floor_add_int]

theorem jround_mono {q r : ℚ} (h : q ≤ r) : jround q ≤ jround r := by
  unfold jround
  rcases le_or_lt 0 q with hq | hq
  · rw [if_pos hq, if_pos (le_trans hq h)]
    exact Int.floor_le_floor (by linarith)
  · rw [if_neg (not_le.mpr hq)]
    rcases le_or_lt 0 r with hr | hr
    · rw [if_pos hr]
      have h1 : (0 : ℤ) ≤ ⌊r + 1/2⌋ := Int.floor_nonneg.mpr (by linarith)
      have h2 : (0 : ℤ) ≤ ⌊-q + 1/2⌋ := Int.floor_nonneg.mpr (by linarith)
      omega
    · rw [if_neg (not_le.mpr hr)]
      have : ⌊-r + 1/2⌋ ≤ ⌊-q + 1/2⌋ := Int.floor_le_floor (by linarith)
      omega

theorem abs_jround_sub (q : ℚ) : |(jround q : ℚ) - q| ≤ 1/2 := by
  unfold jround
  rcases le_or_lt 0 q with h | h
  · rw [if_pos h]
    have h1 := Int.floor_le (q + 1/2)
    have h2 := Int.lt_floor_add_one (q + 1/2)
    rw [abs_le]
    constructor <;> linarith
  · rw [if_neg (not_le.mpr h)]
    have h1 := Int.floor_le (-q + 1/2)
    have h2 := Int.lt_floor_add_one (-q + 1/2)
    rw [abs_le]
    push_cast
    constructor <;> linarith

/-- `r6` is the identity on integer counts of millionths. -/
theorem r6_micro (n : ℤ) : r6 ((n : ℚ) / (mega : ℚ)) = n := by
  unfold r6
  rw [div_mul_cancel₀ _ (ne_of_gt mega_pos)]
  exact jround_intCast n

theorem r6q_micro {q : ℚ} (h : Micro q) : r6q q = q := by
  obtain ⟨n, rfl⟩ := h
  unfold r6q
  rw [r6_micro]

theorem r6q_is_micro (q : ℚ) : Micro (r6q q) := ⟨r6 q, rfl⟩

theorem r6_mono {q r : ℚ} (h : q ≤ r) : r6 q ≤ r6 r :=
  jround_mono (by
    exact mul_le_mul_of_nonneg_right h (le_of_lt mega_pos))

theorem abs_r6q_sub (q : ℚ) : |r6q q - q| ≤ 1 / (2 * mega) := by
  have h := abs_jround_sub (q * (mega : ℚ))
  unfold r6q r6
  have hm : (0 : ℚ) < (mega : ℚ) := mega_pos
  rw [abs_le] at h ⊢
  constructor
  · rw [div_sub' _ _ _ (ne_of_gt hm), le_div_iff hm]
    have : -(1 / (2 * (mega:ℚ))) * (mega:ℚ) = -(1/2) := by
      field_simp
      ring
    rw [this]
    linarith [h.1]
  · rw [div_sub' _ _ _ (ne_of_gt hm), div_le_iff hm]
    have : 1 / (2 * (mega:ℚ)) * (mega:ℚ) = 1/2 := by
      field_simp
      ring
    rw [this]
    linarith [h.2]

/-! ### Decimal digit rendering and lexing -/

/-- Little-endian base-10 digits of a natural number, fuel-driven
(`fuel ≥ n` suffices; structural recursion keeps it kernel-computable). -/
def natDigitsAux : ℕ → ℕ → List ℕ
  | 0, _ => []
  | _ + 1, 0 => []
  | f + 1, n + 1 => (n + 1) % 10 :: natDigitsAux f ((n + 1) / 10)

/-- Little-endian base-10 digits (empty for 0). -/
def natDigits (n : ℕ) : List ℕ := natDigitsAux n n

theorem natDigitsAux_eq_digits : ∀ f n, n ≤ f → natDigitsAux f n = Nat.digits 10 n := by
  intro f
  induction f with
  | zero =>
    intro n hn
    interval_cases n
    simp [natDigitsAux]
  | succ f ih =>
    intro n hn
    cases n with
    | zero => simp [natDigitsAux]
    | succ m =>
      have hdiv : (m + 1) / 10 ≤ f := by
        have := Nat.div_lt_self (Nat.succ_pos m) (by norm_num : 1 < 10)
        omega
      show (m + 1) % 10 :: natDigitsAux f ((m + 1) / 10) = _
      rw [ih _ hdiv, Nat.digits_def' (by norm_num : 1 < 10) (Nat.succ_pos m)]

theorem natDigits_eq (n : ℕ) : natDigits n = Nat.digits 10 n :=
  natDigitsAux_eq_digits n n le_rfl

/-- The character for a single decimal digit. -/
def digitChar (d : ℕ) : Char := Char.ofNat (48 + d)

/-- Numeric value of a digit character. -/
def charVal (c : Char) : ℕ := c.toNat - 48

theorem digitChar_isDigit {d : ℕ} (h : d < 10) : (digitChar d).isDigit = true := by
  interval_cases d <;> decide

theorem charVal_digitChar {d : ℕ} (h : d < 10) : charVal (digitChar d) = d := by
  interval_cases d <;> decide

/-- Value of a big-endian digit-character string (the accumulation performed
by reading a numeral left to right). -/
def digitsVal (cs : List Char) : ℕ := cs.foldl (fun a c => 10 * a + charVal c) 0

theorem foldr_eq_ofDigits (ds : List ℕ) :
    ds.foldr (fun d acc => 10 * acc + d) 0 = Nat.ofDigits 10 ds := by
  induction ds with
  | nil => rfl
  | cons d rest ih => simp [Nat.ofDigits_cons, ih]; ring

theorem digitsVal_render (ds : List ℕ) (h : ∀ d ∈ ds, d < 10) :
    digitsVal ((ds.reverse).map digitChar) = Nat.ofDigits 10 ds := by
  unfold digitsVal
  rw [List.foldl_map, List.foldl_reverse, ← foldr_eq_ofDigits]
  induction ds with
  | nil => rfl
  | cons d rest ih =>
    simp only [List.foldr_cons]
    rw [ih (fun x hx => h x (List.mem_cons_of_mem d hx)),
      charVal_digitChar (h d (List.mem_cons_self d rest))]

/-! ### `formatNumber` (source: `formatNumber`, generate-alphabet-paths.ts 228-232)

`Number(value.toFixed(6))` rounds to 6 fractional digits; `Object.is(rounded, -0)`
canonicalizes negative zero; `toString` renders the shortest decimal numeral,
i.e. the rounded value with trailing fractional zeros omitted. -/

/-- Big-endian character numeral of a natural number (`"0"` for zero). -/
def renderNat (n : ℕ) : List Char :=
  if n = 0 then ['0'] else ((natDigits n).reverse).map digitChar

/-- Characters after the decimal point for a fractional part of `fr`
millionths: six zero-padded digits with trailing zeros stripped
(empty when `fr = 0`). -/
def fracCharsOf (fr : ℕ) : List Char :=
  let ds := natDigits fr ++ List.replicate (6 - (natDigits fr).length) 0
  ((ds.dropWhile (fun d => d == 0)).reverse).map digitChar

/-- The character list emitted by `formatNumber`. -/
def fmtChars (q : ℚ) : List Char :=
  let n := r6 q
  let m := n.natAbs
  let intCs := renderNat (m / mega)
  let frCs := fracCharsOf (m % mega)
  let core := intCs ++ (if frCs.isEmpty then [] else '.' :: frCs)
  if n < 0 then '-' :: core else core

/-- `formatNumber` from the generator script, on the rational model. -/
def formatNumber (q : ℚ) : String := String.mk (fmtChars q)

/-! ### Numeric-token lexing

The parser extracts numbers with the regex
`/[+-]?(?:\d*\.\d+|\d+\.?\d*)(?:[eE][+-]?\d+)?/g` and converts each match with
`Number.parseFloat`.  `tryNum` consumes exactly such a (greedy, leftmost)
match from the head of the character list and yields its rational value;
`lexNumbers` scans a string for all matches in order. -/

/-- Greedy mantissa: digits, optionally a dot and more digits; at least one
digit overall, and a bare dot is consumed only next to a digit. -/
def tryMantissa (cs : List Char) : Option (ℚ × List Char) :=
  let ds1 := cs.takeWhile Char.isDigit
  let r1 := cs.dropWhile Char.isDigit
  if r1.head? = some '.' then
    let r2 := r1.tail
    let ds2 := r2.takeWhile Char.isDigit
    let r3 := r2.dropWhile Char.isDigit
    if ds1.isEmpty && ds2.isEmpty then none
    else some ((digitsVal ds1 : ℚ) + (digitsVal ds2 : ℚ) / (10 : ℚ) ^ ds2.length, r3)
  else if ds1.isEmpty then none
  else some ((digitsVal ds1 : ℚ), r1)

/-- Exponent digits after `e`/`e+`/`e-`; if absent, the whole exponent part
is not consumed (the regex group is optional). -/
def tryExpDigits (r : List Char) (orig : List Char) (sign : ℤ) : ℤ × List Char :=
  let ds := r.takeWhile Char.isDigit
  if ds.isEmpty then (0, orig) else (sign * (digitsVal ds : ℤ), r.dropWhile Char.isDigit)

def tryExpAux (afterE : List Char) (orig : List Char) : ℤ × List Char :=
  if afterE.head? = some '+' then tryExpDigits afterE.tail orig 1
  else if afterE.head? = some '-' then tryExpDigits afterE.tail orig (-1)
  else tryExpDigits afterE orig 1

def tryExponent (cs : List Char) : ℤ × List Char :=
  if cs.head? = some 'e' ∨ cs.head? = some 'E' then tryExpAux cs.tail cs
  else (0, cs)

def tryNumCore (cs : List Char) (sign : ℚ) : Option (ℚ × List Char) :=
  match tryMantissa cs with
  | none => none
  | some (v, r) =>
      let er := tryExponent r
      some (sign * v * (10 : ℚ) ^ er.1, er.2)

/-- One numeric-regex match at the head of the input, with its value
(`parseFloat` of the matched text) and the remaining input. -/
def tryNum (cs : List Char) : Option (ℚ × List Char) :=
  if cs.head? = some '-' then tryNumCore cs.tail (-1)
  else if cs.head? = some '+' then tryNumCore cs.tail 1
  else tryNumCore cs 1

/-- Global regex scan: at each position, take a match if one starts there,
otherwise advance one character. -/
def scanNumbersAux : ℕ → List Char → List ℚ
  | 0, _ => []
  | _ + 1, [] => []
  | f + 1, c :: rest =>
      match tryNum (c :: rest) with
      | some (q, r) => q :: scanNumbersAux f r
      | none => scanNumbersAux f rest

/-- All numbers matched in a string, in order (`data.match(...)` + `parseFloat`). -/
def lexNumbers (cs : List Char) : List ℚ := scanNumbersAux cs.length cs

/-- Coordinate pairs from a number list: the loop
`for (i = 0; i + 1 < numbers.length; i += 2)` (a trailing odd number is dropped). -/
def numsToPairs : List ℚ → List (ℚ × ℚ)
  | x :: y :: rest => (x, y) :: numsToPairs rest
  | _ => []

/-! ### Path data model (source: `Point`, `Subpath`) -/

structure Point where
  x : ℚ
  y : ℚ
deriving DecidableEq, Repr

structure Subpath where
  points : List Point
  closed : Bool
deriving DecidableEq, Repr

/-! ### `parsePathData` (source lines 96-201)

The JS driver finds command characters with `/[MLmlZz]/g` and hands each
command the raw text up to the next command character (text before the first
command character is never passed to any command).  `toSegments` performs that
same decomposition; the state threaded through `applyCommand` mirrors the
`subpaths` / `current` / `currentPoint` / `subpathStart` variables. -/

def isCmdChar (c : Char) : Bool :=
  c == 'M' || c == 'L' || c == 'm' || c == 'l' || c == 'Z' || c == 'z'

def toSegmentsGo : List Char → Char → List Char → List (Char × List Char)
  | [], cmd, acc => [(cmd, acc.reverse)]
  | c :: rest, cmd, acc =>
      if isCmdChar c then (cmd, acc.reverse) :: toSegmentsGo rest c []
      else toSegmentsGo rest cmd (c :: acc)

/-- Split path text into (command character, following data) segments. -/
def toSegments : List Char → List (Char × List Char)
  | [] => []
  | c :: rest => if isCmdChar c then toSegmentsGo rest c [] else toSegments rest

structure ParseState where
  subpaths : List Subpath
  current : Option Subpath
  currentPoint : Option Point
  subpathStart : Option Point
deriving DecidableEq, Repr

def initState : ParseState := ⟨[], none, none, none⟩

/-- `flushCurrent`: push the current subpath if it has points; clear
`current` and `subpathStart`. -/
def flushCurrent (st : ParseState) : ParseState :=
  match st.current with
  | some c =>
      if c.points.length > 0 then
        { subpaths := st.subpaths ++ [c], current := none,
          currentPoint := st.currentPoint, subpathStart := none }
      else
        { st with current := none, subpathStart := none }
  | none => { st with current := none, subpathStart := none }

/-- Resolve one coordinate pair: relative pairs accumulate onto the current
point when one exists. -/
def resolvePair (isRelative : Bool) (cp : Option Point) (p : ℚ × ℚ) : Point :=
  match cp with
  | some c => if isRelative then ⟨p.1 + c.x, p.2 + c.y⟩ else ⟨p.1, p.2⟩
  | none => ⟨p.1, p.2⟩

/-- The `M`-with-first-pair branch: flush and open a fresh subpath at `np`. -/
def startSubpath (st : ParseState) (np : Point) : ParseState :=
  let st1 := flushCurrent st
  { st1 with current := some ⟨[np], false⟩, subpathStart := some np
             currentPoint := some np }

/-- The `M`/`L` append branch: extend the current subpath (creating one when
none is open). -/
def addPoint (st : ParseState) (np : Point) : ParseState :=
  match st.current with
  | none =>
      { st with current := some ⟨[np], false⟩, subpathStart := some np
                currentPoint := some np }
  | some c =>
      { st with current := some ⟨c.points ++ [np], c.closed⟩
                currentPoint := some np }

/-- The pair loop of `applyCommand`. -/
def processPairs (isM isRelative : Bool) : Bool → List (ℚ × ℚ) → ParseState → ParseState
  | _, [], st => st
  | isFirst, p :: rest, st =>
      let np := resolvePair isRelative st.currentPoint p
      if isM && isFirst then
        processPairs isM isRelative false rest (startSubpath st np)
      else
        processPairs isM isRelative false rest (addPoint st np)

/-- The `Z` branch of `applyCommand`: mark the current subpath closed and
reset the running current point to the subpath anchor. -/
def zApply (st : ParseState) : ParseState :=
  let st1 :=
    match st.current with
    | some c => { st with current := some { c with closed := true } }
    | none => st
  match st1.subpathStart with
  | some p => { st1 with currentPoint := some p }
  | none => st1

/-- `applyCommand` after number extraction: the state update depends on the
command character and the lexed numbers only. -/
def applyKey (st : ParseState) (cmd : Char) (numbers : List ℚ) : ParseState :=
  if cmd == 'Z' || cmd == 'z' then zApply st
  else if numbers.length < 2 then st
  else
    processPairs (cmd == 'M' || cmd == 'm') (cmd == 'm' || cmd == 'l') true
      (numsToPairs numbers) st

/-- `applyCommand` (source lines 124-180). -/
def applyCommand (st : ParseState) (cmd : Char) (data : List Char) : ParseState :=
  applyKey st cmd (lexNumbers data)

/-- `parsePathData` (source lines 96-201). -/
def parsePathData (s : String) : List Subpath :=
  let st := (toSegments s.data).foldl
    (fun st (seg : Char × List Char) => applyCommand st seg.1 seg.2) initState
  (flushCurrent st).subpaths

/-! ### `serializeSubpaths` (source lines 234-255) -/

/-- `parts.join(" ")`. -/
def joinSpace : List (List Char) → List Char
  | [] => []
  | [p] => p
  | p :: q :: rest => p ++ ' ' :: joinSpace (q :: rest)

/-- The parts contributed by one subpath: `M` + first point, `L` + each later
point, `Z` if closed; nothing for an empty subpath. -/
def subpathParts (sp : Subpath) : List (List Char) :=
  match sp.points with
  | [] => []
  | first :: rest =>
      (('M' :: (fmtChars first.x ++ ' ' :: fmtChars first.y)) ::
        rest.map (fun p => 'L' :: (fmtChars p.x ++ ' ' :: fmtChars p.y))) ++
      (if sp.closed then [['Z']] else [])

def serializeChars (sps : List Subpath) : List Char :=
  joinSpace (sps.flatMap subpathParts)

/-- `serializeSubpaths` (source lines 234-255). -/
def serializeSubpaths (sps : List Subpath) : String :=
  String.mk (serializeChars sps)

/-! ### Geometry helpers (source lines 203-345) -/

structure BBox where
  minX : ℚ
  maxX : ℚ
  minY : ℚ
  maxY : ℚ
deriving DecidableEq, Repr

/-- Fold step accumulating a bounding box over the vertically flipped frame
(`y' = 1 - y`); `none` models the initial `±Infinity` accumulator. -/
def bboxStep (acc : Option BBox) (p : Point) : Option BBox :=
  let y := 1 - p.y
  match acc with
  | none => some ⟨p.x, p.x, y, y⟩
  | some b => some ⟨min b.minX p.x, max b.maxX p.x, min b.minY y, max b.maxY y⟩

def allPoints (sps : List Subpath) : List Point := sps.flatMap (·.points)

/-- `getBoundingBox` (source lines 203-226): extents in the flipped frame,
all-zero for empty input. -/
def getBoundingBox (sps : List Subpath) : BBox :=
  match (allPoints sps).foldl bboxStep none with
  | none => ⟨0, 0, 0, 0⟩
  | some b => b

/-- Accumulate one value into a running maximum. -/
def maxStep (a : Option ℚ) (q : ℚ) : Option ℚ :=
  match a with | none => some q | some m => some (max m q)

/-- Maximum over a list, `none` for the empty list (the `±Infinity` start). -/
def maxList (l : List ℚ) : Option ℚ := l.foldl maxStep none

/-- `getMaxYFromSubpaths` (source lines 302-310): max raw `y`, `0` if none. -/
def getMaxYFromSubpaths (sps : List Subpath) : ℚ :=
  match maxList ((allPoints sps).map (·.y)) with
  | none => 0
  | some m => m

/-- `shiftSubpathsY` (source lines 312-319). -/
def shiftSubpathsY (sps : List Subpath) (deltaY : ℚ) : List Subpath :=
  sps.map (fun sp => ⟨sp.points.map (fun p => ⟨p.x, p.y + deltaY⟩), sp.closed⟩)

/-- `shiftSubpathsX` (source lines 321-328). -/
def shiftSubpathsX (sps : List Subpath) (deltaX : ℚ) : List Subpath :=
  sps.map (fun sp => ⟨sp.points.map (fun p => ⟨p.x + deltaX, p.y⟩), sp.closed⟩)

/-- `transformSubpaths` (source lines 330-345): flip to the Cartesian frame,
scale about the origin, translate, flip back. -/
def transformSubpaths (sps : List Subpath) (scaleX scaleY xShift yShift : ℚ) :
    List Subpath :=
  sps.map (fun sp =>
    ⟨sp.points.map (fun p =>
      ⟨p.x * scaleX + xShift, 1 - ((1 - p.y) * scaleY + yShift)⟩), sp.closed⟩)

/-! ### `adjustDotSubpath` (source lines 369-433) -/

/-- Accumulate one point into a raw (unflipped) bounding box. -/
def rawStep (acc : Option BBox) (p : Point) : Option BBox :=
  match acc with
  | none => some ⟨p.x, p.x, p.y, p.y⟩
  | some b => some ⟨min b.minX p.x, max b.maxX p.x, min b.minY p.y, max b.maxY p.y⟩

/-- Per-subpath raw (unflipped) bounding box, `none` for no points. -/
def rawBBox (ps : List Point) : Option BBox := ps.foldl rawStep none

/-- `minY < dotMinY` with the initial `+Infinity` modelled by `none`. -/
def dotBetter (b : BBox) : Option (ℕ × BBox) → Bool
  | none => true
  | some pr => decide (b.minY < pr.2.minY)

/-- The dot-detection scan: remembers the index and raw box of the
lowest-`minY` subpath with zero height and positive width; empty subpaths are
skipped; strict `<` keeps the earliest on ties. -/
def findDotGo : List Subpath → ℕ → Option (ℕ × BBox) → Option (ℕ × BBox)
  | [], _, best => best
  | sp :: rest, i, best =>
      match rawBBox sp.points with
      | none => findDotGo rest (i + 1) best
      | some b =>
          let width := b.maxX - b.minX
          let height := b.maxY - b.minY
          let better := decide (height = 0) && decide (0 < width) && dotBetter b best
          findDotGo rest (i + 1) (if better then some (i, b) else best)

def findDot (sps : List Subpath) : Option (ℕ × BBox) := findDotGo sps 0 none

/-- Replace the element at one index, leaving the rest untouched
(the `subpaths.map((subpath, index) => ...)` pattern). -/
def mapAtIdx (f : Subpath → Subpath) : ℕ → ℕ → List Subpath → List Subpath
  | _, _, [] => []
  | di, i, sp :: rest =>
      (if i ≠ di then sp else f sp) :: mapAtIdx f di (i + 1) rest

/-- `adjustDotSubpath` (source lines 369-433). -/
def adjustDotSubpath (sps : List Subpath) (c : Char) : List Subpath :=
  if c ≠ 'i' ∧ c ≠ 'j' then sps
  else
    match findDot sps with
    | none => sps
    | some (di, bb) =>
        let width := bb.maxX - bb.minX
        if ¬ (0 < width) then sps
        else
          let targetWidth := min width (8/100 : ℚ)
          let scale := targetWidth / width
          let centerX := (bb.minX + bb.maxX) / 2
          mapAtIdx (fun sp =>
            ⟨sp.points.map (fun p => ⟨centerX + (p.x - centerX) * scale, p.y⟩),
              sp.closed⟩) di 0 sps

/-- The horizontal rescale about `a` with factor `s` that the dot adjuster
applies to each point. -/
def affX (a s : ℚ) (p : Point) : Point := ⟨a + (p.x - a) * s, p.y⟩

/-- The same rescale acting on a bounding box. -/
def affB (a s : ℚ) (b : BBox) : BBox :=
  ⟨a + (b.minX - a) * s, a + (b.maxX - a) * s, b.minY, b.maxY⟩

/-! ### NaN-aware numbers for the split-based width scan

`getLineSegments` re-parses serialized path text with `split`/`parseFloat`;
`parseFloat` of a non-numeric piece is `NaN`, which then propagates through
`Math.min`/`Math.max`.  `Jq` models an IEEE NaN as `none` (the non-finite
`parseFloat "Infinity"` result, which no path emitted by this program can
contain, is merged into `none` as well). -/

def Jq : Type := Option ℚ
deriving DecidableEq, Repr

def jq (q : ℚ) : Jq := some q

def jadd : Jq → Jq → Jq
  | some a, some b => some (a + b)
  | _, _ => none

def jsub : Jq → Jq → Jq
  | some a, some b => some (a - b)
  | _, _ => none

def jmin : Jq → Jq → Jq
  | some a, some b => some (min a b)
  | _, _ => none

def jmax : Jq → Jq → Jq
  | some a, some b => some (max a b)
  | _, _ => none

def jhalf : Jq → Jq
  | some a => some (a / 2)
  | none => none

/-- `Math.abs(x) <= bound`, which is `false` for NaN. -/
def jabsLe (x : Jq) (bound : ℚ) : Bool
  := match x with
     | some a => decide (|a| ≤ bound)
     | none => false

/-- `parseFloat`: leading whitespace skipped, then the longest numeric
prefix; `none` when no numeric prefix exists. -/
def parseFloatQ (cs : List Char) : Jq :=
  match tryNum (cs.dropWhile Char.isWhitespace) with
  | some (q, _) => some q
  | none => none

/-- `str.split(sep)` for a one-character separator. -/
def splitChar (sep : Char) : List Char → List (List Char)
  | [] => [[]]
  | c :: rest =>
      match splitChar sep rest with
      | [] => [[c]]
      | h :: t => if c == sep then [] :: h :: t else (c :: h) :: t

/-- `str.trim()`. -/
def trimChars (cs : List Char) : List Char :=
  ((cs.dropWhile Char.isWhitespace).reverse.dropWhile Char.isWhitespace).reverse

structure JSeg where
  x1 : Jq
  y1 : Jq
  x2 : Jq
  y2 : Jq
deriving DecidableEq, Repr

/-- `seg.split("L").map(pr => pr.trim().split(" ").map(parseFloat))`. -/
def pointEntries (seg : List Char) : List (List Jq) :=
  (splitChar 'L' seg).map (fun pr => (splitChar ' ' (trimChars pr)).map parseFloatQ)

def entryX : List Jq → Jq
  | x :: _ => x
  | [] => none

def entryY : List Jq → Jq
  | _ :: y :: _ => y
  | _ => none

/-- Consecutive entries of one `M`-group become segments, with `y` flipped. -/
def segsOfEntries : List (List Jq) → List JSeg
  | e1 :: e2 :: rest =>
      ⟨entryX e1, jsub (jq 1) (entryY e1), entryX e2, jsub (jq 1) (entryY e2)⟩ ::
        segsOfEntries (e2 :: rest)
  | _ => []

/-- `getLineSegments` (source lines 259-280). -/
def getLineSegments (s : String) : List JSeg :=
  match splitChar 'M' s.data with
  | [] => []
  | _ :: groups => (groups.map pointEntries).flatMap segsOfEntries

/-- Fold `Math.min`/`Math.max` over a value list; starting from the
`±Infinity` accumulator equals starting from the first value, with NaN
(`none`) propagating either way. -/
def jfold (f : Jq → Jq → Jq) : List Jq → Jq
  | [] => none
  | h :: t => t.foldl f h

/-- `getGlyphWidthRatio` (source lines 282-300): horizontal extent padded by
half the stroke width on each side, `0` with no segments. -/
def getGlyphWidthRatio (segments : List JSeg) (strokeWidthRatio : ℚ) : Jq :=
  match segments with
  | [] => jq 0
  | segs =>
      let radius := strokeWidthRatio / 2
      let xs : List Jq := segs.flatMap (fun s => [s.x1, s.x2])
      jsub (jfold jmax (xs.map (fun x => jadd x (jq radius))))
        (jfold jmin (xs.map (fun x => jsub x (jq radius))))

/-! ### The normalization pipeline (source lines 347-537)

The reference typeface lives outside this repository; per spec §4.4 it is the
external collaborator `lookup(character) -> ReferenceMetrics | none`
(`getReferenceGlyphMetrics`, whose degenerate-box guard is folded into the
lookup).  The glyph table (`svgAlphabet`, an insertion-ordered JS object with
unique keys) is modelled as an association list. -/

structure ReferenceMetrics where
  width : ℚ
  height : ℚ
  advanceWidth : ℚ
  leftSideBearing : ℚ
  rightSideBearing : ℚ
  yMin : ℚ
  yMax : ℚ
deriving DecidableEq, Repr

def RefLookup : Type := Char → Option ReferenceMetrics

def Table : Type := List (Char × String)
deriving DecidableEq, Repr

instance : Membership (Char × String) Table :=
  inferInstanceAs (Membership (Char × String) (List (Char × String)))

def lookupTable (t : Table) (c : Char) : Option String :=
  (List.find? (fun e => e.1 == c) t).map (·.2)

/-- Write one key's value (JS object keys are unique; insertion order kept). -/
def setTable (t : Table) (c : Char) (p : String) : Table :=
  List.map (fun e => if e.1 == c then (e.1, p) else e) t

def UNITS_PER_EM : ℚ := 1000
def DESIGN_HEIGHT : ℚ := 1000
def STROKE_WIDTH : ℚ := 0
def VERTICAL_SCALE : ℚ := 93 / 100
def HORIZONTAL_SCALE : ℚ := 1
def useReferenceSpacing : Bool := true

/-- `referenceCharPath ? parsePathData(referenceCharPath) : []` for the
calibration character `"H"` (a missing and an empty path both yield `[]`). -/
def referenceCharSubpathsOf (t : Table) : List Subpath :=
  match lookupTable t 'H' with
  | some p => parsePathData p
  | none => []

/-- `baseScaleX` (source lines 349-363). -/
def baseScaleXOf (R : RefLookup) (t : Table) : ℚ :=
  let bbox := getBoundingBox (referenceCharSubpathsOf t)
  let referenceCharWidth := (bbox.maxX - bbox.minX) * UNITS_PER_EM
  match R 'H' with
  | some m =>
      if 0 < referenceCharWidth then (m.width / referenceCharWidth) * HORIZONTAL_SCALE
      else HORIZONTAL_SCALE
  | none => HORIZONTAL_SCALE

/-- `baseScaleY` (source lines 364-367). -/
def baseScaleYOf (R : RefLookup) (t : Table) : ℚ :=
  let bbox := getBoundingBox (referenceCharSubpathsOf t)
  let referenceCharHeight := (bbox.maxY - bbox.minY) * DESIGN_HEIGHT
  match R 'H' with
  | some m =>
      if 0 < referenceCharHeight then (m.height / referenceCharHeight) * VERTICAL_SCALE
      else VERTICAL_SCALE
  | none => VERTICAL_SCALE

/-- Pass 1 body for one glyph (source lines 435-471). -/
def pass1Glyph (R : RefLookup) (sX sY : ℚ) (c : Char) (p : String) : String :=
  let sps := parsePathData p
  if sps.isEmpty then p
  else
    let bbox := getBoundingBox sps
    let strokePad := STROKE_WIDTH / 2
    let paddedMinX := bbox.minX - strokePad
    let paddedMaxY := bbox.maxY + strokePad
    let xMinScaled := paddedMinX * sX
    let yMaxScaled := paddedMaxY * sY
    let xShift := -xMinScaled
    let yShift :=
      if useReferenceSpacing then
        match R c with
        | some m => m.yMax / DESIGN_HEIGHT - yMaxScaled
        | none => 0
      else 0
    serializeSubpaths (adjustDotSubpath (transformSubpaths sps sX sY xShift yShift) c)

def pass1 (R : RefLookup) (sX sY : ℚ) (t : Table) : Table :=
  List.map (fun e => (e.1, pass1Glyph R sX sY e.1 e.2)) t

/-- Pass 1 with the scales derived from the input table itself. -/
def runPass1 (R : RefLookup) (t : Table) : Table :=
  pass1 R (baseScaleXOf R t) (baseScaleYOf R t) t

/-- `xMinScaled = paddedMinX * scaleX` (source lines 444/452). -/
def xMinScaledOf (sX : ℚ) (sps : List Subpath) : ℚ :=
  ((getBoundingBox sps).minX - STROKE_WIDTH / 2) * sX

/-- `xMaxScaled = paddedMaxX * scaleX` (source lines 445/453). -/
def xMaxScaledOf (sX : ℚ) (sps : List Subpath) : ℚ :=
  ((getBoundingBox sps).maxX + STROKE_WIDTH / 2) * sX

/-- `yMaxScaled = paddedMaxY * scaleY` (source lines 447/454). -/
def yMaxScaledOf (sY : ℚ) (sps : List Subpath) : ℚ :=
  ((getBoundingBox sps).maxY + STROKE_WIDTH / 2) * sY

/-- `scaledWidth = xMaxScaled - xMinScaled` (src/unnamed/part_000 line 396). -/
def scaledWidthOf (sX : ℚ) (sps : List Subpath) : ℚ :=
  xMaxScaledOf sX sps - xMinScaledOf sX sps

/-- The main script's horizontal shift, `xShift = -xMinScaled`
(source line 455). -/
def xShiftMain (sX : ℚ) (sps : List Subpath) : ℚ := -(xMinScaledOf sX sps)

/-- The older variant's conditional horizontal shift
(src/unnamed/part_000 lines 397-401, with `targetWidth = 1`). -/
def xShiftPart000 (sX : ℚ) (sps : List Subpath) : ℚ :=
  if scaledWidthOf sX sps ≤ 1 then
    (1 - scaledWidthOf sX sps) / 2 - xMinScaledOf sX sps
  else -(xMinScaledOf sX sps)

/-- A reference-font lookup with no glyph metrics at all. -/
def noRef : RefLookup := fun _ => none

/-- The main script's vertical shift (source lines 456-459). -/
def yShiftMain (R : RefLookup) (sY : ℚ) (c : Char) (sps : List Subpath) : ℚ :=
  if useReferenceSpacing then
    match R c with
    | some m => m.yMax / DESIGN_HEIGHT - yMaxScaledOf sY sps
    | none => 0
  else 0

def descenderChars : List Char := ['g', 'j', 'p', 'q', 'y']

/-- `descenderTargetY` (source lines 473-482); a missing and an empty path
are both skipped (JS falsiness). -/
def descenderTargetY (t : Table) : ℚ :=
  descenderChars.foldl (fun acc c =>
    match lookupTable t c with
    | none => acc
    | some p => if p = "" then acc else max acc (getMaxYFromSubpaths (parsePathData p))) 0

/-- Pass 2: underscore descender alignment (source lines 484-493). -/
def pass2 (t : Table) : Table :=
  match lookupTable t '_' with
  | none => t
  | some p =>
      if p = "" then t
      else
        let target := descenderTargetY t
        if 0 < target then
          let sps := parsePathData p
          let deltaY := target - getMaxYFromSubpaths sps
          if 1 / 1000000 < |deltaY| then
            setTable t '_' (serializeSubpaths (shiftSubpathsY sps deltaY))
          else t
        else t

def strokeWidthRatio : ℚ := 9 / 100

/-- `glyphWidthRatio` (source lines 495-499): alphabet-wide maximum padded
extent (`reduce` with initial `0`). -/
def glyphWidthRatioOf (t : Table) : Jq :=
  List.foldl (fun acc e =>
    jmax acc (getGlyphWidthRatio (getLineSegments e.2) strokeWidthRatio)) (jq 0) t

/-- Like `serializeSubpaths` after every x coordinate was turned into NaN
(the `none` arm of the Pass 3 shift; unreachable for well-formed tables). -/
def subpathPartsNaNX (sp : Subpath) : List (List Char) :=
  match sp.points with
  | [] => []
  | first :: rest =>
      (('M' :: ('N' :: 'a' :: 'N' :: ' ' :: fmtChars first.y)) ::
        rest.map (fun p => 'L' :: ('N' :: 'a' :: 'N' :: ' ' :: fmtChars p.y))) ++
      (if sp.closed then [['Z']] else [])

def serializeNaNX (sps : List Subpath) : String :=
  String.mk (joinSpace (sps.flatMap subpathPartsNaNX))

/-- Pass 3 body for one glyph (source lines 501-511). -/
def pass3Glyph (G : Jq) (p : String) : String :=
  let width := getGlyphWidthRatio (getLineSegments p) strokeWidthRatio
  match jhalf (jsub G width) with
  | some d =>
      if |d| ≤ 1 / 1000000 then p
      else serializeSubpaths (shiftSubpathsX (parsePathData p) d)
  | none => serializeNaNX (parsePathData p)

/-- Pass 3: advance unification (source lines 495-511). -/
def pass3 (t : Table) : Table :=
  let G := glyphWidthRatioOf t
  List.map (fun e => (e.1, pass3Glyph G e.2)) t

/-- The whole normalization pipeline on a glyph table. -/
def runPipeline (R : RefLookup) (t : Table) : Table :=
  pass3 (pass2 (runPass1 R t))

/-- `finalGlyphWidthRatio` (source lines 522-529), computed on the final table. -/
def finalGlyphWidthRatio (R : RefLookup) (t : Table) : Jq :=
  glyphWidthRatioOf (runPipeline R t)

/-! ### Print/lex round-trip for `formatNumber` output -/

theorem takeWhile_append_all {p : Char → Bool} (a b : List Char)
    (h : ∀ c ∈ a, p c = true) :
    (a ++ b).takeWhile p = a ++ b.takeWhile p := by
  induction a with
  | nil => simp
  | cons c rest ih =>
    have hc := h c (List.mem_cons_self c rest)
    have ih2 := ih (fun x hx => h x (List.mem_cons_of_mem c hx))
    simp [List.takeWhile_cons, hc, ih2]

theorem dropWhile_append_all {p : Char → Bool} (a b : List Char)
    (h : ∀ c ∈ a, p c = true) :
    (a ++ b).dropWhile p = b.dropWhile p := by
  induction a with
  | nil => simp
  | cons c rest ih =>
    have hc := h c (List.mem_cons_self c rest)
    have ih2 := ih (fun x hx => h x (List.mem_cons_of_mem c hx))
    simp [List.dropWhile_cons, hc, ih2]

theorem renderNat_ne_nil (n : ℕ) : renderNat n ≠ [] := by
  unfold renderNat
  split
  · simp
  · simp only [ne_eq, List.map_eq_nil_iff, List.reverse_eq_nil_iff]
    intro hc
    rename_i hn
    have := natDigits_eq n
    rw [hc] at this
    exact hn (Nat.digits_eq_nil_iff_eq_zero.mp this.symm)

theorem renderNat_all_digits (n : ℕ) : ∀ c ∈ renderNat n, c.isDigit = true := by
  unfold renderNat
  split
  · intro c hc
    simp at hc
    subst hc
    decide
  · intro c hc
    simp only [List.mem_map, List.mem_reverse] at hc
    obtain ⟨d, hd, rfl⟩ := hc
    rw [natDigits_eq] at hd
    exact digitChar_isDigit (Nat.digits_lt_base (by norm_num) hd)

theorem digitsVal_renderNat (n : ℕ) : digitsVal (renderNat n) = n := by
  unfold renderNat
  split
  · rename_i h
    subst h
    decide
  · rw [natDigits_eq,
      digitsVal_render _ (fun d hd => Nat.digits_lt_base (by norm_num) hd),
      Nat.ofDigits_digits]

theorem ofDigits_all_zero (l : List ℕ) (h : ∀ x ∈ l, x = 0) :
    Nat.ofDigits 10 l = 0 := by
  induction l with
  | nil => rfl
  | cons d rest ih =>
    rw [Nat.ofDigits_cons, h d (List.mem_cons_self d rest),
      ih (fun x hx => h x (List.mem_cons_of_mem d hx))]

theorem fracCharsOf_all_digits (fr : ℕ) : ∀ c ∈ fracCharsOf fr, c.isDigit = true := by
  unfold fracCharsOf
  intro c hc
  simp only [List.mem_map, List.mem_reverse] at hc
  obtain ⟨d, hd, rfl⟩ := hc
  have hd2 := List.dropWhile_sublist (fun x => x == 0)
    (l := natDigits fr ++ List.replicate (6 - (natDigits fr).length) 0)
  have hmem := hd2.mem hd
  rw [List.mem_append] at hmem
  rcases hmem with hmem | hmem
  · rw [natDigits_eq] at hmem
    exact digitChar_isDigit (Nat.digits_lt_base (by norm_num) hmem)
  · rw [List.eq_of_mem_replicate hmem]
    decide

/-- The fractional characters denote `fr` millionths: the displayed digits
times `10^(number of stripped trailing zeros)` recover `fr`. -/
theorem fracCharsOf_val (fr : ℕ) (hfr : fr < mega) :
    ∃ j, (fracCharsOf fr).length + j = 6 ∧
      digitsVal (fracCharsOf fr) * 10 ^ j = fr := by
  have hlen : (natDigits fr).length ≤ 6 := by
    rw [natDigits_eq]
    rcases Nat.eq_zero_or_pos fr with h0 | h0
    · subst h0; simp
    · by_contra hcon
      push_neg at hcon
      have hne : fr ≠ 0 := Nat.pos_iff_ne_zero.mp h0
      have h1 := Nat.base_pow_length_digits_le 10 fr (by norm_num) hne
      have h2 : (10 : ℕ) ^ 7 ≤ 10 ^ (Nat.digits 10 fr).length :=
        Nat.pow_le_pow_right (by norm_num) hcon
      have h3 : (10 : ℕ) ^ 7 = 10000000 := by norm_num
      have h4 : fr < 1000000 := by simpa [mega] using hfr
      omega
  set padded := natDigits fr ++ List.replicate (6 - (natDigits fr).length) 0 with hp
  have hpadlen : padded.length = 6 := by
    rw [hp, List.length_append, List.length_replicate]
    omega
  have hdeco : padded.takeWhile (fun x => x == 0) ++ padded.dropWhile (fun x => x == 0)
      = padded := List.takeWhile_append_dropWhile (fun x => x == 0) padded
  have hofpad : Nat.ofDigits 10 padded = fr := by
    rw [hp, Nat.ofDigits_append, natDigits_eq, Nat.ofDigits_digits,
      ofDigits_all_zero _ (fun x hx => List.eq_of_mem_replicate hx)]
    ring
  have hall : ∀ x ∈ padded, x < 10 := by
    intro x hx
    rw [List.mem_append] at hx
    rcases hx with hx | hx
    · rw [natDigits_eq] at hx
      exact Nat.digits_lt_base (by norm_num) hx
    · rw [List.eq_of_mem_replicate hx]
      norm_num
  refine ⟨(padded.takeWhile (fun x => x == 0)).length, ?_, ?_⟩
  · unfold fracCharsOf
    rw [← hp]
    simp only [List.length_map, List.length_reverse]
    have := congrArg List.length hdeco
    rw [List.length_append] at this
    omega
  · unfold fracCharsOf
    rw [← hp]
    rw [digitsVal_render _ (fun d hd =>
      hall d ((List.dropWhile_sublist (fun x => x == 0)).mem hd))]
    have hzeros : ∀ x ∈ padded.takeWhile (fun x => x == 0), x = 0 := by
      intro x hx
      have := List.mem_takeWhile_imp hx
      simpa using this
    calc Nat.ofDigits 10 (padded.dropWhile (fun x => x == 0)) *
          10 ^ (padded.takeWhile (fun x => x == 0)).length
        = Nat.ofDigits 10 (padded.takeWhile (fun x => x == 0)) +
          10 ^ (padded.takeWhile (fun x => x == 0)).length *
          Nat.ofDigits 10 (padded.dropWhile (fun x => x == 0)) := by
          rw [ofDigits_all_zero _ hzeros]
          ring
      _ = Nat.ofDigits 10 padded := by
          rw [← Nat.ofDigits_append, hdeco]
      _ = fr := hofpad

theorem fracCharsOf_nil_iff (fr : ℕ) (hfr : fr < mega) :
    fracCharsOf fr = [] ↔ fr = 0 := by
  constructor
  · intro h
    obtain ⟨j, hj, hv⟩ := fracCharsOf_val fr hfr
    rw [h] at hv
    simpa [digitsVal] using hv.symm
  · intro h
    subst h
    decide

/-- The character (if any) right after a serialized number never continues
the numeric token: not a digit, dot, or exponent marker. -/
def NumBoundary (l : List Char) : Prop :=
  ∀ c, l.head? = some c → c.isDigit = false ∧ c ≠ '.' ∧ c ≠ 'e' ∧ c ≠ 'E'

theorem numBoundary_nil : NumBoundary [] := by
  intro c hc
  simp at hc

theorem numBoundary_space (l : List Char) : NumBoundary (' ' :: l) := by
  intro c hc
  simp at hc
  subst hc
  refine ⟨by decide, by decide, by decide, by decide⟩

theorem nb_takeWhile {l : List Char} (hb : NumBoundary l) :
    l.takeWhile Char.isDigit = [] := by
  cases l with
  | nil => rfl
  | cons c t =>
    rw [List.takeWhile_cons, (hb c rfl).1]
    simp

theorem nb_dropWhile {l : List Char} (hb : NumBoundary l) :
    l.dropWhile Char.isDigit = l := by
  cases l with
  | nil => rfl
  | cons c t =>
    rw [List.dropWhile_cons, (hb c rfl).1]
    simp

theorem nb_head_ne_dot {l : List Char} (hb : NumBoundary l) :
    ¬ l.head? = some '.' := by
  intro h
  exact (hb '.' h).2.1 rfl

theorem isDigit_ne {c : Char} (h : c.isDigit = true) :
    c ≠ '.' ∧ c ≠ '-' ∧ c ≠ '+' ∧ c ≠ 'e' ∧ c ≠ 'E' := by
  refine ⟨?_, ?_, ?_, ?_, ?_⟩ <;>
    (intro hc; rw [hc] at h; exact absurd h (by decide))

/-- `tryMantissa` on an all-digit numeral followed by a boundary. -/
theorem tryMantissa_plain (I rest : List Char) (hI : ∀ c ∈ I, c.isDigit = true)
    (hIne : I ≠ []) (hb : NumBoundary rest) :
    tryMantissa (I ++ rest) = some ((digitsVal I : ℚ), rest) := by
  unfold tryMantissa
  rw [takeWhile_append_all _ _ hI, nb_takeWhile hb, List.append_nil,
    dropWhile_append_all _ _ hI, nb_dropWhile hb]
  rw [if_neg (nb_head_ne_dot hb), if_neg (by simp only [List.isEmpty_iff]; exact hIne)]

/-- `tryMantissa` on `digits.digits` followed by a boundary. -/
theorem tryMantissa_dot (I F rest : List Char) (hI : ∀ c ∈ I, c.isDigit = true)
    (hIne : I ≠ []) (hF : ∀ c ∈ F, c.isDigit = true) (hb : NumBoundary rest) :
    tryMantissa (I ++ '.' :: (F ++ rest)) =
      some ((digitsVal I : ℚ) + (digitsVal F : ℚ) / (10 : ℚ) ^ F.length, rest) := by
  have hdotdig : ('.' : Char).isDigit = false := by decide
  unfold tryMantissa
  rw [takeWhile_append_all _ _ hI, dropWhile_append_all _ _ hI]
  rw [List.takeWhile_cons, hdotdig]
  rw [List.dropWhile_cons, hdotdig]
  simp only [Bool.false_eq_true, if_false, List.append_nil, List.head?_cons,
    List.tail_cons]
  simp only [if_true]
  rw [takeWhile_append_all _ _ hF, nb_takeWhile hb, List.append_nil,
    dropWhile_append_all _ _ hF, nb_dropWhile hb]
  rw [if_neg (by
    intro hcontra
    simp only [Bool.and_eq_true, List.isEmpty_iff] at hcontra
    exact hIne hcontra.1)]

/-- `tryMantissa` reads back exactly the digits printed for `m` millionths. -/
theorem tryMantissa_fmt (m : ℕ) (rest : List Char) (hb : NumBoundary rest) :
    tryMantissa (renderNat (m / mega) ++
      ((if (fracCharsOf (m % mega)).isEmpty then [] else '.' :: fracCharsOf (m % mega)) ++ rest))
    = some ((m : ℚ) / (mega : ℚ), rest) := by
  have hFr : m % mega < mega := Nat.mod_lt _ (by norm_num [mega])
  have hIdig := renderNat_all_digits (m / mega)
  have hIne := renderNat_ne_nil (m / mega)
  have hm2 : (m : ℚ) = (mega : ℚ) * ((m / mega : ℕ) : ℚ) + ((m % mega : ℕ) : ℚ) := by
    have h := Nat.div_add_mod m mega
    have h2 : ((mega * (m / mega) + m % mega : ℕ) : ℚ) = (m : ℚ) := by rw [h]
    push_cast at h2
    linarith
  by_cases hF : (fracCharsOf (m % mega)).isEmpty
  · rw [if_pos hF, List.nil_append,
      tryMantissa_plain _ _ hIdig hIne hb, digitsVal_renderNat]
    have hF0 : m % mega = 0 :=
      (fracCharsOf_nil_iff _ hFr).mp (List.isEmpty_iff.mp hF)
    have hveq : ((m / mega : ℕ) : ℚ) = (m : ℚ) / (mega : ℚ) := by
      rw [hm2, hF0]
      push_cast
      rw [add_zero, mul_comm, mul_div_assoc, div_self (ne_of_gt mega_pos), mul_one]
    rw [hveq]
  · rw [if_neg hF]
    have hFne : fracCharsOf (m % mega) ≠ [] := by simpa using hF
    have hFdig := fracCharsOf_all_digits (m % mega)
    rw [List.cons_append, tryMantissa_dot _ _ _ hIdig hIne hFdig hb,
      digitsVal_renderNat]
    obtain ⟨j, hj, hv⟩ := fracCharsOf_val (m % mega) hFr
    have h10 : ((10 : ℚ) ^ (fracCharsOf (m % mega)).length) * (10 : ℚ) ^ j = (mega : ℚ) := by
      rw [← pow_add, hj]
      norm_num [mega]
    have hvq : (digitsVal (fracCharsOf (m % mega)) : ℚ) * (10 : ℚ) ^ j
        = ((m % mega : ℕ) : ℚ) := by
      exact_mod_cast hv
    have hpow_ne : ((10 : ℚ) ^ (fracCharsOf (m % mega)).length) ≠ 0 := by positivity
    have hmega_ne : (mega : ℚ) ≠ 0 := ne_of_gt mega_pos
    have h1 : (digitsVal (fracCharsOf (m % mega)) : ℚ) / 10 ^ (fracCharsOf (m % mega)).length
        = ((m % mega : ℕ) : ℚ) / (mega : ℚ) := by
      rw [div_eq_div_iff hpow_ne hmega_ne]
      calc (digitsVal (fracCharsOf (m % mega)) : ℚ) * (mega : ℚ)
          = (digitsVal (fracCharsOf (m % mega)) : ℚ) *
            ((10 : ℚ) ^ (fracCharsOf (m % mega)).length * (10 : ℚ) ^ j) := by rw [h10]
        _ = ((digitsVal (fracCharsOf (m % mega)) : ℚ) * (10 : ℚ) ^ j) *
            (10 : ℚ) ^ (fracCharsOf (m % mega)).length := by ring
        _ = ((m % mega : ℕ) : ℚ) * (10 : ℚ) ^ (fracCharsOf (m % mega)).length := by rw [hvq]
    have hval : ((m / mega : ℕ) : ℚ) +
        (digitsVal (fracCharsOf (m % mega)) : ℚ) / 10 ^ (fracCharsOf (m % mega)).length
        = (m : ℚ) / (mega : ℚ) := by
      rw [h1, hm2]
      field_simp
      ring
    rw [hval]

theorem tryExponent_boundary {rest : List Char} (hb : NumBoundary rest) :
    tryExponent rest = (0, rest) := by
  unfold tryExponent
  rw [if_neg]
  intro h
  rcases h with h | h
  · exact (hb 'e' h).2.2.1 rfl
  · exact (hb 'E' h).2.2.2 rfl

/-- `tryNum` reads back exactly what `formatNumber` printed, leaving any
boundary-starting tail untouched: the value recovered is the 6-decimal
rounding of the printed rational. -/
theorem tryNum_fmt (q : ℚ) (rest : List Char) (hb : NumBoundary rest) :
    tryNum (fmtChars q ++ rest) = some (r6q q, rest) := by
  have hcore := tryMantissa_fmt (r6 q).natAbs rest hb
  rw [← List.append_assoc] at hcore
  unfold fmtChars
  simp only []
  by_cases hn : r6 q < 0
  · rw [if_pos hn]
    unfold tryNum
    rw [List.cons_append]
    simp only [List.head?_cons, List.tail_cons, if_pos rfl]
    unfold tryNumCore
    rw [hcore]
    simp only [tryExponent_boundary hb]
    have : ((r6 q).natAbs : ℚ) = -((r6 q : ℤ) : ℚ) := by
      rw [Int.cast_natAbs, abs_of_neg hn]
      push_cast
      ring
    rw [zpow_zero]
    unfold r6q
    rw [this]
    norm_num
    ring
  · rw [if_neg hn]
    obtain ⟨c, cs, hI⟩ := List.exists_cons_of_ne_nil (renderNat_ne_nil ((r6 q).natAbs / mega))
    have hcdig : c.isDigit = true := by
      have := renderNat_all_digits ((r6 q).natAbs / mega) c
      rw [hI] at this
      exact this (List.mem_cons_self c cs)
    have hne := isDigit_ne hcdig
    unfold tryNum
    have hhead : (renderNat ((r6 q).natAbs / mega) ++
      ((if (fracCharsOf ((r6 q).natAbs % mega)).isEmpty then []
        else '.' :: fracCharsOf ((r6 q).natAbs % mega)) ++ rest)).head? = some c := by
      rw [hI]
      simp
    rw [← List.append_assoc] at hhead
    rw [if_neg (by rw [hhead]; simp [hne.2.1]), if_neg (by rw [hhead]; simp [hne.2.2.1])]
    unfold tryNumCore
    rw [hcore]
    simp only [tryExponent_boundary hb]
    have : ((r6 q).natAbs : ℚ) = ((r6 q : ℤ) : ℚ) := by
      rw [Int.cast_natAbs, abs_of_nonneg (not_lt.mp hn)]
    rw [zpow_zero]
    unfold r6q
    rw [this]
    ring_nf

/-! ### Scanner step lemmas -/

theorem takeWhile_add_dropWhile_length (p : Char → Bool) (l : List Char) :
    (l.takeWhile p).length + (l.dropWhile p).length = l.length := by
  have := congrArg List.length (List.takeWhile_append_dropWhile (p := p) (l := l))
  rw [List.length_append] at this
  exact this

theorem dropWhile_length_le (p : Char → Bool) (l : List Char) :
    (l.dropWhile p).length ≤ l.length :=
  (List.dropWhile_sublist p).length_le

theorem tryMantissa_consumes {cs r : List Char} {v : ℚ}
    (h : tryMantissa cs = some (v, r)) : r.length < cs.length := by
  unfold tryMantissa at h
  by_cases hdot : (cs.dropWhile Char.isDigit).head? = some '.'
  · rw [if_pos hdot] at h
    by_cases hemp : ((cs.takeWhile Char.isDigit).isEmpty &&
        ((cs.dropWhile Char.isDigit).tail.takeWhile Char.isDigit).isEmpty) = true
    · rw [if_pos hemp] at h
      exact absurd h (by simp)
    · rw [if_neg hemp] at h
      have hr : r = (cs.dropWhile Char.isDigit).tail.dropWhile Char.isDigit := by
        have := congrArg (fun o => Option.map Prod.snd o) h
        simpa using this.symm
      obtain ⟨d, tl, hd⟩ : ∃ d tl, cs.dropWhile Char.isDigit = d :: tl := by
        cases hcs : cs.dropWhile Char.isDigit with
        | nil => rw [hcs] at hdot; simp at hdot
        | cons d tl => exact ⟨d, tl, rfl⟩
      have h1 : r.length ≤ tl.length := by
        rw [hr, hd]
        exact dropWhile_length_le _ _
      have h2 := takeWhile_add_dropWhile_length Char.isDigit cs
      have h3 : (cs.dropWhile Char.isDigit).length = tl.length + 1 := by
        rw [hd]
        simp
      omega
  · rw [if_neg hdot] at h
    by_cases hemp : (cs.takeWhile Char.isDigit).isEmpty = true
    · rw [if_pos hemp] at h
      exact absurd h (by simp)
    · rw [if_neg hemp] at h
      have hr : r = cs.dropWhile Char.isDigit := by
        have := congrArg (fun o => Option.map Prod.snd o) h
        simpa using this.symm
      have hne : (cs.takeWhile Char.isDigit).length ≠ 0 := by
        simpa [List.isEmpty_iff, List.length_eq_zero] using hemp
      have h2 := takeWhile_add_dropWhile_length Char.isDigit cs
      rw [hr]
      omega

theorem tryExpDigits_snd_le {r orig : List Char} {s : ℤ}
    (h : r.length ≤ orig.length) :
    (tryExpDigits r orig s).2.length ≤ orig.length := by
  unfold tryExpDigits
  by_cases hemp : (r.takeWhile Char.isDigit).isEmpty = true
  · rw [if_pos hemp]
  · rw [if_neg hemp]
    exact le_trans (dropWhile_length_le _ _) h

theorem tryExpAux_snd_le {afterE orig : List Char}
    (h : afterE.length ≤ orig.length) :
    (tryExpAux afterE orig).2.length ≤ orig.length := by
  unfold tryExpAux
  have htail : afterE.tail.length ≤ orig.length :=
    le_trans (by cases afterE <;> simp) h
  by_cases h1 : afterE.head? = some '+'
  · rw [if_pos h1]
    exact tryExpDigits_snd_le htail
  · rw [if_neg h1]
    by_cases h2 : afterE.head? = some '-'
    · rw [if_pos h2]
      exact tryExpDigits_snd_le htail
    · rw [if_neg h2]
      exact tryExpDigits_snd_le h

theorem tryExponent_snd_le (cs : List Char) :
    (tryExponent cs).2.length ≤ cs.length := by
  unfold tryExponent
  by_cases h : cs.head? = some 'e' ∨ cs.head? = some 'E'
  · rw [if_pos h]
    exact tryExpAux_snd_le (by cases cs <;> simp)
  · rw [if_neg h]

theorem tryNumCore_consumes {cs r : List Char} {s v : ℚ}
    (h : tryNumCore cs s = some (v, r)) : r.length < cs.length := by
  unfold tryNumCore at h
  cases hm : tryMantissa cs with
  | none => rw [hm] at h; exact absurd h (by simp)
  | some pr =>
      obtain ⟨mv, mr⟩ := pr
      rw [hm] at h
      simp only [] at h
      have hr : r = (tryExponent mr).2 := by
        have := congrArg (fun o => Option.map Prod.snd o) h
        simpa using this.symm
      have h1 := tryExponent_snd_le mr
      have h2 := tryMantissa_consumes hm
      rw [hr]
      omega

theorem tryNum_consumes {cs r : List Char} {v : ℚ}
    (h : tryNum cs = some (v, r)) : r.length < cs.length := by
  unfold tryNum at h
  by_cases h1 : cs.head? = some '-'
  · rw [if_pos h1] at h
    have := tryNumCore_consumes h
    have hne : cs ≠ [] := by intro hc; rw [hc] at h1; simp at h1
    cases cs with
    | nil => exact absurd rfl hne
    | cons c t => simp at this ⊢; omega
  · rw [if_neg h1] at h
    by_cases h2 : cs.head? = some '+'
    · rw [if_pos h2] at h
      have := tryNumCore_consumes h
      cases cs with
      | nil => simp at h2
      | cons c t => simp at this ⊢; omega
    · rw [if_neg h2] at h
      exact tryNumCore_consumes h

theorem scanNumbersAux_fuel : ∀ f g cs, cs.length ≤ f → cs.length ≤ g →
    scanNumbersAux f cs = scanNumbersAux g cs := by
  intro f
  induction f with
  | zero =>
    intro g cs hf hg
    have : cs = [] := List.length_eq_zero.mp (Nat.le_antisymm hf (Nat.zero_le _))
    subst this
    cases g <;> rfl
  | succ f ih =>
    intro g cs hf hg
    cases cs with
    | nil => cases g <;> rfl
    | cons c rest =>
      obtain ⟨g2, rfl⟩ : ∃ g2, g = g2 + 1 := by
        cases g with
        | zero => simp at hg
        | succ g2 => exact ⟨g2, rfl⟩
      show scanNumbersAux (f + 1) (c :: rest) = scanNumbersAux (g2 + 1) (c :: rest)
      unfold scanNumbersAux
      cases htn : tryNum (c :: rest) with
      | none =>
        simp only []
        exact ih g2 rest (by simpa using hf) (by simpa using hg)
      | some pr =>
        obtain ⟨q, r⟩ := pr
        simp only []
        have hcons := tryNum_consumes htn
        have hlen : (c :: rest).length = rest.length + 1 := rfl
        rw [ih g2 r (by omega) (by omega)]

theorem lexNumbers_step_some {cs r : List Char} {q : ℚ}
    (h : tryNum cs = some (q, r)) : lexNumbers cs = q :: lexNumbers r := by
  cases cs with
  | nil =>
    have hnil : tryNum ([] : List Char) = none := rfl
    rw [hnil] at h
    exact Option.noConfusion h
  | cons c rest =>
    have hcons := tryNum_consumes h
    have hlen : (c :: rest).length = rest.length + 1 := rfl
    show scanNumbersAux (rest.length + 1) (c :: rest) = _
    unfold scanNumbersAux
    rw [h]
    show q :: scanNumbersAux rest.length r = q :: lexNumbers r
    unfold lexNumbers
    rw [scanNumbersAux_fuel rest.length r.length r (by omega) le_rfl]

theorem lexNumbers_step_none {c : Char} {cs : List Char}
    (h : tryNum (c :: cs) = none) : lexNumbers (c :: cs) = lexNumbers cs := by
  show scanNumbersAux (cs.length + 1) (c :: cs) = _
  unfold scanNumbersAux
  rw [h]
  rfl

theorem tryNum_space (cs : List Char) : tryNum (' ' :: cs) = none := rfl

theorem lexNumbers_space (cs : List Char) :
    lexNumbers (' ' :: cs) = lexNumbers cs :=
  lexNumbers_step_none (tryNum_space cs)

theorem lexNumbers_fmt {x : ℚ} {rest : List Char} (hb : NumBoundary rest) :
    lexNumbers (fmtChars x ++ rest) = r6q x :: lexNumbers rest :=
  lexNumbers_step_some (tryNum_fmt x rest hb)

/-- The data text of a serialized `M`/`L` command (`"x y"`, possibly followed
by the joining space before the next part) lexes to exactly the two printed
coordinates. -/
theorem lexNumbers_pair (x y : ℚ) (t : List Char) (ht : t = [] ∨ t = [' ']) :
    lexNumbers (fmtChars x ++ ' ' :: (fmtChars y ++ t)) = [r6q x, r6q y] := by
  have hbt : NumBoundary t := by
    rcases ht with rfl | rfl
    · exact numBoundary_nil
    · exact numBoundary_space []
  rw [lexNumbers_fmt (numBoundary_space _), lexNumbers_space,
    lexNumbers_fmt hbt]
  rcases ht with rfl | rfl
  · rfl
  · rw [lexNumbers_space]
    rfl

/-! ### Segmentation of serialized path text -/

/-- Rounding every coordinate to 6 decimals (what serialization does to a
subpath's numeric content). -/
def roundPoint (p : Point) : Point := ⟨r6q p.x, r6q p.y⟩

def roundSubpaths (sps : List Subpath) : List Subpath :=
  sps.map (fun sp => ⟨sp.points.map roundPoint, sp.closed⟩)

theorem toSegmentsGo_nil (c : Char) (acc : List Char) :
    toSegmentsGo [] c acc = [(c, acc.reverse)] := rfl

theorem toSegmentsGo_cons (a : Char) (rest : List Char) (c : Char) (acc : List Char) :
    toSegmentsGo (a :: rest) c acc =
      if isCmdChar a = true then (c, acc.reverse) :: toSegmentsGo rest a []
      else toSegmentsGo rest c (a :: acc) := rfl

theorem toSegments_cons (c : Char) (rest : List Char) :
    toSegments (c :: rest) =
      if isCmdChar c = true then toSegmentsGo rest c [] else toSegments rest := rfl

theorem toSegmentsGo_clean (w : List Char) (hw : ∀ x ∈ w, isCmdChar x = false) :
    ∀ z c acc, toSegmentsGo (w ++ z) c acc = toSegmentsGo z c (w.reverse ++ acc) := by
  induction w with
  | nil => intro z c acc; simp
  | cons a w2 ih =>
    intro z c acc
    have ha := hw a (List.mem_cons_self a w2)
    show toSegmentsGo (a :: (w2 ++ z)) c acc = _
    rw [toSegmentsGo_cons, ha]
    simp only [Bool.false_eq_true, if_false]
    rw [ih (fun x hx => hw x (List.mem_cons_of_mem a hx)) z c (a :: acc)]
    congr 1
    simp

theorem toSegmentsGo_cmd (c2 : Char) (W : List Char) (c : Char) (acc : List Char)
    (h : isCmdChar c2 = true) :
    toSegmentsGo (c2 :: W) c acc = (c, acc.reverse) :: toSegmentsGo W c2 [] := by
  rw [toSegmentsGo_cons, h]
  simp

/-- `parts.join(" ")` with a leading space, for the tail of a part list
(empty when there are no more parts). -/
def joinTailLC : List (List Char) → List Char
  | [] => []
  | p :: ps => ' ' :: joinSpace (p :: ps)

theorem joinSpace_cons (p : List Char) (ps : List (List Char)) :
    joinSpace (p :: ps) = p ++ joinTailLC ps := by
  cases ps with
  | nil => simp [joinSpace, joinTailLC]
  | cons q qs => rfl

/-- The data handed to each command: everything up to the next command
character, i.e. the part body plus the joining space for all but the last
part. -/
def attachSpaces : List (Char × List Char) → List (Char × List Char)
  | [] => []
  | [pr] => [pr]
  | pr :: pr2 :: rest => (pr.1, pr.2 ++ [' ']) :: attachSpaces (pr2 :: rest)

/-- Segmentation of space-joined command parts, each a command character
followed by a command-character-free body. -/
theorem toSegmentsGo_join : ∀ (parts : List (Char × List Char)) (c : Char) (body : List Char),
    (∀ x ∈ body, isCmdChar x = false) →
    (∀ pr ∈ parts, isCmdChar pr.1 = true ∧ ∀ x ∈ pr.2, isCmdChar x = false) →
    toSegmentsGo (body ++ joinTailLC (parts.map (fun pr => pr.1 :: pr.2))) c []
      = attachSpaces ((c, body) :: parts) := by
  intro parts
  induction parts with
  | nil =>
    intro c body hbody hparts
    show toSegmentsGo (body ++ []) c [] = [(c, body)]
    rw [toSegmentsGo_clean body hbody [] c [], toSegmentsGo_nil]
    simp
  | cons pr2 rest ih =>
    intro c body hbody hparts
    obtain ⟨c2, b2⟩ := pr2
    have h2 := hparts (c2, b2) (List.mem_cons_self _ _)
    show toSegmentsGo (body ++ ' ' :: joinSpace ((c2 :: b2) :: rest.map (fun pr => pr.1 :: pr.2))) c []
      = (c, body ++ [' ']) :: attachSpaces ((c2, b2) :: rest)
    rw [joinSpace_cons]
    rw [toSegmentsGo_clean body hbody _ c []]
    have hspc : isCmdChar ' ' = false := by decide
    rw [toSegmentsGo_cons, hspc]
    simp only [Bool.false_eq_true, if_false]
    rw [List.cons_append, toSegmentsGo_cmd c2 _ c _ h2.1]
    rw [toSegmentsGo_clean b2 h2.2 _ c2 []]
    have := ih c2 b2 h2.2 (fun pr hpr => hparts pr (List.mem_cons_of_mem _ hpr))
    rw [toSegmentsGo_clean b2 h2.2 _ c2 []] at this
    rw [this]
    simp

/-- `toSegments` of space-joined command parts. -/
theorem toSegments_join (parts : List (Char × List Char))
    (hparts : ∀ pr ∈ parts, isCmdChar pr.1 = true ∧ ∀ x ∈ pr.2, isCmdChar x = false) :
    toSegments (joinSpace (parts.map (fun pr => pr.1 :: pr.2))) = attachSpaces parts := by
  cases parts with
  | nil => rfl
  | cons pr rest =>
    obtain ⟨c, body⟩ := pr
    have h1 := hparts (c, body) (List.mem_cons_self _ _)
    rw [List.map_cons, joinSpace_cons]
    show toSegments (c :: (body ++ joinTailLC (rest.map fun pr => pr.1 :: pr.2))) = _
    rw [toSegments_cons, h1.1]
    simp only [if_true]
    exact toSegmentsGo_join rest c body h1.2
      (fun pr hpr => hparts pr (List.mem_cons_of_mem _ hpr))

theorem isDigit_not_cmd {c : Char} (h : c.isDigit = true) : isCmdChar c = false := by
  simp only [isCmdChar, Bool.or_eq_false_iff, beq_eq_false_iff_ne, ne_eq]
  refine ⟨⟨⟨⟨⟨?_, ?_⟩, ?_⟩, ?_⟩, ?_⟩, ?_⟩ <;>
    (intro hc; rw [hc] at h; exact absurd h (by decide))

theorem fmtChars_clean (q : ℚ) : ∀ c ∈ fmtChars q, isCmdChar c = false := by
  intro c hc
  unfold fmtChars at hc
  simp only [] at hc
  have hcore : ∀ x, x ∈ renderNat ((r6 q).natAbs / mega) ++
      (if (fracCharsOf ((r6 q).natAbs % mega)).isEmpty then []
       else '.' :: fracCharsOf ((r6 q).natAbs % mega)) → isCmdChar x = false := by
    intro x hx
    rw [List.mem_append] at hx
    rcases hx with hx | hx
    · exact isDigit_not_cmd (renderNat_all_digits _ x hx)
    · by_cases hemp : (fracCharsOf ((r6 q).natAbs % mega)).isEmpty
      · rw [if_pos hemp] at hx
        simp at hx
      · rw [if_neg hemp] at hx
        rcases List.mem_cons.mp hx with rfl | hx
        · decide
        · exact isDigit_not_cmd (fracCharsOf_all_digits _ x hx)
  by_cases hn : r6 q < 0
  · rw [if_pos hn] at hc
    rcases List.mem_cons.mp hc with rfl | hc
    · decide
    · exact hcore c hc
  · rw [if_neg hn] at hc
    exact hcore c hc

/-- The body of a serialized `M`/`L` part: the two formatted coordinates. -/
def pairBody (p : Point) : List Char := fmtChars p.x ++ ' ' :: fmtChars p.y

/-- The command/body decomposition of one subpath's serialized parts. -/
def subpathSegsRaw (sp : Subpath) : List (Char × List Char) :=
  match sp.points with
  | [] => []
  | p0 :: rest =>
      ('M', pairBody p0) :: rest.map (fun p => ('L', pairBody p)) ++
        (if sp.closed then [('Z', [])] else [])

theorem subpathParts_eq (sp : Subpath) :
    subpathParts sp = (subpathSegsRaw sp).map (fun pr => pr.1 :: pr.2) := by
  unfold subpathParts subpathSegsRaw
  cases sp.points with
  | nil => rfl
  | cons p0 rest =>
    simp only [List.map_append, List.map_cons, List.map_map, pairBody]
    by_cases h : sp.closed = true
    · rw [h]
      simp [Function.comp_def]
    · rw [Bool.not_eq_true] at h
      rw [h]
      simp [Function.comp_def]

theorem serializeChars_eq (sps : List Subpath) :
    serializeChars sps =
      joinSpace ((sps.flatMap subpathSegsRaw).map (fun pr => pr.1 :: pr.2)) := by
  unfold serializeChars
  congr 1
  rw [List.map_flatMap]
  congr 1
  funext sp
  exact subpathParts_eq sp

theorem pairBody_clean (p : Point) : ∀ x ∈ pairBody p, isCmdChar x = false := by
  intro x hx
  unfold pairBody at hx
  rw [List.mem_append] at hx
  rcases hx with hx | hx
  · exact fmtChars_clean _ x hx
  · rcases List.mem_cons.mp hx with rfl | hx
    · decide
    · exact fmtChars_clean _ x hx

theorem subpathSegsRaw_clean (sp : Subpath) :
    ∀ pr ∈ subpathSegsRaw sp, isCmdChar pr.1 = true ∧ ∀ x ∈ pr.2, isCmdChar x = false := by
  obtain ⟨points, closed⟩ := sp
  cases points with
  | nil =>
    intro pr hpr
    simp [subpathSegsRaw] at hpr
  | cons p0 rest =>
    intro pr hpr
    simp only [subpathSegsRaw] at hpr
    rcases List.mem_cons.mp hpr with rfl | hpr
    · exact ⟨(by decide : isCmdChar 'M' = true), pairBody_clean p0⟩
    · rw [List.append_eq, List.mem_append] at hpr
      rcases hpr with hpr | hpr
      · obtain ⟨p, _, rfl⟩ := List.mem_map.mp hpr
        exact ⟨(by decide : isCmdChar 'L' = true), pairBody_clean p⟩
      · cases closed with
        | true =>
          simp only [if_pos rfl] at hpr
          rcases List.mem_singleton.mp hpr with rfl
          exact ⟨(by decide : isCmdChar 'Z' = true), by intro x hx; simp at hx⟩
        | false =>
          simp at hpr

/-- Segmentation of a serialized subpath list: the raw parts, with each
non-final part's body extended by the joining space. -/
theorem toSegments_serializeChars (sps : List Subpath) :
    toSegments (serializeChars sps) = attachSpaces (sps.flatMap subpathSegsRaw) := by
  rw [serializeChars_eq]
  exact toSegments_join _ (fun pr hpr => by
    obtain ⟨sp, _, hmem⟩ := List.mem_flatMap.mp hpr
    exact subpathSegsRaw_clean sp pr hmem)

/-! ### The parse fold over serialized segments -/

/-- All the parser uses of a segment: its command and its lexed numbers. -/
def segKey (pr : Char × List Char) : Char × List ℚ := (pr.1, lexNumbers pr.2)

theorem foldl_applyCommand_keys (segs : List (Char × List Char)) (st : ParseState) :
    segs.foldl (fun st pr => applyCommand st pr.1 pr.2) st
      = (segs.map segKey).foldl (fun st pr => applyKey st pr.1 pr.2) st := by
  induction segs generalizing st with
  | nil => rfl
  | cons pr rest ih =>
    simp only [List.foldl_cons, List.map_cons]
    exact ih (applyCommand st pr.1 pr.2)

/-- Adding the joining space to a segment body does not change its key, for
bodies whose lexing ignores a trailing space. -/
theorem attachSpaces_keys (segs : List (Char × List Char))
    (h : ∀ pr ∈ segs, lexNumbers (pr.2 ++ [' ']) = lexNumbers pr.2) :
    (attachSpaces segs).map segKey = segs.map segKey := by
  induction segs with
  | nil => rfl
  | cons pr rest ih =>
    cases rest with
    | nil => rfl
    | cons pr2 rest2 =>
      show ((pr.1, pr.2 ++ [' ']) :: attachSpaces (pr2 :: rest2)).map segKey = _
      rw [List.map_cons, List.map_cons,
        ih (fun x hx => h x (List.mem_cons_of_mem _ hx))]
      unfold segKey
      rw [h pr (List.mem_cons_self _ _)]

theorem lexNumbers_pairBody (p : Point) :
    lexNumbers (pairBody p) = [r6q p.x, r6q p.y] := by
  have := lexNumbers_pair p.x p.y [] (Or.inl rfl)
  simpa [pairBody] using this

theorem lexNumbers_pairBody_space (p : Point) :
    lexNumbers (pairBody p ++ [' ']) = [r6q p.x, r6q p.y] := by
  have := lexNumbers_pair p.x p.y [' '] (Or.inr rfl)
  simpa [pairBody] using this

theorem subpathSegsRaw_space_ok (sp : Subpath) :
    ∀ pr ∈ subpathSegsRaw sp, lexNumbers (pr.2 ++ [' ']) = lexNumbers pr.2 := by
  obtain ⟨points, closed⟩ := sp
  cases points with
  | nil => intro pr hpr; simp [subpathSegsRaw] at hpr
  | cons p0 rest =>
    intro pr hpr
    simp only [subpathSegsRaw] at hpr
    rcases List.mem_cons.mp hpr with rfl | hpr
    · rw [lexNumbers_pairBody_space, lexNumbers_pairBody]
    · rw [List.append_eq, List.mem_append] at hpr
      rcases hpr with hpr | hpr
      · obtain ⟨p, _, rfl⟩ := List.mem_map.mp hpr
        rw [lexNumbers_pairBody_space, lexNumbers_pairBody]
      · cases closed with
        | true =>
          simp only [if_pos rfl] at hpr
          rcases List.mem_singleton.mp hpr with rfl
          rfl
        | false => simp at hpr

/-- The keyed segments of one subpath. -/
def subpathKeys (sp : Subpath) : List (Char × List ℚ) :=
  match sp.points with
  | [] => []
  | p0 :: rest =>
      ('M', [r6q p0.x, r6q p0.y]) :: rest.map (fun p => ('L', [r6q p.x, r6q p.y])) ++
        (if sp.closed then [('Z', [])] else [])

theorem mapL_keys (rest : List Point) :
    (rest.map (fun p => ('L', pairBody p))).map segKey
      = rest.map (fun p => (('L', [r6q p.x, r6q p.y]) : Char × List ℚ)) := by
  induction rest with
  | nil => rfl
  | cons p ps ih =>
    simp only [List.map_cons]
    rw [ih]
    congr 1
    show ('L', lexNumbers (pairBody p)) = ('L', [r6q p.x, r6q p.y])
    rw [lexNumbers_pairBody]

theorem subpathSegsRaw_keys (sp : Subpath) :
    (subpathSegsRaw sp).map segKey = subpathKeys sp := by
  obtain ⟨points, closed⟩ := sp
  cases points with
  | nil => rfl
  | cons p0 rest =>
    show (('M', pairBody p0) :: (rest.map (fun p => ('L', pairBody p)) ++
        (if closed then [('Z', [])] else []))).map segKey
      = ('M', [r6q p0.x, r6q p0.y]) ::
          (rest.map (fun p => ('L', [r6q p.x, r6q p.y])) ++
            (if closed then [('Z', [])] else []))
    rw [List.map_cons, List.map_append, mapL_keys]
    congr 1
    · show ('M', lexNumbers (pairBody p0)) = ('M', [r6q p0.x, r6q p0.y])
      rw [lexNumbers_pairBody]
    · congr 1
      cases closed with
      | true => rfl
      | false => rfl

/-- The key sequence of the entire serialized path. -/
theorem serialize_keys (sps : List Subpath) :
    (toSegments (serializeChars sps)).map segKey = sps.flatMap subpathKeys := by
  rw [toSegments_serializeChars,
    attachSpaces_keys _ (fun pr hpr => by
      obtain ⟨sp, _, hmem⟩ := List.mem_flatMap.mp hpr
      exact subpathSegsRaw_space_ok sp pr hmem),
    List.map_flatMap]
  congr 1
  funext sp
  exact subpathSegsRaw_keys sp

theorem resolvePair_abs (cp : Option Point) (p : ℚ × ℚ) :
    resolvePair false cp p = ⟨p.1, p.2⟩ := by
  cases cp <;> simp [resolvePair]

theorem applyKey_M (st : ParseState) (x y : ℚ) :
    applyKey st 'M' [x, y] = startSubpath st ⟨x, y⟩ := by
  show (if ('M' == 'Z' || 'M' == 'z') = true then zApply st
    else if [x, y].length < 2 then st
    else processPairs ('M' == 'M' || 'M' == 'm') ('M' == 'm' || 'M' == 'l') true
      (numsToPairs [x, y]) st) = _
  norm_num
  show processPairs true false true [(x, y)] st = _
  unfold processPairs
  rw [resolvePair_abs]
  rfl

theorem applyKey_L (st : ParseState) (x y : ℚ) :
    applyKey st 'L' [x, y] = addPoint st ⟨x, y⟩ := by
  show (if ('L' == 'Z' || 'L' == 'z') = true then zApply st
    else if [x, y].length < 2 then st
    else processPairs ('L' == 'M' || 'L' == 'm') ('L' == 'm' || 'L' == 'l') true
      (numsToPairs [x, y]) st) = _
  norm_num
  show processPairs false false true [(x, y)] st = _
  unfold processPairs
  rw [resolvePair_abs]
  rfl

theorem applyKey_Z (st : ParseState) (ns : List ℚ) :
    applyKey st 'Z' ns = zApply st := by
  show (if ('Z' == 'Z' || 'Z' == 'z') = true then zApply st else _) = _
  norm_num

theorem flushCurrent_subpaths_some {st : ParseState} {cur : Subpath}
    (hcur : st.current = some cur) (hne : cur.points ≠ []) :
    (flushCurrent st).subpaths = st.subpaths ++ [cur] := by
  unfold flushCurrent
  rw [hcur]
  have : cur.points.length > 0 := by
    cases hp : cur.points with
    | nil => exact absurd hp hne
    | cons a b => simp [hp]
  simp [this]

theorem zApply_current {st : ParseState} {cur : Subpath}
    (hcur : st.current = some cur) :
    ∃ cp, zApply st = { st with current := some ⟨cur.points, true⟩
                                currentPoint := cp } := by
  unfold zApply
  rw [hcur]
  cases hss : st.subpathStart with
  | none =>
    refine ⟨st.currentPoint, ?_⟩
    simp only [hss]
  | some p =>
    refine ⟨some p, ?_⟩
    simp only [hss]

theorem foldl_L_keys : ∀ (ps : List Point) (st : ParseState) (cur : Subpath),
    st.current = some cur →
    ∃ cp, (ps.map (fun p => (('L', [r6q p.x, r6q p.y]) : Char × List ℚ))).foldl
        (fun st pr => applyKey st pr.1 pr.2) st
      = { st with current := some ⟨cur.points ++ ps.map roundPoint, cur.closed⟩
                  currentPoint := cp } := by
  intro ps
  induction ps with
  | nil =>
    intro st cur hcur
    refine ⟨st.currentPoint, ?_⟩
    simp only [List.map_nil, List.foldl_nil, List.append_nil]
    cases st
    simp at hcur ⊢
    rw [hcur]
  | cons p ps2 ih =>
    intro st cur hcur
    simp only [List.map_cons, List.foldl_cons]
    have hstep : applyKey st 'L' [r6q p.x, r6q p.y] =
        { st with current := some ⟨cur.points ++ [roundPoint p], cur.closed⟩
                  currentPoint := some (roundPoint p) } := by
      rw [applyKey_L]
      unfold addPoint
      rw [hcur]
      rfl
    rw [hstep]
    obtain ⟨cp, hfold⟩ :=
      ih { st with current := some ⟨cur.points ++ [roundPoint p], cur.closed⟩
                   currentPoint := some (roundPoint p) }
        ⟨cur.points ++ [roundPoint p], cur.closed⟩ rfl
    refine ⟨cp, ?_⟩
    rw [hfold]
    cases st
    simp [List.append_assoc]

theorem startSubpath_fields (st : ParseState) (p : Point) :
    (startSubpath st p).current = some ⟨[p], false⟩ ∧
    (startSubpath st p).subpaths = (flushCurrent st).subpaths := by
  unfold startSubpath
  constructor
  · rfl
  · show (flushCurrent st).subpaths = _
    rfl

/-- The parse fold over the keyed segments of a serialized subpath list:
each subpath is recovered with rounded coordinates, appended after whatever
the incoming state already held. -/
theorem fold_keyed : ∀ (sps : List Subpath) (st : ParseState),
    (∀ sp ∈ sps, sp.points ≠ []) →
    (flushCurrent ((sps.flatMap subpathKeys).foldl
        (fun st pr => applyKey st pr.1 pr.2) st)).subpaths
      = (flushCurrent st).subpaths ++ roundSubpaths sps := by
  intro sps
  induction sps with
  | nil =>
    intro st h
    simp [roundSubpaths]
  | cons sp rest ih =>
    intro st h
    obtain ⟨points, closed⟩ := sp
    obtain ⟨p0, ps, rfl⟩ : ∃ p0 ps, points = p0 :: ps := by
      cases hp : points with
      | nil =>
        exact absurd (by rw [hp] : (Subpath.mk points closed).points = [])
          (h _ (List.mem_cons_self _ _))
      | cons a b => exact ⟨a, b, rfl⟩
    show (flushCurrent (((('M', [r6q p0.x, r6q p0.y]) ::
        (ps.map (fun p => ('L', [r6q p.x, r6q p.y])) ++
          (if closed then [('Z', [])] else []))) ++ rest.flatMap subpathKeys).foldl
        (fun st pr => applyKey st pr.1 pr.2) st)).subpaths = _
    rw [List.foldl_append, List.foldl_cons, List.foldl_append]
    rw [(applyKey_M st (r6q p0.x) (r6q p0.y) :
      applyKey st ('M', [r6q p0.x, r6q p0.y]).1 ('M', [r6q p0.x, r6q p0.y]).2
        = startSubpath st ⟨r6q p0.x, r6q p0.y⟩)]
    have hM := startSubpath_fields st ⟨r6q p0.x, r6q p0.y⟩
    obtain ⟨cpL, hL⟩ := foldl_L_keys ps (startSubpath st ⟨r6q p0.x, r6q p0.y⟩)
      ⟨[⟨r6q p0.x, r6q p0.y⟩], false⟩ hM.1
    rw [hL]
    set stL : ParseState :=
      { startSubpath st ⟨r6q p0.x, r6q p0.y⟩ with
          current := some ⟨[⟨r6q p0.x, r6q p0.y⟩] ++ ps.map roundPoint, false⟩
          currentPoint := cpL } with hstL
    have hcurL : stL.current = some ⟨(p0 :: ps).map roundPoint, false⟩ := by
      rw [hstL]
      simp [roundPoint]
    have hsubL : stL.subpaths = (flushCurrent st).subpaths := by
      rw [hstL]
      simpa using hM.2
    have hzfin : ∃ stZ : ParseState,
        (if closed then [(('Z', []) : Char × List ℚ)] else []).foldl
          (fun st pr => applyKey st pr.1 pr.2) stL = stZ ∧
        stZ.current = some ⟨(p0 :: ps).map roundPoint, closed⟩ ∧
        stZ.subpaths = (flushCurrent st).subpaths := by
      cases closed with
      | true =>
        obtain ⟨cpz, hz⟩ := zApply_current hcurL
        refine ⟨zApply stL, ?_, ?_, ?_⟩
        · simp only [if_pos rfl, List.foldl_cons, List.foldl_nil]
          exact (applyKey_Z stL [] :
            applyKey stL ('Z', ([] : List ℚ)).1 ('Z', ([] : List ℚ)).2 = zApply stL)
        · rw [hz]
        · rw [hz]
          simpa using hsubL
      | false =>
        exact ⟨stL, by simp, hcurL, hsubL⟩
    obtain ⟨stZ, hfold, hcurZ, hsubZ⟩ := hzfin
    rw [hfold]
    rw [ih stZ (fun x hx => h x (List.mem_cons_of_mem _ hx))]
    rw [flushCurrent_subpaths_some hcurZ (by simp)]
    rw [hsubZ]
    show ((flushCurrent st).subpaths ++ [⟨(p0 :: ps).map roundPoint, closed⟩]) ++
        roundSubpaths rest = (flushCurrent st).subpaths ++ roundSubpaths (⟨p0 :: ps, closed⟩ :: rest)
    rw [List.append_assoc]
    rfl

/-- Parsing the serialization of a subpath list (every subpath nonempty)
recovers the subpaths with every coordinate rounded to 6 decimals. -/
theorem parse_serialize (sps : List Subpath) (h : ∀ sp ∈ sps, sp.points ≠ []) :
    parsePathData (serializeSubpaths sps) = roundSubpaths sps := by
  unfold parsePathData serializeSubpaths
  show (flushCurrent ((toSegments (serializeChars sps)).foldl
    (fun st (seg : Char × List Char) => applyCommand st seg.1 seg.2) initState)).subpaths = _
  rw [foldl_applyCommand_keys, serialize_keys]
  have := fold_keyed sps initState h
  simpa [flushCurrent, initState] using this

/-! ### Relative-command accumulation -/

/-- Absolute positions obtained by accumulating each relative pair onto the
previously resolved point. -/
def cumPoints (cp : Point) : List (ℚ × ℚ) → List Point
  | [] => []
  | d :: rest => ⟨d.1 + cp.x, d.2 + cp.y⟩ :: cumPoints ⟨d.1 + cp.x, d.2 + cp.y⟩ rest

/-- The point that is current after accumulating all the pairs. -/
def endPoint (cp : Point) : List (ℚ × ℚ) → Point
  | [] => cp
  | d :: rest => endPoint ⟨d.1 + cp.x, d.2 + cp.y⟩ rest

/-- The relative pair loop: with an open subpath and a resolved current
point, every pair accumulates onto the most recently resolved point, so the
appended points are the cumulative sums. -/
theorem processPairs_rel : ∀ (pairs : List (ℚ × ℚ)) (isM isFirst : Bool)
    (st : ParseState) (cur : Subpath) (cp : Point),
    (isM = false ∨ isFirst = false) →
    st.current = some cur → st.currentPoint = some cp →
    processPairs isM true isFirst pairs st
      = { st with current := some ⟨cur.points ++ cumPoints cp pairs, cur.closed⟩
                  currentPoint := some (endPoint cp pairs) } := by
  intro pairs
  induction pairs with
  | nil =>
    intro isM isFirst st cur cp hor hcur hcp
    show st = _
    cases st
    simp at hcur hcp ⊢
    rw [hcur, hcp]
    simp [cumPoints, endPoint]
  | cons d rest ih =>
    intro isM isFirst st cur cp hor hcur hcp
    show processPairs isM true isFirst (d :: rest) st = _
    unfold processPairs
    have hmf : (isM && isFirst) = false := by
      rcases hor with h | h <;> simp [h]
    rw [hmf]
    simp only [Bool.false_eq_true, if_false]
    have hnp : resolvePair true st.currentPoint d = ⟨d.1 + cp.x, d.2 + cp.y⟩ := by
      rw [hcp]
      rfl
    rw [hnp]
    have hadd : addPoint st ⟨d.1 + cp.x, d.2 + cp.y⟩
        = { st with current := some ⟨cur.points ++ [⟨d.1 + cp.x, d.2 + cp.y⟩], cur.closed⟩
                    currentPoint := some ⟨d.1 + cp.x, d.2 + cp.y⟩ } := by
      unfold addPoint
      rw [hcur]
    rw [hadd]
    rw [ih isM false _ ⟨cur.points ++ [⟨d.1 + cp.x, d.2 + cp.y⟩], cur.closed⟩
      ⟨d.1 + cp.x, d.2 + cp.y⟩ (Or.inr rfl) rfl rfl]
    cases st
    simp [cumPoints, endPoint, List.append_assoc]

/-! ### Shape of `formatNumber` output -/

theorem fracCharsOf_len_le (fr : ℕ) (h : fr < mega) : (fracCharsOf fr).length ≤ 6 := by
  obtain ⟨j, hj, _⟩ := fracCharsOf_val fr h
  omega

theorem renderNat_eq_zeroChar {k : ℕ} (h : renderNat k = ['0']) : k = 0 := by
  by_contra hk
  unfold renderNat at h
  rw [if_neg hk] at h
  have hds : natDigits k = [0] := by
    rcases hds : natDigits k with _ | ⟨d, rest⟩
    · rw [hds] at h
      simp at h
    · rw [hds] at h
      rcases rest with _ | ⟨d2, rest2⟩
      · simp at h
        have hd10 : d < 10 := by
          have := natDigits_eq k
          rw [hds] at this
          exact Nat.digits_lt_base (by norm_num) (by rw [← this]; exact List.mem_singleton_self d)
        have : charVal (digitChar d) = charVal '0' := by rw [h]
        rw [charVal_digitChar hd10] at this
        have : d = 0 := by simpa [charVal] using this
        rw [this]
      · exfalso
        have := congrArg List.length h
        simp at this
  have h2 := Nat.ofDigits_digits 10 k
  rw [← natDigits_eq, hds] at h2
  simp [Nat.ofDigits] at h2
  exact hk h2.symm

/-- The structural shape of one formatted number: optional minus sign, a
digit-only integer part, then at most 6 fractional digits after a dot. -/
theorem fmtChars_shape (q : ℚ) :
    ∃ sign intCs frCs, (sign = [] ∨ sign = ['-']) ∧
      (∀ c ∈ intCs, c.isDigit = true) ∧ (∀ c ∈ frCs, c.isDigit = true) ∧
      frCs.length ≤ 6 ∧
      fmtChars q = sign ++ intCs ++ (if frCs.isEmpty then [] else '.' :: frCs) := by
  have hFr : (r6 q).natAbs % mega < mega := Nat.mod_lt _ (by norm_num [mega])
  refine ⟨(if r6 q < 0 then ['-'] else []), renderNat ((r6 q).natAbs / mega),
    fracCharsOf ((r6 q).natAbs % mega), ?_, renderNat_all_digits _,
    fracCharsOf_all_digits _, fracCharsOf_len_le _ hFr, ?_⟩
  · by_cases hn : r6 q < 0
    · rw [if_pos hn]
      exact Or.inr rfl
    · rw [if_neg hn]
      exact Or.inl rfl
  · unfold fmtChars
    by_cases hn : r6 q < 0
    · rw [if_pos hn, if_pos hn]
      rfl
    · rw [if_neg hn, if_neg hn]
      rfl

theorem fmtChars_ne_negZero (q : ℚ) : fmtChars q ≠ ['-', '0'] := by
  intro hcontra
  unfold fmtChars at hcontra
  by_cases hn : r6 q < 0
  · rw [if_pos hn] at hcontra
    have hcore : renderNat ((r6 q).natAbs / mega) ++
        (if (fracCharsOf ((r6 q).natAbs % mega)).isEmpty then []
         else '.' :: fracCharsOf ((r6 q).natAbs % mega)) = ['0'] := by
      have h2 := hcontra
      simp only [List.cons.injEq] at h2
      exact h2.2
    by_cases hemp : (fracCharsOf ((r6 q).natAbs % mega)).isEmpty
    · rw [if_pos hemp, List.append_nil] at hcore
      have hdiv0 : (r6 q).natAbs / mega = 0 := renderNat_eq_zeroChar hcore
      have hFr : (r6 q).natAbs % mega < mega := Nat.mod_lt _ (by norm_num [mega])
      have hmod0 : (r6 q).natAbs % mega = 0 :=
        (fracCharsOf_nil_iff _ hFr).mp (List.isEmpty_iff.mp hemp)
      have habs0 : (r6 q).natAbs = 0 := by
        have hdm := Nat.div_add_mod (r6 q).natAbs mega
        rw [hdiv0, hmod0] at hdm
        simpa using hdm.symm
      have : r6 q ≠ 0 := by omega
      exact this (Int.natAbs_eq_zero.mp habs0)
    · rw [if_neg hemp] at hcore
      have hFne : fracCharsOf ((r6 q).natAbs % mega) ≠ [] := by simpa using hemp
      obtain ⟨c, cs, hI⟩ := List.exists_cons_of_ne_nil (renderNat_ne_nil ((r6 q).natAbs / mega))
      obtain ⟨f, fs, hF⟩ := List.exists_cons_of_ne_nil hFne
      rw [hI, hF] at hcore
      have := congrArg List.length hcore
      simp at this
  · rw [if_neg hn] at hcontra
    have hmem : '-' ∈ renderNat ((r6 q).natAbs / mega) ++
        (if (fracCharsOf ((r6 q).natAbs % mega)).isEmpty then []
         else '.' :: fracCharsOf ((r6 q).natAbs % mega)) := by
      rw [hcontra]
      simp
    rw [List.mem_append] at hmem
    rcases hmem with hmem | hmem
    · have := renderNat_all_digits _ _ hmem
      exact absurd this (by decide)
    · by_cases hemp : (fracCharsOf ((r6 q).natAbs % mega)).isEmpty
      · rw [if_pos hemp] at hmem
        simp at hmem
      · rw [if_neg hemp] at hmem
        rcases List.mem_cons.mp hmem with h1 | h1
        · exact absurd h1 (by decide)
        · have := fracCharsOf_all_digits _ _ h1
          exact absurd this (by decide)

/-! ### Dot-adjustment lemmas

The dot adjuster maps every point of the detected subpath by the monotone
affine rescale `affX a s` (with `0 ≤ s`), so its raw bounding box transforms
by `affB a s`; with `s = min w 0.08 / w` about `a = (minX + maxX)/2` this
pins the new width to `min w 0.08` and preserves the horizontal center. -/

theorem aff_min (a s u v : ℚ) (hs : 0 ≤ s) :
    min (a + (u - a) * s) (a + (v - a) * s) = a + (min u v - a) * s := by
  rcases le_total u v with h | h
  · have h2 : a + (u - a) * s ≤ a + (v - a) * s := by
      have h3 := mul_le_mul_of_nonneg_right (sub_le_sub_right h a) hs
      linarith
    rw [min_eq_left h2, min_eq_left h]
  · have h2 : a + (v - a) * s ≤ a + (u - a) * s := by
      have h3 := mul_le_mul_of_nonneg_right (sub_le_sub_right h a) hs
      linarith
    rw [min_eq_right h2, min_eq_right h]

theorem aff_max (a s u v : ℚ) (hs : 0 ≤ s) :
    max (a + (u - a) * s) (a + (v - a) * s) = a + (max u v - a) * s := by
  rcases le_total u v with h | h
  · have h2 : a + (u - a) * s ≤ a + (v - a) * s := by
      have h3 := mul_le_mul_of_nonneg_right (sub_le_sub_right h a) hs
      linarith
    rw [max_eq_right h2, max_eq_right h]
  · have h2 : a + (v - a) * s ≤ a + (u - a) * s := by
      have h3 := mul_le_mul_of_nonneg_right (sub_le_sub_right h a) hs
      linarith
    rw [max_eq_left h2, max_eq_left h]

theorem rawStep_aff (a s : ℚ) (hs : 0 ≤ s) (acc : Option BBox) (p : Point) :
    rawStep (acc.map (affB a s)) (affX a s p) = (rawStep acc p).map (affB a s) := by
  cases acc with
  | none => rfl
  | some b =>
      show some (⟨min (a + (b.minX - a) * s) (a + (p.x - a) * s),
          max (a + (b.maxX - a) * s) (a + (p.x - a) * s),
          min b.minY p.y, max b.maxY p.y⟩ : BBox)
        = some ⟨a + (min b.minX p.x - a) * s, a + (max b.maxX p.x - a) * s,
            min b.minY p.y, max b.maxY p.y⟩
      rw [aff_min a s b.minX p.x hs, aff_max a s b.maxX p.x hs]

theorem rawBBox_fold_aff (a s : ℚ) (hs : 0 ≤ s) (ps : List Point) :
    ∀ acc : Option BBox,
      (ps.map (affX a s)).foldl rawStep (acc.map (affB a s))
        = (ps.foldl rawStep acc).map (affB a s) := by
  induction ps with
  | nil => intro acc; rfl
  | cons p ps ih =>
      intro acc
      simp only [List.map_cons, List.foldl_cons]
      rw [rawStep_aff a s hs acc p]
      exact ih (rawStep acc p)

theorem rawBBox_aff (a s : ℚ) (hs : 0 ≤ s) (ps : List Point) :
    rawBBox (ps.map (affX a s)) = (rawBBox ps).map (affB a s) :=
  rawBBox_fold_aff a s hs ps none

theorem affB_width (a w8 : ℚ) (b : BBox) (hw : 0 < b.maxX - b.minX) :
    (affB a (min (b.maxX - b.minX) w8 / (b.maxX - b.minX)) b).maxX
      - (affB a (min (b.maxX - b.minX) w8 / (b.maxX - b.minX)) b).minX
      = min (b.maxX - b.minX) w8 := by
  have h0 : b.maxX - b.minX ≠ 0 := ne_of_gt hw
  show (a + (b.maxX - a) * (min (b.maxX - b.minX) w8 / (b.maxX - b.minX)))
      - (a + (b.minX - a) * (min (b.maxX - b.minX) w8 / (b.maxX - b.minX)))
      = min (b.maxX - b.minX) w8
  field_simp
  ring

theorem affB_center (s : ℚ) (b : BBox) :
    (affB ((b.minX + b.maxX) / 2) s b).minX + (affB ((b.minX + b.maxX) / 2) s b).maxX
      = b.minX + b.maxX := by
  show ((b.minX + b.maxX) / 2 + (b.minX - (b.minX + b.maxX) / 2) * s)
      + ((b.minX + b.maxX) / 2 + (b.maxX - (b.minX + b.maxX) / 2) * s)
      = b.minX + b.maxX
  ring

theorem mapAtIdx_get? (f : Subpath → Subpath) (l : List Subpath) :
    ∀ di i j : ℕ,
      (mapAtIdx f di i l).get? j
        = if i + j = di then (l.get? j).map f else l.get? j := by
  induction l with
  | nil => intro di i j; simp [mapAtIdx]
  | cons sp rest ih =>
      intro di i j
      cases j with
      | zero =>
          by_cases h : i = di
          · subst h
            simp [mapAtIdx]
          · simp [mapAtIdx, h]
      | succ j =>
          show ((if i ≠ di then sp else f sp) :: mapAtIdx f di (i + 1) rest).get? (j + 1) = _
          rw [List.get?_cons_succ, List.get?_cons_succ, ih di (i + 1) j]
          by_cases h : (i + 1) + j = di
          · rw [if_pos h, if_pos (by omega : i + (j + 1) = di)]
          · rw [if_neg h, if_neg (by omega : ¬ i + (j + 1) = di)]

theorem findDotGo_cons_none (sp : Subpath) (rest : List Subpath) (i : ℕ)
    (best : Option (ℕ × BBox)) (hb : rawBBox sp.points = none) :
    findDotGo (sp :: rest) i best = findDotGo rest (i + 1) best := by
  simp only [findDotGo, hb]

theorem findDotGo_cons_some (sp : Subpath) (rest : List Subpath) (i : ℕ)
    (best : Option (ℕ × BBox)) (b : BBox) (hb : rawBBox sp.points = some b) :
    findDotGo (sp :: rest) i best
      = findDotGo rest (i + 1)
          (if decide (b.maxY - b.minY = 0) && decide (0 < b.maxX - b.minX)
              && dotBetter b best
           then some (i, b) else best) := by
  simp only [findDotGo, hb]

theorem findDotGo_spec (l : List Subpath) :
    ∀ (i : ℕ) (best : Option (ℕ × BBox)) (pr : ℕ × BBox),
      findDotGo l i best = some pr →
      best = some pr ∨
        ∃ j sp, i + j = pr.1 ∧ l.get? j = some sp ∧
          rawBBox sp.points = some pr.2 ∧
          pr.2.maxY - pr.2.minY = 0 ∧ 0 < pr.2.maxX - pr.2.minX := by
  induction l with
  | nil => intro i best pr h; exact Or.inl h
  | cons sp rest ih =>
      intro i best pr h
      cases hb : rawBBox sp.points with
      | none =>
          rw [findDotGo_cons_none sp rest i best hb] at h
          rcases ih (i + 1) best pr h with h1 | ⟨j, sp2, hj, hget, hbb, hh, hw⟩
          · exact Or.inl h1
          · exact Or.inr ⟨j + 1, sp2, by omega,
              by rw [List.get?_cons_succ]; exact hget, hbb, hh, hw⟩
      | some b =>
          rw [findDotGo_cons_some sp rest i best b hb] at h
          by_cases hbet : (decide (b.maxY - b.minY = 0) && decide (0 < b.maxX - b.minX)
              && dotBetter b best) = true
          · rw [if_pos hbet] at h
            rcases ih (i + 1) (some (i, b)) pr h with h1 | ⟨j, sp2, hj, hget, hbb, hh, hw⟩
            · have hpr : (i, b) = pr := Option.some.inj h1
              rw [Bool.and_eq_true, Bool.and_eq_true] at hbet
              obtain ⟨⟨hb1, hb2⟩, _⟩ := hbet
              subst hpr
              exact Or.inr ⟨0, sp, rfl, rfl, hb,
                of_decide_eq_true hb1, of_decide_eq_true hb2⟩
            · exact Or.inr ⟨j + 1, sp2, by omega,
                by rw [List.get?_cons_succ]; exact hget, hbb, hh, hw⟩
          · rw [if_neg hbet] at h
            rcases ih (i + 1) best pr h with h1 | ⟨j, sp2, hj, hget, hbb, hh, hw⟩
            · exact Or.inl h1
            · exact Or.inr ⟨j + 1, sp2, by omega,
                by rw [List.get?_cons_succ]; exact hget, hbb, hh, hw⟩

theorem findDot_spec (sps : List Subpath) (di : ℕ) (bb : BBox)
    (h : findDot sps = some (di, bb)) :
    ∃ sp, sps.get? di = some sp ∧ rawBBox sp.points = some bb ∧
      bb.maxY - bb.minY = 0 ∧ 0 < bb.maxX - bb.minX := by
  rcases findDotGo_spec sps 0 none (di, bb) h with h1 | ⟨j, sp, hj, hget, hbb, hh, hw⟩
  · simp at h1
  · have hj' : 0 + j = di := hj
    have hjd : j = di := by omega
    subst hjd
    exact ⟨sp, hget, hbb, hh, hw⟩

/-! ### Vertical-geometry lemmas

Pass 2 shifts the underscore's parsed subpaths vertically and reserializes
them; Pass 3 shifts horizontally and reserializes.  Reserialization rounds
every coordinate to 6 decimals, so y coordinates that are already exact
multiples of `1e-6` survive both passes unchanged. -/

theorem micro_of_fix {q : ℚ} (h : r6q q = q) : Micro q := h ▸ r6q_is_micro q

theorem micro_zero : Micro 0 := ⟨0, by norm_num⟩

theorem micro_sub {a b : ℚ} (ha : Micro a) (hb : Micro b) : Micro (a - b) := by
  obtain ⟨m, rfl⟩ := ha
  obtain ⟨n, rfl⟩ := hb
  exact ⟨m - n, by push_cast; ring⟩

theorem micro_add {a b : ℚ} (ha : Micro a) (hb : Micro b) : Micro (a + b) := by
  obtain ⟨m, rfl⟩ := ha
  obtain ⟨n, rfl⟩ := hb
  exact ⟨m + n, by push_cast; ring⟩

theorem allPoints_mapPts (g : Point → Point) (sps : List Subpath) :
    allPoints (sps.map (fun sp => ⟨sp.points.map g, sp.closed⟩))
      = (allPoints sps).map g := by
  induction sps with
  | nil => rfl
  | cons sp rest ih =>
      show (sp.points.map g) ++ allPoints (rest.map _) = (sp.points ++ allPoints rest).map g
      rw [List.map_append, ih]

theorem maxStep_mem (a : Option ℚ) (q m : ℚ) (h : maxStep a q = some m) :
    a = some m ∨ m = q := by
  cases a with
  | none =>
      right
      exact (Option.some.inj h).symm
  | some m0 =>
      have h2 : max m0 q = m := Option.some.inj h
      rcases max_choice m0 q with hc | hc
      · left
        rw [hc] at h2
        rw [h2]
      · right
        rw [hc] at h2
        exact h2.symm

theorem maxList_fold_mem (l : List ℚ) :
    ∀ (a : Option ℚ) (m : ℚ), l.foldl maxStep a = some m → a = some m ∨ m ∈ l := by
  induction l with
  | nil => intro a m h; exact Or.inl h
  | cons q rest ih =>
      intro a m h
      rcases ih (maxStep a q) m h with h1 | h1
      · rcases maxStep_mem a q m h1 with h2 | h2
        · exact Or.inl h2
        · exact Or.inr (h2 ▸ List.mem_cons_self q rest)
      · exact Or.inr (List.mem_cons_of_mem q h1)

theorem maxList_mem (l : List ℚ) (m : ℚ) (h : maxList l = some m) : m ∈ l := by
  rcases maxList_fold_mem l none m h with h1 | h1
  · simp at h1
  · exact h1

theorem maxStep_add (δ : ℚ) (a : Option ℚ) (q : ℚ) :
    maxStep (a.map (fun x => x + δ)) (q + δ) = (maxStep a q).map (fun x => x + δ) := by
  cases a with
  | none => rfl
  | some m =>
      show some (max (m + δ) (q + δ)) = some (max m q + δ)
      rw [max_add_add_right]

theorem maxList_fold_add (δ : ℚ) (l : List ℚ) :
    ∀ a : Option ℚ,
      (l.map (fun x => x + δ)).foldl maxStep (a.map (fun x => x + δ))
        = (l.foldl maxStep a).map (fun x => x + δ) := by
  induction l with
  | nil => intro a; rfl
  | cons q rest ih =>
      intro a
      simp only [List.map_cons, List.foldl_cons]
      rw [maxStep_add δ a q]
      exact ih (maxStep a q)

theorem maxList_map_add (δ : ℚ) (l : List ℚ) :
    maxList (l.map (fun x => x + δ)) = (maxList l).map (fun x => x + δ) :=
  maxList_fold_add δ l none

theorem maxList_fold_some (l : List ℚ) :
    ∀ v : ℚ, l.foldl maxStep (some v) ≠ none := by
  induction l with
  | nil => intro v h; exact Option.noConfusion h
  | cons q rest ih =>
      intro v
      show rest.foldl maxStep (some (max v q)) ≠ none
      exact ih (max v q)

/-- Shifting y by `δ` shifts the deepest point by `δ` (for glyphs with at
least one point). -/
theorem getMaxY_shiftY (sps : List Subpath) (δ : ℚ) (hne : allPoints sps ≠ []) :
    getMaxYFromSubpaths (shiftSubpathsY sps δ) = getMaxYFromSubpaths sps + δ := by
  unfold getMaxYFromSubpaths shiftSubpathsY
  rw [allPoints_mapPts]
  have hys : ((allPoints sps).map (fun p => (⟨p.x, p.y + δ⟩ : Point))).map (fun p => p.y)
      = ((allPoints sps).map (fun p => p.y)).map (fun x => x + δ) := by
    rw [List.map_map, List.map_map]
    rfl
  rw [hys, maxList_map_add]
  cases hm : maxList ((allPoints sps).map (fun p => p.y)) with
  | none =>
      exfalso
      cases hps : allPoints sps with
      | nil => exact hne hps
      | cons p rest =>
          rw [hps] at hm
          have heq : maxList ((p :: rest).map (fun p => p.y))
              = (rest.map (fun p => p.y)).foldl maxStep (some p.y) := rfl
          rw [heq] at hm
          exact maxList_fold_some (rest.map (fun p => p.y)) p.y hm
  | some m => rfl

/-- The y's of the points are untouched by a horizontal shift. -/
theorem getMaxY_shiftX (sps : List Subpath) (δ : ℚ) :
    getMaxYFromSubpaths (shiftSubpathsX sps δ) = getMaxYFromSubpaths sps := by
  unfold getMaxYFromSubpaths shiftSubpathsX
  rw [allPoints_mapPts, List.map_map]
  rfl

/-- Rounding to 6 decimals is the identity on glyphs whose y coordinates are
already 6-decimal values, so it keeps the deepest point. -/
theorem getMaxY_round_fix (sps : List Subpath)
    (h : ∀ pt ∈ allPoints sps, r6q pt.y = pt.y) :
    getMaxYFromSubpaths (roundSubpaths sps) = getMaxYFromSubpaths sps := by
  unfold getMaxYFromSubpaths roundSubpaths
  rw [allPoints_mapPts roundPoint sps, List.map_map]
  have hys : (allPoints sps).map ((fun p : Point => p.y) ∘ roundPoint)
      = (allPoints sps).map (fun p => p.y) := by
    apply List.map_congr_left
    intro p hp
    exact h p hp
  rw [hys]

/-- The deepest point of a glyph with 6-decimal y's is itself a 6-decimal
value. -/
theorem micro_getMaxY (sps : List Subpath)
    (h : ∀ pt ∈ allPoints sps, r6q pt.y = pt.y) :
    Micro (getMaxYFromSubpaths sps) := by
  unfold getMaxYFromSubpaths
  cases hm : maxList ((allPoints sps).map (fun p => p.y)) with
  | none => exact micro_zero
  | some m =>
      have hmem := maxList_mem _ m hm
      obtain ⟨pt, hpt, hy⟩ := List.mem_map.mp hmem
      exact micro_of_fix (hy ▸ h pt hpt)

theorem lookupTable_map (f : String → String) (t : Table) (c : Char) :
    lookupTable (t.map (fun e => (e.1, f e.2))) c = (lookupTable t c).map f := by
  induction t with
  | nil => rfl
  | cons e rest ih =>
      by_cases h : (e.1 == c) = true
      · simp [lookupTable, List.find?, h]
      · simpa [lookupTable, List.find?, h] using ih

theorem lookupTable_setTable (t : Table) (c : Char) (p q : String)
    (h : lookupTable t c = some q) : lookupTable (setTable t c p) c = some p := by
  induction t with
  | nil => exact absurd h (by simp [lookupTable])
  | cons e rest ih =>
      by_cases h1 : (e.1 == c) = true
      · simp [lookupTable, setTable, List.find?, h1]
      · have h2 : lookupTable rest c = some q := by
          simpa [lookupTable, List.find?, h1] using h
        simpa [lookupTable, setTable, List.find?, h1] using ih h2

theorem mapPts_points_ne (g : Point → Point) (sps : List Subpath)
    (h : ∀ sp ∈ sps, sp.points ≠ []) :
    ∀ sp ∈ sps.map (fun sp => (⟨sp.points.map g, sp.closed⟩ : Subpath)),
      sp.points ≠ [] := by
  intro sp hsp
  obtain ⟨sp0, hsp0, rfl⟩ := List.mem_map.mp hsp
  simpa using h sp0 hsp0

theorem fixy_roundSubpaths (sps : List Subpath) :
    ∀ pt ∈ allPoints (roundSubpaths sps), r6q pt.y = pt.y := by
  intro pt hpt
  unfold roundSubpaths at hpt
  rw [allPoints_mapPts] at hpt
  obtain ⟨pt0, _, rfl⟩ := List.mem_map.mp hpt
  exact r6q_micro (r6q_is_micro pt0.y)

/-- Pass 3's shift is purely horizontal: in the non-NaN arm it never changes
the deepest point of a glyph whose y's are 6-decimal values. -/
theorem pass3Glyph_maxY (G : Jq) (q : String) (d : ℚ)
    (hd : jhalf (jsub G (getGlyphWidthRatio (getLineSegments q) strokeWidthRatio))
      = some d)
    (hsp : ∀ sp ∈ parsePathData q, sp.points ≠ [])
    (hfix : ∀ pt ∈ allPoints (parsePathData q), r6q pt.y = pt.y) :
    getMaxYFromSubpaths (parsePathData (pass3Glyph G q))
      = getMaxYFromSubpaths (parsePathData q) := by
  have hglyph : pass3Glyph G q
      = if |d| ≤ 1/1000000 then q
        else serializeSubpaths (shiftSubpathsX (parsePathData q) d) := by
    simp only [pass3Glyph, hd]
  rw [hglyph]
  by_cases habs : |d| ≤ 1/1000000
  · rw [if_pos habs]
  · rw [if_neg habs]
    have hne2 : ∀ sp ∈ shiftSubpathsX (parsePathData q) d, sp.points ≠ [] := by
      unfold shiftSubpathsX
      exact mapPts_points_ne _ _ hsp
    rw [parse_serialize _ hne2]
    have hfix2 : ∀ pt ∈ allPoints (shiftSubpathsX (parsePathData q) d),
        r6q pt.y = pt.y := by
      intro pt hpt
      unfold shiftSubpathsX at hpt
      rw [allPoints_mapPts] at hpt
      obtain ⟨pt0, hpt0, rfl⟩ := List.mem_map.mp hpt
      exact hfix pt0 hpt0
    rw [getMaxY_round_fix _ hfix2, getMaxY_shiftX]

/-! ### The split-based scan on serializer output

`getLineSegments` re-tokenizes a path string with `split("M")`, `split("L")`,
`trim` and `split(" ")`.  On a string produced by `serializeSubpaths` this
recovers exactly the consecutive-point segments of each subpath, because the
formatted numbers contain only digits, `-` and `.`. -/

theorem splitChar_ne_nil (sep : Char) : ∀ cs : List Char, splitChar sep cs ≠ [] := by
  intro cs
  induction cs with
  | nil => simp [splitChar]
  | cons c rest ih =>
      simp only [splitChar]
      cases hs : splitChar sep rest with
      | nil => simp
      | cons h t =>
          dsimp only
          by_cases hc : (c == sep) = true
          · rw [if_pos hc]
            simp
          · rw [if_neg hc]
            simp

theorem splitChar_sep_cons (sep : Char) (b : List Char) :
    splitChar sep (sep :: b) = [] :: splitChar sep b := by
  simp only [splitChar]
  cases hs : splitChar sep b with
  | nil => exact absurd hs (splitChar_ne_nil sep b)
  | cons h t =>
      dsimp only
      rw [if_pos (by simp)]

theorem splitChar_append_nosep (sep : Char) (a b : List Char)
    (ha : ∀ c ∈ a, c ≠ sep) :
    splitChar sep (a ++ b)
      = (a ++ (splitChar sep b).headD []) :: (splitChar sep b).tail := by
  induction a with
  | nil =>
      cases hs : splitChar sep b with
      | nil => exact absurd hs (splitChar_ne_nil sep b)
      | cons h t => simp [hs]
  | cons c a' ih =>
      have hc : c ≠ sep := ha c (List.mem_cons_self c a')
      have ih2 := ih (fun x hx => ha x (List.mem_cons_of_mem c hx))
      show splitChar sep (c :: (a' ++ b)) = _
      simp only [splitChar]
      rw [ih2]
      dsimp only
      rw [if_neg (by simpa using hc)]
      simp

theorem splitChar_nosep (sep : Char) (a : List Char) (ha : ∀ c ∈ a, c ≠ sep) :
    splitChar sep a = [a] := by
  have h := splitChar_append_nosep sep a [] ha
  rw [List.append_nil] at h
  rw [h]
  simp [splitChar]

theorem fmtChars_classify (q : ℚ) :
    ∀ c ∈ fmtChars q, c.isDigit = true ∨ c = '-' ∨ c = '.' := by
  obtain ⟨sign, intCs, frCs, hsign, hint, hfr, _, heq⟩ := fmtChars_shape q
  intro c hc
  rw [heq] at hc
  rcases List.mem_append.mp hc with hc | hc
  · rcases List.mem_append.mp hc with hc | hc
    · rcases hsign with rfl | rfl
      · simp at hc
      · rw [List.mem_singleton] at hc
        exact Or.inr (Or.inl hc)
    · exact Or.inl (hint c hc)
  · by_cases hemp : frCs.isEmpty
    · rw [if_pos hemp] at hc
      simp at hc
    · rw [if_neg hemp] at hc
      rcases List.mem_cons.mp hc with rfl | hc
      · exact Or.inr (Or.inr rfl)
      · exact Or.inl (hfr c hc)

theorem fmtChars_ne {q : ℚ} {sep : Char} (hd : sep.isDigit = false)
    (hm : sep ≠ '-') (hp : sep ≠ '.') : ∀ c ∈ fmtChars q, c ≠ sep := by
  intro c hc heq
  subst heq
  rcases fmtChars_classify q c hc with h | h | h
  · rw [h] at hd
    exact Bool.noConfusion hd
  · exact hm h
  · exact hp h

theorem digit_not_ws {c : Char} (h : c.isDigit = true) : c.isWhitespace = false := by
  have h1 : ('0' ≤ c ∧ c ≤ '9') := by
    simpa [Char.isDigit] using h
  by_contra hw
  rw [Bool.not_eq_false] at hw
  simp only [Char.isWhitespace, Bool.or_eq_true, beq_iff_eq,
    decide_eq_true_eq] at hw
  rcases hw with ((rfl | rfl) | rfl) | rfl <;> revert h1 <;> decide

theorem fmtChars_not_ws (q : ℚ) : ∀ c ∈ fmtChars q, c.isWhitespace = false := by
  intro c hc
  rcases fmtChars_classify q c hc with h | h | h
  · exact digit_not_ws h
  · rw [h]
    decide
  · rw [h]
    decide

theorem fmtChars_ne_nil (q : ℚ) : fmtChars q ≠ [] := by
  unfold fmtChars
  by_cases hn : r6 q < 0
  · rw [if_pos hn]
    simp
  · rw [if_neg hn]
    intro h
    rcases List.append_eq_nil.mp h with ⟨h1, _⟩
    exact renderNat_ne_nil _ h1

theorem parseFloatQ_fmt (v : ℚ) : parseFloatQ (fmtChars v) = some (r6q v) := by
  unfold parseFloatQ
  have hdrop : (fmtChars v).dropWhile Char.isWhitespace = fmtChars v := by
    cases hf : fmtChars v with
    | nil => rfl
    | cons c cs =>
        rw [List.dropWhile_cons]
        rw [if_neg (by
          have hcm : c ∈ fmtChars v := by
            rw [hf]
            exact List.mem_cons_self c cs
          simp [fmtChars_not_ws v c hcm])]
  rw [hdrop]
  have h := tryNum_fmt v [] numBoundary_nil
  rw [List.append_nil] at h
  rw [h]

theorem parseFloatQ_Z : parseFloatQ ['Z'] = none := by
  unfold parseFloatQ
  rfl

def entryPt (e : List Jq) : Jq × Jq := (entryX e, entryY e)

theorem trimChars_core (a b : Char) (mid t : List Char)
    (ha : a.isWhitespace = false) (hb : b.isWhitespace = false)
    (ht : ∀ c ∈ t, c.isWhitespace = true) :
    trimChars (a :: (mid ++ [b]) ++ t) = a :: (mid ++ [b]) := by
  unfold trimChars
  have h1 : (a :: (mid ++ [b]) ++ t).dropWhile Char.isWhitespace
      = a :: ((mid ++ [b]) ++ t) := by
    rw [List.cons_append, List.dropWhile_cons, if_neg (by simp [ha])]
  rw [h1]
  have h2 : (a :: ((mid ++ [b]) ++ t)).reverse
      = t.reverse ++ b :: (mid.reverse ++ [a]) := by
    simp
  rw [h2]
  rw [dropWhile_append_all _ _ (by
    intro c hc
    rw [List.mem_reverse] at hc
    exact ht c hc)]
  rw [List.dropWhile_cons, if_neg (by simp [hb])]
  simp

theorem pairBody_decomp (p : Point) :
    ∃ a mid b, a.isWhitespace = false ∧ b.isWhitespace = false ∧
      pairBody p = a :: (mid ++ [b]) := by
  obtain ⟨a, xs, hx⟩ := List.exists_cons_of_ne_nil (fmtChars_ne_nil p.x)
  rcases List.eq_nil_or_concat (fmtChars p.y) with hy | ⟨ys, b, hy⟩
  · exact absurd hy (fmtChars_ne_nil p.y)
  · refine ⟨a, xs ++ ' ' :: ys, b, ?_, ?_, ?_⟩
    · refine fmtChars_not_ws p.x a ?_
      rw [hx]
      exact List.mem_cons_self a xs
    · refine fmtChars_not_ws p.y b ?_
      rw [hy]
      simp
    · rw [pairBody, hx, hy]
      simp

theorem trim_pairBody (p : Point) (sfx : List Char) (hsfx : sfx = [] ∨ sfx = [' ']) :
    trimChars (pairBody p ++ sfx) = pairBody p := by
  obtain ⟨a, mid, b, ha, hb, hdecomp⟩ := pairBody_decomp p
  rw [hdecomp]
  refine trimChars_core a b mid sfx ha hb ?_
  rcases hsfx with rfl | rfl
  · simp
  · intro c hc
    rw [List.mem_singleton] at hc
    subst hc
    decide

theorem trim_pairBodyZ (p : Point) (tr : List Char) (htr : tr = [] ∨ tr = [' ']) :
    trimChars ((pairBody p ++ [' ', 'Z']) ++ tr) = pairBody p ++ [' ', 'Z'] := by
  obtain ⟨a, mid, b, ha, hb, hdecomp⟩ := pairBody_decomp p
  have hshape : pairBody p ++ [' ', 'Z'] = a :: ((mid ++ [b] ++ [' ']) ++ ['Z']) := by
    rw [hdecomp]
    simp
  rw [hshape]
  refine trimChars_core a 'Z' (mid ++ [b] ++ [' ']) tr ha (by decide) ?_
  rcases htr with rfl | rfl
  · simp
  · intro c hc
    rw [List.mem_singleton] at hc
    subst hc
    decide

theorem splitSpace_pairBody (p : Point) :
    splitChar ' ' (pairBody p) = [fmtChars p.x, fmtChars p.y] := by
  unfold pairBody
  rw [splitChar_append_nosep ' ' _ _ (fmtChars_ne (by decide) (by decide) (by decide))]
  rw [splitChar_sep_cons]
  rw [splitChar_nosep ' ' _ (fmtChars_ne (by decide) (by decide) (by decide))]
  simp

theorem splitSpace_pairBodyZ (p : Point) :
    splitChar ' ' (pairBody p ++ [' ', 'Z']) = [fmtChars p.x, fmtChars p.y, ['Z']] := by
  have hshape : pairBody p ++ [' ', 'Z']
      = fmtChars p.x ++ ' ' :: (fmtChars p.y ++ ' ' :: ['Z']) := by
    unfold pairBody
    simp
  rw [hshape]
  rw [splitChar_append_nosep ' ' _ _ (fmtChars_ne (by decide) (by decide) (by decide))]
  rw [splitChar_sep_cons]
  rw [splitChar_append_nosep ' ' _ _ (fmtChars_ne (by decide) (by decide) (by decide))]
  rw [splitChar_sep_cons]
  rw [splitChar_nosep ' ' ['Z'] (by decide)]
  simp

theorem entry_pairBody (p : Point) (sfx : List Char)
    (h4 : sfx = [] ∨ sfx = [' '] ∨ sfx = [' ', 'Z'] ∨ sfx = [' ', 'Z', ' ']) :
    entryPt ((splitChar ' ' (trimChars (pairBody p ++ sfx))).map parseFloatQ)
      = (some (r6q p.x), some (r6q p.y)) := by
  have htrim : trimChars (pairBody p ++ sfx) = pairBody p ∨
      trimChars (pairBody p ++ sfx) = pairBody p ++ [' ', 'Z'] := by
    rcases h4 with rfl | rfl | rfl | rfl
    · exact Or.inl (trim_pairBody p [] (Or.inl rfl))
    · exact Or.inl (trim_pairBody p [' '] (Or.inr rfl))
    · refine Or.inr ?_
      have h := trim_pairBodyZ p [] (Or.inl rfl)
      simpa using h
    · refine Or.inr ?_
      have h := trim_pairBodyZ p [' '] (Or.inr rfl)
      simpa using h
  rcases htrim with h | h <;> rw [h]
  · rw [splitSpace_pairBody]
    simp [entryPt, entryX, entryY, parseFloatQ_fmt]
  · rw [splitSpace_pairBodyZ]
    simp [entryPt, entryX, entryY, parseFloatQ_fmt]

/-- The serialized text a later point contributes inside its subpath. -/
def lChunk (p : Point) : List Char := ' ' :: 'L' :: pairBody p

/-- The text of one subpath's `M`-group (everything after its `M`). -/
def groupChars (sp : Subpath) : List Char :=
  match sp.points with
  | [] => []
  | p0 :: rest =>
      pairBody p0 ++ rest.flatMap lChunk ++ (if sp.closed then [' ', 'Z'] else [])

theorem joinSpace_cons_flat (a : List Char) (parts : List (List Char)) :
    joinSpace (a :: parts) = a ++ parts.flatMap (fun pt => ' ' :: pt) := by
  induction parts generalizing a with
  | nil => simp [joinSpace]
  | cons b t ih =>
      show a ++ ' ' :: joinSpace (b :: t) = _
      rw [ih b]
      simp

theorem joinSpace_subpathParts (sp : Subpath) (h : sp.points ≠ []) :
    joinSpace (subpathParts sp) = 'M' :: groupChars sp := by
  obtain ⟨points, closed⟩ := sp
  cases points with
  | nil => exact absurd rfl h
  | cons p0 rest =>
      have hB : (rest.map (fun p => ('L' :: pairBody p : List Char))).flatMap
          (fun pt => ' ' :: pt) = rest.flatMap lChunk := by
        induction rest with
        | nil => rfl
        | cons q t ih => simp [lChunk, List.flatMap_cons, ih]
      show joinSpace ((('M' :: pairBody p0) :: rest.map (fun p => 'L' :: pairBody p))
          ++ (if closed then [['Z']] else [])) = _
      rw [List.cons_append, joinSpace_cons_flat]
      rw [List.flatMap_append, hB]
      cases closed with
      | true => simp [groupChars]
      | false => simp [groupChars]

theorem subpathParts_ne_nil (sp : Subpath) (h : sp.points ≠ []) :
    subpathParts sp ≠ [] := by
  obtain ⟨points, closed⟩ := sp
  cases points with
  | nil => exact absurd rfl h
  | cons p0 rest => simp [subpathParts]

theorem joinSpace_append (xs ys : List (List Char)) (hx : xs ≠ []) (hy : ys ≠ []) :
    joinSpace (xs ++ ys) = joinSpace xs ++ ' ' :: joinSpace ys := by
  induction xs with
  | nil => exact absurd rfl hx
  | cons x xt ih =>
      cases xt with
      | nil =>
          obtain ⟨y, yt, rfl⟩ := List.exists_cons_of_ne_nil hy
          rfl
      | cons x2 xt2 =>
          have ih2 := ih (by simp)
          show x ++ ' ' :: joinSpace ((x2 :: xt2) ++ ys)
              = (x ++ ' ' :: joinSpace (x2 :: xt2)) ++ ' ' :: joinSpace ys
          rw [ih2]
          simp

/-- Per-subpath `M`-groups of the serialized text: each non-final group keeps
the joining space before the next `M`. -/
def mGroups : List Subpath → List (List Char)
  | [] => []
  | [sp] => [groupChars sp]
  | sp :: rest => (groupChars sp ++ [' ']) :: mGroups rest

theorem serializeChars_cons2 (sp : Subpath) (rest : List Subpath) (hrest : rest ≠ [])
    (hsp : sp.points ≠ []) (hhd : ∀ sp2 ∈ rest, sp2.points ≠ []) :
    serializeChars (sp :: rest) = ('M' :: groupChars sp) ++ ' ' :: serializeChars rest := by
  unfold serializeChars
  rw [List.flatMap_cons]
  obtain ⟨r, rs, rfl⟩ := List.exists_cons_of_ne_nil hrest
  rw [joinSpace_append _ _ (subpathParts_ne_nil sp hsp) (by
    rw [List.flatMap_cons]
    have := subpathParts_ne_nil r (hhd r (List.mem_cons_self r rs))
    intro hcontra
    rcases List.append_eq_nil.mp hcontra with ⟨h1, _⟩
    exact this h1)]
  rw [joinSpace_subpathParts sp hsp]

theorem pairBody_ne_M (p : Point) : ∀ c ∈ pairBody p, c ≠ 'M' := by
  intro c hc
  unfold pairBody at hc
  rcases List.mem_append.mp hc with hc | hc
  · exact fmtChars_ne (by decide) (by decide) (by decide) c hc
  · rcases List.mem_cons.mp hc with rfl | hc
    · decide
    · exact fmtChars_ne (by decide) (by decide) (by decide) c hc

theorem groupChars_no_M (sp : Subpath) : ∀ c ∈ groupChars sp, c ≠ 'M' := by
  obtain ⟨points, closed⟩ := sp
  cases points with
  | nil =>
      intro c hc
      simp [groupChars] at hc
  | cons p0 rest =>
      intro c hc
      show c ≠ 'M'
      have hc2 : c ∈ pairBody p0 ++ rest.flatMap lChunk
          ++ (if closed then [' ', 'Z'] else []) := hc
      rcases List.mem_append.mp hc2 with hc3 | hc3
      · rcases List.mem_append.mp hc3 with hc4 | hc4
        · exact pairBody_ne_M p0 c hc4
        · obtain ⟨q, _, hcq⟩ := List.mem_flatMap.mp hc4
          rcases List.mem_cons.mp hcq with rfl | hcq
          · decide
          · rcases List.mem_cons.mp hcq with rfl | hcq
            · decide
            · exact pairBody_ne_M q c hcq
      · cases closed with
        | true =>
            simp only [if_true] at hc3
            rcases List.mem_cons.mp hc3 with rfl | hc3
            · decide
            · rw [List.mem_singleton] at hc3
              subst hc3
              decide
        | false => simp at hc3

theorem splitM_serialize (sps : List Subpath) (hne : sps ≠ [])
    (h : ∀ sp ∈ sps, sp.points ≠ []) :
    splitChar 'M' (serializeChars sps) = [] :: mGroups sps := by
  induction sps with
  | nil => exact absurd rfl hne
  | cons sp rest ih =>
      cases rest with
      | nil =>
          have h1 : serializeChars [sp] = 'M' :: groupChars sp := by
            unfold serializeChars
            rw [List.flatMap_cons, List.flatMap_nil, List.append_nil]
            exact joinSpace_subpathParts sp (h sp (List.mem_cons_self sp []))
          rw [h1, splitChar_sep_cons, splitChar_nosep 'M' _ (groupChars_no_M sp)]
          rfl
      | cons r rs =>
          have hr : (r :: rs : List Subpath) ≠ [] := by simp
          have h2 : ∀ sp2 ∈ (r :: rs), sp2.points ≠ [] :=
            fun sp2 hsp2 => h sp2 (List.mem_cons_of_mem sp hsp2)
          rw [serializeChars_cons2 sp (r :: rs) hr (h sp (List.mem_cons_self sp _)) h2]
          rw [List.cons_append, splitChar_sep_cons]
          have hshape : groupChars sp ++ ' ' :: serializeChars (r :: rs)
              = (groupChars sp ++ [' ']) ++ serializeChars (r :: rs) := by simp
          rw [hshape]
          rw [splitChar_append_nosep 'M' _ _ (by
            intro c hc
            rcases List.mem_append.mp hc with hc | hc
            · exact groupChars_no_M sp c hc
            · rw [List.mem_singleton] at hc
              subst hc
              decide)]
          rw [ih hr h2]
          simp [mGroups]

theorem pairBody_ne_L (p : Point) : ∀ c ∈ pairBody p, c ≠ 'L' := by
  intro c hc
  unfold pairBody at hc
  rcases List.mem_append.mp hc with hc | hc
  · exact fmtChars_ne (by decide) (by decide) (by decide) c hc
  · rcases List.mem_cons.mp hc with rfl | hc
    · decide
    · exact fmtChars_ne (by decide) (by decide) (by decide) c hc

/-- The `split("L")` pieces of one `M`-group (with the group's trailing
text `tr`). -/
def groupPieces (p0 : Point) : List Point → Bool → List Char → List (List Char)
  | [], closed, tr => [pairBody p0 ++ (if closed then [' ', 'Z'] else []) ++ tr]
  | p1 :: rest, closed, tr => (pairBody p0 ++ [' ']) :: groupPieces p1 rest closed tr

theorem splitL_group (p0 : Point) : ∀ (rest : List Point) (closed : Bool) (tr : List Char),
    (∀ c ∈ tr, c ≠ 'L') →
    splitChar 'L' (groupChars ⟨p0 :: rest, closed⟩ ++ tr)
      = groupPieces p0 rest closed tr := by
  intro rest
  induction rest generalizing p0 with
  | nil =>
      intro closed tr htr
      have hshape : groupChars ⟨[p0], closed⟩ ++ tr
          = pairBody p0 ++ (if closed then [' ', 'Z'] else []) ++ tr := by
        simp [groupChars]
      rw [hshape]
      rw [splitChar_nosep 'L' _ (by
        intro c hc
        rcases List.mem_append.mp hc with hc | hc
        · rcases List.mem_append.mp hc with hc | hc
          · exact pairBody_ne_L p0 c hc
          · cases closed with
            | true =>
                simp only [if_true] at hc
                rcases List.mem_cons.mp hc with rfl | hc
                · decide
                · rw [List.mem_singleton] at hc
                  subst hc
                  decide
            | false => simp at hc
        · exact htr c hc)]
      rfl
  | cons p1 rest' ih =>
      intro closed tr htr
      have hshape : groupChars ⟨p0 :: p1 :: rest', closed⟩ ++ tr
          = (pairBody p0 ++ [' ']) ++ 'L' :: (groupChars ⟨p1 :: rest', closed⟩ ++ tr) := by
        simp [groupChars, lChunk]
      rw [hshape]
      rw [splitChar_append_nosep 'L' _ _ (by
        intro c hc
        rcases List.mem_append.mp hc with hc | hc
        · exact pairBody_ne_L p0 c hc
        · rw [List.mem_singleton] at hc
          subst hc
          decide)]
      rw [splitChar_sep_cons]
      rw [ih p1 closed tr htr]
      simp [groupPieces]

theorem groupPieces_entries (p0 : Point) : ∀ (rest : List Point) (closed : Bool)
    (tr : List Char), (tr = [] ∨ tr = [' ']) →
    (groupPieces p0 rest closed tr).map
        (fun pr => entryPt ((splitChar ' ' (trimChars pr)).map parseFloatQ))
      = (p0 :: rest).map (fun p => ((some (r6q p.x) : Jq), (some (r6q p.y) : Jq))) := by
  intro rest
  induction rest generalizing p0 with
  | nil =>
      intro closed tr htr
      show [entryPt ((splitChar ' ' (trimChars (pairBody p0
          ++ (if closed then [' ', 'Z'] else []) ++ tr))).map parseFloatQ)] = _
      have hsfx : pairBody p0 ++ (if closed then [' ', 'Z'] else []) ++ tr
          = pairBody p0 ++ ((if closed then [' ', 'Z'] else []) ++ tr) := by
        simp
      rw [hsfx]
      rw [entry_pairBody p0 _ (by
        rcases htr with rfl | rfl <;> cases closed <;> simp)]
      rfl
  | cons p1 rest' ih =>
      intro closed tr htr
      show entryPt ((splitChar ' ' (trimChars (pairBody p0 ++ [' ']))).map parseFloatQ)
          :: (groupPieces p1 rest' closed tr).map _ = _
      rw [entry_pairBody p0 [' '] (Or.inr (Or.inl rfl))]
      rw [ih p1 closed tr htr]
      rfl

/-- Segments from the sequence of resolved `(x, y)` pairs of one group. -/
def segsOfPairs : List (Jq × Jq) → List JSeg
  | a :: b :: rest =>
      ⟨a.1, jsub (jq 1) a.2, b.1, jsub (jq 1) b.2⟩ :: segsOfPairs (b :: rest)
  | _ => []

theorem segsOfEntries_eq_pairs : ∀ es : List (List Jq),
    segsOfEntries es = segsOfPairs (es.map entryPt)
  | [] => rfl
  | [_] => rfl
  | e1 :: e2 :: rest => by
      show _ :: segsOfEntries (e2 :: rest) = _ :: segsOfPairs ((e2 :: rest).map entryPt)
      rw [segsOfEntries_eq_pairs (e2 :: rest)]
      rfl

/-- The ideal segments of one subpath: consecutive points, rounded to 6
decimals and with `y` flipped. -/
def jSegsOfPoints (ps : List Point) : List JSeg :=
  segsOfPairs (ps.map (fun p => ((some (r6q p.x) : Jq), (some (r6q p.y) : Jq))))

theorem segs_of_group (p0 : Point) (rest : List Point) (closed : Bool) (tr : List Char)
    (htr : tr = [] ∨ tr = [' ']) :
    segsOfEntries (pointEntries (groupChars ⟨p0 :: rest, closed⟩ ++ tr))
      = jSegsOfPoints (p0 :: rest) := by
  unfold pointEntries
  rw [splitL_group p0 rest closed tr (by
    rcases htr with rfl | rfl
    · simp
    · intro c hc
      rw [List.mem_singleton] at hc
      subst hc
      decide)]
  rw [segsOfEntries_eq_pairs, List.map_map]
  rw [show (entryPt ∘ fun pr => (splitChar ' ' (trimChars pr)).map parseFloatQ)
      = (fun pr => entryPt ((splitChar ' ' (trimChars pr)).map parseFloatQ)) from rfl]
  rw [groupPieces_entries p0 rest closed tr htr]
  rfl

theorem mGroups_segs : ∀ sps : List Subpath, (∀ sp ∈ sps, sp.points ≠ []) →
    ((mGroups sps).map pointEntries).flatMap segsOfEntries
      = sps.flatMap (fun sp => jSegsOfPoints sp.points)
  | [], _ => rfl
  | [sp], h => by
      obtain ⟨points, closed⟩ := sp
      cases points with
      | nil => exact absurd rfl (h _ (List.mem_cons_self _ _))
      | cons p0 rest =>
          show (segsOfEntries (pointEntries (groupChars ⟨p0 :: rest, closed⟩))) ++ []
              = jSegsOfPoints (p0 :: rest) ++ []
          have h1 := segs_of_group p0 rest closed [] (Or.inl rfl)
          rw [List.append_nil] at h1
          rw [h1]
  | sp :: r :: rs, h => by
      obtain ⟨points, closed⟩ := sp
      cases points with
      | nil => exact absurd rfl (h _ (List.mem_cons_self _ _))
      | cons p0 rest =>
          have htail := mGroups_segs (r :: rs)
            (fun sp2 hsp2 => h sp2 (List.mem_cons_of_mem _ hsp2))
          show segsOfEntries (pointEntries (groupChars ⟨p0 :: rest, closed⟩ ++ [' ']))
              ++ ((mGroups (r :: rs)).map pointEntries).flatMap segsOfEntries
              = jSegsOfPoints (p0 :: rest) ++ (r :: rs).flatMap (fun sp => jSegsOfPoints sp.points)
          rw [segs_of_group p0 rest closed [' '] (Or.inr rfl), htail]

/-- `getLineSegments` on serializer output recovers exactly the
consecutive-point segments of each subpath. -/
theorem getLineSegments_serialize (sps : List Subpath)
    (h : ∀ sp ∈ sps, sp.points ≠ []) :
    getLineSegments (serializeSubpaths sps)
      = sps.flatMap (fun sp => jSegsOfPoints sp.points) := by
  rcases hsps : sps with _ | ⟨sp0, rest⟩
  · rfl
  · unfold getLineSegments serializeSubpaths
    rw [show (String.mk (serializeChars (sp0 :: rest))).data
        = serializeChars (sp0 :: rest) from rfl]
    rw [splitM_serialize (sp0 :: rest) (by simp) (hsps ▸ h)]
    dsimp only
    exact mGroups_segs (sp0 :: rest) (hsps ▸ h)

/-! ### Widths of serializer output -/

def minStep (a : Option ℚ) (q : ℚ) : Option ℚ :=
  match a with | none => some q | some m => some (min m q)

def minList (l : List ℚ) : Option ℚ := l.foldl minStep none

theorem minList_fold_some (l : List ℚ) :
    ∀ v : ℚ, l.foldl minStep (some v) ≠ none := by
  induction l with
  | nil => intro v h; exact Option.noConfusion h
  | cons q rest ih =>
      intro v
      show rest.foldl minStep (some (min v q)) ≠ none
      exact ih (min v q)

theorem maxList_fold_ub (l : List ℚ) :
    ∀ (acc : Option ℚ) (M : ℚ), l.foldl maxStep acc = some M →
      (∀ a, acc = some a → a ≤ M) ∧ (∀ v ∈ l, v ≤ M) := by
  induction l with
  | nil =>
      intro acc M h
      refine ⟨?_, by simp⟩
      intro a ha
      rw [ha] at h
      exact le_of_eq (Option.some.inj h)
  | cons q rest ih =>
      intro acc M h
      obtain ⟨hacc, hrest⟩ := ih (maxStep acc q) M h
      have hq : q ≤ M := by
        cases acc with
        | none => exact hacc q rfl
        | some a => exact le_trans (le_max_right a q) (hacc (max a q) rfl)
      refine ⟨?_, ?_⟩
      · intro a ha
        subst ha
        exact le_trans (le_max_left a q) (hacc (max a q) rfl)
      · intro v hv
        rcases List.mem_cons.mp hv with rfl | hv
        · exact hq
        · exact hrest v hv

theorem minList_fold_lb (l : List ℚ) :
    ∀ (acc : Option ℚ) (m : ℚ), l.foldl minStep acc = some m →
      (∀ a, acc = some a → m ≤ a) ∧ (∀ v ∈ l, m ≤ v) := by
  induction l with
  | nil =>
      intro acc m h
      refine ⟨?_, by simp⟩
      intro a ha
      rw [ha] at h
      exact ge_of_eq (Option.some.inj h)
  | cons q rest ih =>
      intro acc m h
      obtain ⟨hacc, hrest⟩ := ih (minStep acc q) m h
      have hq : m ≤ q := by
        cases acc with
        | none => exact hacc q rfl
        | some a => exact le_trans (hacc (min a q) rfl) (min_le_right a q)
      refine ⟨?_, ?_⟩
      · intro a ha
        subst ha
        exact le_trans (hacc (min a q) rfl) (min_le_left a q)
      · intro v hv
        rcases List.mem_cons.mp hv with rfl | hv
        · exact hq
        · exact hrest v hv

theorem maxList_cons_some (v : ℚ) (t : List ℚ) :
    ∃ M, maxList (v :: t) = some M := by
  cases hm : maxList (v :: t) with
  | none =>
      exfalso
      have heq : maxList (v :: t) = t.foldl maxStep (some v) := rfl
      rw [heq] at hm
      exact maxList_fold_some t v hm
  | some M => exact ⟨M, rfl⟩

theorem minList_cons_some (v : ℚ) (t : List ℚ) :
    ∃ m, minList (v :: t) = some m := by
  cases hm : minList (v :: t) with
  | none =>
      exfalso
      have heq : minList (v :: t) = t.foldl minStep (some v) := rfl
      rw [heq] at hm
      exact minList_fold_some t v hm
  | some m => exact ⟨m, rfl⟩

theorem maxStep_mono (φ : ℚ → ℚ) (hφ : ∀ a b : ℚ, a ≤ b → φ a ≤ φ b)
    (a : Option ℚ) (q : ℚ) :
    maxStep (a.map φ) (φ q) = (maxStep a q).map φ := by
  cases a with
  | none => rfl
  | some m =>
      show some (max (φ m) (φ q)) = some (φ (max m q))
      rcases le_total m q with h | h
      · rw [max_eq_right h, max_eq_right (hφ m q h)]
      · rw [max_eq_left h, max_eq_left (hφ q m h)]

theorem minStep_mono (φ : ℚ → ℚ) (hφ : ∀ a b : ℚ, a ≤ b → φ a ≤ φ b)
    (a : Option ℚ) (q : ℚ) :
    minStep (a.map φ) (φ q) = (minStep a q).map φ := by
  cases a with
  | none => rfl
  | some m =>
      show some (min (φ m) (φ q)) = some (φ (min m q))
      rcases le_total m q with h | h
      · rw [min_eq_left h, min_eq_left (hφ m q h)]
      · rw [min_eq_right h, min_eq_right (hφ q m h)]

theorem maxList_map_mono (φ : ℚ → ℚ) (hφ : ∀ a b : ℚ, a ≤ b → φ a ≤ φ b)
    (l : List ℚ) : maxList (l.map φ) = (maxList l).map φ := by
  have hfold : ∀ (l : List ℚ) (acc : Option ℚ),
      (l.map φ).foldl maxStep (acc.map φ) = (l.foldl maxStep acc).map φ := by
    intro l
    induction l with
    | nil => intro acc; rfl
    | cons q rest ih =>
        intro acc
        simp only [List.map_cons, List.foldl_cons]
        rw [maxStep_mono φ hφ acc q]
        exact ih (maxStep acc q)
  exact hfold l none

theorem minList_map_mono (φ : ℚ → ℚ) (hφ : ∀ a b : ℚ, a ≤ b → φ a ≤ φ b)
    (l : List ℚ) : minList (l.map φ) = (minList l).map φ := by
  have hfold : ∀ (l : List ℚ) (acc : Option ℚ),
      (l.map φ).foldl minStep (acc.map φ) = (l.foldl minStep acc).map φ := by
    intro l
    induction l with
    | nil => intro acc; rfl
    | cons q rest ih =>
        intro acc
        simp only [List.map_cons, List.foldl_cons]
        rw [minStep_mono φ hφ acc q]
        exact ih (minStep acc q)
  exact hfold l none

theorem minList_map_add (δ : ℚ) (l : List ℚ) :
    minList (l.map (fun x => x + δ)) = (minList l).map (fun x => x + δ) :=
  minList_map_mono _ (fun a b h => by linarith) l

/-! ### The `x` values scanned by the width computation -/

/-- The (possibly duplicated) sequence of segment-endpoint values drawn from
one coordinate sequence. -/
def pairXs : List ℚ → List ℚ
  | x1 :: x2 :: rest => x1 :: x2 :: pairXs (x2 :: rest)
  | _ => []

theorem pairXs_map (f : ℚ → ℚ) : ∀ l : List ℚ, pairXs (l.map f) = (pairXs l).map f
  | [] => rfl
  | [_] => rfl
  | x1 :: x2 :: rest => by
      show f x1 :: f x2 :: pairXs ((x2 :: rest).map f)
          = f x1 :: f x2 :: (pairXs (x2 :: rest)).map f
      rw [pairXs_map f (x2 :: rest)]

/-- All segment x's of a glyph, as rationals (before the `Jq` wrapping). -/
def xsOf (sps : List Subpath) : List ℚ :=
  sps.flatMap (fun sp => pairXs (sp.points.map (fun p => r6q p.x)))

def xsOfSegs (segs : List JSeg) : List Jq := segs.flatMap (fun s => [s.x1, s.x2])

theorem xsOfSegs_pairs : ∀ ps : List Point,
    xsOfSegs (jSegsOfPoints ps)
      = (pairXs (ps.map (fun p => r6q p.x))).map (fun v => (some v : Jq))
  | [] => rfl
  | [_] => rfl
  | p1 :: p2 :: rest => by
      show (some (r6q p1.x) : Jq) :: (some (r6q p2.x) : Jq)
            :: xsOfSegs (jSegsOfPoints (p2 :: rest))
          = (some (r6q p1.x) : Jq) :: (some (r6q p2.x) : Jq)
            :: (pairXs ((p2 :: rest).map (fun p => r6q p.x))).map (fun v => (some v : Jq))
      rw [xsOfSegs_pairs (p2 :: rest)]

theorem xsOfSegs_nil_iff (segs : List JSeg) : xsOfSegs segs = [] ↔ segs = [] := by
  cases segs with
  | nil => simp [xsOfSegs]
  | cons s rest =>
      constructor
      · intro h
        exact absurd h (by simp [xsOfSegs])
      · intro h
        exact absurd h (by simp)

theorem xsOfSegs_flatMap (sps : List Subpath) :
    xsOfSegs (sps.flatMap (fun sp => jSegsOfPoints sp.points))
      = (xsOf sps).map (fun v => (some v : Jq)) := by
  induction sps with
  | nil => rfl
  | cons sp rest ih =>
      rw [List.flatMap_cons]
      have hsplit : xsOfSegs (jSegsOfPoints sp.points
          ++ rest.flatMap (fun sp => jSegsOfPoints sp.points))
          = xsOfSegs (jSegsOfPoints sp.points)
            ++ xsOfSegs (rest.flatMap (fun sp => jSegsOfPoints sp.points)) := by
        unfold xsOfSegs
        rw [List.flatMap_append]
      rw [hsplit, xsOfSegs_pairs, ih]
      have hxs : xsOf (sp :: rest)
          = pairXs (sp.points.map (fun p => r6q p.x)) ++ xsOf rest := by
        unfold xsOf
        rw [List.flatMap_cons]
      rw [hxs, List.map_append]

theorem xsOfSegs_serialize (sps : List Subpath) (h : ∀ sp ∈ sps, sp.points ≠ []) :
    xsOfSegs (getLineSegments (serializeSubpaths sps))
      = (xsOf sps).map (fun v => (some v : Jq)) := by
  rw [getLineSegments_serialize sps h]
  exact xsOfSegs_flatMap sps

theorem jfold_jmax_somes (vs : List ℚ) :
    jfold jmax (vs.map (fun v => (some v : Jq))) = maxList vs := by
  cases vs with
  | nil => rfl
  | cons v t =>
      show (t.map (fun v => (some v : Jq))).foldl jmax (some v)
          = t.foldl maxStep (some v)
      induction t generalizing v with
      | nil => rfl
      | cons q t2 ih =>
          show (t2.map (fun v => (some v : Jq))).foldl jmax (jmax (some v) (some q))
              = t2.foldl maxStep (maxStep (some v) q)
          exact ih (max v q)

theorem jfold_jmin_somes (vs : List ℚ) :
    jfold jmin (vs.map (fun v => (some v : Jq))) = minList vs := by
  cases vs with
  | nil => rfl
  | cons v t =>
      show (t.map (fun v => (some v : Jq))).foldl jmin (some v)
          = t.foldl minStep (some v)
      induction t generalizing v with
      | nil => rfl
      | cons q t2 ih =>
          show (t2.map (fun v => (some v : Jq))).foldl jmin (jmin (some v) (some q))
              = t2.foldl minStep (minStep (some v) q)
          exact ih (min v q)

/-- The padded width of a glyph whose scanned x's are the (finite) values
`vs`: `0` with no segments, else `max vs - min vs + strokeWidth`. -/
theorem width_of_segs (segs : List JSeg) (vs : List ℚ) (r : ℚ)
    (hxs : xsOfSegs segs = vs.map (fun v => (some v : Jq))) :
    (segs = [] ∧ getGlyphWidthRatio segs r = some 0) ∨
    (∃ M m, maxList vs = some M ∧ minList vs = some m ∧
      getGlyphWidthRatio segs r = some (M - m + r)) := by
  cases segs with
  | nil => exact Or.inl ⟨rfl, rfl⟩
  | cons s ss =>
      right
      have hvs : vs ≠ [] := by
        intro hv
        rw [hv] at hxs
        simp [xsOfSegs] at hxs
      obtain ⟨v, t, rfl⟩ := List.exists_cons_of_ne_nil hvs
      obtain ⟨M, hM⟩ := maxList_cons_some v t
      obtain ⟨m, hm⟩ := minList_cons_some v t
      refine ⟨M, m, hM, hm, ?_⟩
      show jsub (jfold jmax ((xsOfSegs (s :: ss)).map (fun x => jadd x (jq (r / 2)))))
          (jfold jmin ((xsOfSegs (s :: ss)).map (fun x => jsub x (jq (r / 2))))) = _
      rw [hxs]
      have hmapAdd : ((v :: t).map (fun v => (some v : Jq))).map
            (fun x => jadd x (jq (r / 2)))
          = ((v :: t).map (fun x => x + r / 2)).map (fun v => (some v : Jq)) := by
        rw [List.map_map, List.map_map]
        rfl
      have hmapSub : ((v :: t).map (fun v => (some v : Jq))).map
            (fun x => jsub x (jq (r / 2)))
          = ((v :: t).map (fun x => x - r / 2)).map (fun v => (some v : Jq)) := by
        rw [List.map_map, List.map_map]
        rfl
      rw [hmapAdd, hmapSub, jfold_jmax_somes, jfold_jmin_somes]
      rw [show (fun x : ℚ => x + r / 2) = (fun x : ℚ => x + r / 2) from rfl]
      rw [maxList_map_add (r / 2) (v :: t), hM]
      rw [minList_map_mono (fun x => x - r / 2) (fun a b h => by linarith) (v :: t), hm]
      show some (M + r / 2 - (m - r / 2)) = some (M - m + r)
      rw [show M + r / 2 - (m - r / 2) = M - m + r from by ring]

/-- Properties of the alphabet-wide `reduce(Math.max, 0)` over glyph widths
when every glyph width is finite: the result is finite, bounds every width,
and is either the seed or attained. -/
theorem glyphFold_props (u : List (Char × String)) :
    ∀ a : ℚ,
      (∀ e ∈ u, ∃ w, getGlyphWidthRatio (getLineSegments e.2) strokeWidthRatio = some w) →
      ∃ g, List.foldl (fun acc e =>
            jmax acc (getGlyphWidthRatio (getLineSegments e.2) strokeWidthRatio))
          (some a) u = some g ∧
        a ≤ g ∧
        (g = a ∨ ∃ e ∈ u,
          getGlyphWidthRatio (getLineSegments e.2) strokeWidthRatio = some g) ∧
        (∀ e ∈ u, ∀ w,
          getGlyphWidthRatio (getLineSegments e.2) strokeWidthRatio = some w → w ≤ g) := by
  induction u with
  | nil =>
      intro a _
      exact ⟨a, rfl, le_refl a, Or.inl rfl, by simp⟩
  | cons e rest ih =>
      intro a hall
      obtain ⟨w, hw⟩ := hall e (List.mem_cons_self e rest)
      have hstep : jmax (some a) (getGlyphWidthRatio (getLineSegments e.2) strokeWidthRatio)
          = some (max a w) := by
        rw [hw]
        rfl
      obtain ⟨g, hfold, hle, hatt, hub⟩ :=
        ih (max a w) (fun e2 he2 => hall e2 (List.mem_cons_of_mem e he2))
      refine ⟨g, ?_, le_trans (le_max_left a w) hle, ?_, ?_⟩
      · rw [List.foldl_cons, hstep]
        exact hfold
      · rcases hatt with h | ⟨e2, he2, hwe2⟩
        · rcases max_choice a w with hc | hc
          · exact Or.inl (by rw [h, hc])
          · refine Or.inr ⟨e, List.mem_cons_self e rest, ?_⟩
            rw [hw, h, hc]
        · exact Or.inr ⟨e2, List.mem_cons_of_mem e he2, hwe2⟩
      · intro e2 he2 w2 hw2
        rcases List.mem_cons.mp he2 with rfl | he2
        · have hww : w2 = w := by
            rw [hw] at hw2
            exact Option.some.inj hw2.symm
          rw [hww]
          exact le_trans (le_max_right a w) hle
        · exact hub e2 he2 w2 hw2

theorem shiftX_round (sps : List Subpath) (d : ℚ) :
    shiftSubpathsX (roundSubpaths sps) d
      = sps.map (fun sp =>
          (⟨sp.points.map (fun p => (⟨r6q p.x + d, r6q p.y⟩ : Point)),
            sp.closed⟩ : Subpath)) := by
  unfold shiftSubpathsX roundSubpaths
  rw [List.map_map]
  apply List.map_congr_left
  intro sp _
  show (⟨(sp.points.map roundPoint).map (fun p => (⟨p.x + d, p.y⟩ : Point)),
      sp.closed⟩ : Subpath) = _
  rw [List.map_map]
  rfl

theorem xsOf_transformed (sps : List Subpath) (d : ℚ) :
    xsOf (sps.map (fun sp =>
        (⟨sp.points.map (fun p => (⟨r6q p.x + d, r6q p.y⟩ : Point)),
          sp.closed⟩ : Subpath)))
      = (xsOf sps).map (fun v => r6q (v + d)) := by
  unfold xsOf
  induction sps with
  | nil => rfl
  | cons sp rest ih =>
      rw [List.map_cons, List.flatMap_cons, List.flatMap_cons, List.map_append, ih]
      congr 1
      rw [List.map_map]
      rw [show ((fun p : Point => r6q p.x)
            ∘ (fun p : Point => (⟨r6q p.x + d, r6q p.y⟩ : Point)))
          = ((fun v : ℚ => r6q (v + d)) ∘ (fun p : Point => r6q p.x)) from rfl]
      rw [← List.map_map]
      rw [pairXs_map]

theorem r6q_add_mono (d : ℚ) : ∀ a b : ℚ, a ≤ b → r6q (a + d) ≤ r6q (b + d) := by
  intro a b h
  unfold r6q
  have h2 : r6 (a + d) ≤ r6 (b + d) := r6_mono (by linarith)
  have h3 : ((r6 (a + d) : ℤ) : ℚ) ≤ ((r6 (b + d) : ℤ) : ℚ) := Int.cast_le.mpr h2
  exact (div_le_div_right mega_pos).mpr h3

/-- Shifting a parsed serializer output horizontally and reserializing moves
the padded width by at most `1e-6` (the two extreme endpoints each round by
at most half a millionth). -/
theorem width_after_shift (sps : List Subpath) (hsp : ∀ sp ∈ sps, sp.points ≠ [])
    (δ : ℚ) (w : ℚ)
    (hw : getGlyphWidthRatio (getLineSegments (serializeSubpaths sps))
      strokeWidthRatio = some w) :
    ∃ w', getGlyphWidthRatio (getLineSegments (serializeSubpaths
          (shiftSubpathsX (parsePathData (serializeSubpaths sps)) δ)))
        strokeWidthRatio = some w' ∧ |w' - w| ≤ 1 / 1000000 := by
  rw [parse_serialize sps hsp, shiftX_round sps δ]
  have hsp2 : ∀ sp ∈ sps.map (fun sp =>
      (⟨sp.points.map (fun p => (⟨r6q p.x + δ, r6q p.y⟩ : Point)),
        sp.closed⟩ : Subpath)), sp.points ≠ [] :=
    mapPts_points_ne _ sps hsp
  have hxsOf2 := xsOf_transformed sps δ
  have hxs2a := xsOfSegs_serialize _ hsp2
  have hxs2 : xsOfSegs (getLineSegments (serializeSubpaths (sps.map (fun sp =>
      (⟨sp.points.map (fun p => (⟨r6q p.x + δ, r6q p.y⟩ : Point)),
        sp.closed⟩ : Subpath)))))
      = ((xsOf sps).map (fun v => r6q (v + δ))).map (fun v => (some v : Jq)) := by
    rw [hxs2a, hxsOf2]
  have hxs1 := xsOfSegs_serialize sps hsp
  rcases width_of_segs _ _ strokeWidthRatio hxs1 with ⟨hnil, hw0⟩ | ⟨M, m, hM, hm, hwv⟩
  · -- no segments at all: the width is 0 before and after
    have hw00 : w = 0 := by
      rw [hw0] at hw
      exact (Option.some.inj hw).symm
    have hxnil : xsOf sps = [] := by
      rw [hnil] at hxs1
      have := hxs1.symm
      exact List.map_eq_nil_iff.mp this
    rcases width_of_segs _ _ strokeWidthRatio hxs2 with ⟨_, hw2⟩ | ⟨M2, _, hM2, _, _⟩
    · refine ⟨0, hw2, ?_⟩
      rw [hw00]
      norm_num
    · exfalso
      rw [hxnil] at hM2
      exact Option.noConfusion hM2
  · -- some segments: the extremes transform monotonically
    have hnonempty : xsOf sps ≠ [] := by
      intro h
      rw [h] at hM
      exact Option.noConfusion hM
    rcases width_of_segs _ _ strokeWidthRatio hxs2 with ⟨hnil2, _⟩ | ⟨M2, m2, hM2, hm2, hw2⟩
    · exfalso
      rw [hnil2] at hxs2
      have h1 : ((xsOf sps).map (fun v => r6q (v + δ))).map (fun v => (some v : Jq))
          = [] := hxs2.symm
      rw [List.map_eq_nil_iff, List.map_eq_nil_iff] at h1
      exact hnonempty h1
    · have hM2' : M2 = r6q (M + δ) := by
        rw [maxList_map_mono _ (r6q_add_mono δ) (xsOf sps), hM] at hM2
        exact (Option.some.inj hM2).symm
      have hm2' : m2 = r6q (m + δ) := by
        rw [minList_map_mono _ (r6q_add_mono δ) (xsOf sps), hm] at hm2
        exact (Option.some.inj hm2).symm
      have hwval : w = M - m + strokeWidthRatio := by
        rw [hwv] at hw
        exact (Option.some.inj hw).symm
      refine ⟨M2 - m2 + strokeWidthRatio, hw2, ?_⟩
      rw [hM2', hm2', hwval]
      have hb1 := abs_r6q_sub (M + δ)
      have hb2 := abs_r6q_sub (m + δ)
      have hmega : (1 : ℚ) / (2 * (mega : ℕ)) = 1 / 2000000 := by
        norm_num [mega]
      rw [hmega] at hb1 hb2
      rw [abs_le] at hb1 hb2 ⊢
      constructor <;> linarith [hb1.1, hb1.2, hb2.1, hb2.2]

/-- Pass 3 on one glyph: the width stays finite, stays bounded by the target
`g`, and a glyph already at width `g` is left untouched. -/
theorem pass3Glyph_width (g : ℚ) (q : String) (sps : List Subpath)
    (hq : q = serializeSubpaths sps) (hsp : ∀ sp ∈ sps, sp.points ≠ [])
    (w : ℚ)
    (hw : getGlyphWidthRatio (getLineSegments q) strokeWidthRatio = some w)
    (hwle : w ≤ g) :
    ∃ w', getGlyphWidthRatio (getLineSegments (pass3Glyph (some g) q)) strokeWidthRatio
        = some w' ∧ w' ≤ g ∧ (w = g → pass3Glyph (some g) q = q) := by
  have hd : jhalf (jsub (some g) (getGlyphWidthRatio (getLineSegments q) strokeWidthRatio))
      = some ((g - w) / 2) := by
    rw [hw]
    rfl
  have hglyph : pass3Glyph (some g) q
      = if |(g - w) / 2| ≤ 1 / 1000000 then q
        else serializeSubpaths (shiftSubpathsX (parsePathData q) ((g - w) / 2)) := by
    simp only [pass3Glyph, hd]
  by_cases habs : |(g - w) / 2| ≤ 1 / 1000000
  · refine ⟨w, ?_, hwle, fun _ => ?_⟩
    · rw [hglyph, if_pos habs]
      exact hw
    · rw [hglyph, if_pos habs]
  · have hwg : w ≠ g := by
      intro hcontra
      apply habs
      rw [hcontra]
      norm_num
    rw [hglyph, if_neg habs]
    subst hq
    obtain ⟨w', hw', hclose⟩ := width_after_shift sps hsp ((g - w) / 2) w hw
    refine ⟨w', hw', ?_, fun hcontra => absurd hcontra hwg⟩
    have hdgt : 1 / 1000000 < (g - w) / 2 := by
      rcases lt_or_le (1 / 1000000 : ℚ) ((g - w) / 2) with h | h
      · exact h
      · exact absurd (abs_le.mpr ⟨by linarith, h⟩) habs
    rw [abs_le] at hclose
    linarith [hclose.1, hclose.2]

/-! ### Second-run Pass 1 as an exact undo of the Pass-3 shift

On a left-aligned glyph with nonnegative 6-decimal coordinates, shifting
right by `δ ≥ 0`, serializing, re-parsing and left-aligning again (at unit
scales, zero vertical shift, no dot adjustment) reproduces the original
serialized glyph exactly: the uniform rounding `r6q (x + δ) = x + r6q δ`
moves every coordinate by the same amount. -/

theorem allPoints_ne (sps : List Subpath) (hne : sps ≠ [])
    (hsp : ∀ sp ∈ sps, sp.points ≠ []) : allPoints sps ≠ [] := by
  obtain ⟨sp, rest, rfl⟩ := List.exists_cons_of_ne_nil hne
  obtain ⟨p, ps, hps⟩ := List.exists_cons_of_ne_nil (hsp sp (List.mem_cons_self sp rest))
  show sp.points ++ allPoints rest ≠ []
  rw [hps]
  simp

theorem shiftX_zero (sps : List Subpath) : shiftSubpathsX sps 0 = sps := by
  unfold shiftSubpathsX
  have h : ∀ sp ∈ sps, (⟨sp.points.map (fun p => (⟨p.x + 0, p.y⟩ : Point)),
      sp.closed⟩ : Subpath) = sp := by
    intro sp _
    have hp : ∀ p ∈ sp.points, (⟨p.x + 0, p.y⟩ : Point) = p := by
      intro p _
      have : p.x + 0 = p.x := by ring
      rw [this]
    rw [List.map_congr_left hp]
    simp
  rw [List.map_congr_left h]
  simp

theorem roundSubpaths_fix (sps : List Subpath)
    (hfix : ∀ p ∈ allPoints sps, r6q p.x = p.x ∧ r6q p.y = p.y) :
    roundSubpaths sps = sps := by
  unfold roundSubpaths
  have h : ∀ sp ∈ sps, (⟨sp.points.map roundPoint, sp.closed⟩ : Subpath) = sp := by
    intro sp hsp
    have hp : ∀ p ∈ sp.points, roundPoint p = p := by
      intro p hp
      have hmem : p ∈ allPoints sps := by
        unfold allPoints
        exact List.mem_flatMap.mpr ⟨sp, hsp, hp⟩
      obtain ⟨hx, hy⟩ := hfix p hmem
      show (⟨r6q p.x, r6q p.y⟩ : Point) = p
      rw [hx, hy]
    rw [List.map_congr_left hp]
    simp
  rw [List.map_congr_left h]
  simp

theorem r6q_micro_add {x : ℚ} (δ : ℚ) (hx : r6q x = x) (hx0 : 0 ≤ x) (hδ : 0 ≤ δ) :
    r6q (x + δ) = x + r6q δ := by
  obtain ⟨n, rfl⟩ := micro_of_fix hx
  have hn : (0 : ℤ) ≤ n := by
    by_contra hc
    push_neg at hc
    have : ((n : ℚ) / (mega : ℚ)) < 0 :=
      div_neg_of_neg_of_pos (by exact_mod_cast hc) mega_pos
    linarith
  unfold r6q r6
  have harg : ((n : ℚ) / (mega : ℚ) + δ) * (mega : ℚ) = δ * (mega : ℚ) + (n : ℚ) := by
    rw [add_mul, div_mul_cancel₀ _ (ne_of_gt mega_pos)]
    ring
  rw [harg]
  have h0 : (0 : ℚ) ≤ δ * (mega : ℚ) := mul_nonneg hδ (le_of_lt mega_pos)
  have h1 : (0 : ℚ) ≤ δ * (mega : ℚ) + (n : ℚ) := by
    have : (0 : ℚ) ≤ (n : ℚ) := by exact_mod_cast hn
    linarith
  rw [jround_nonneg_add_int (δ * (mega : ℚ)) n h0 h1]
  push_cast
  rw [add_div]
  ring

theorem round_shiftX (sps : List Subpath) (δ : ℚ) (hδ : 0 ≤ δ)
    (hfix : ∀ p ∈ allPoints sps, r6q p.x = p.x ∧ r6q p.y = p.y ∧ 0 ≤ p.x) :
    roundSubpaths (shiftSubpathsX sps δ) = shiftSubpathsX sps (r6q δ) := by
  unfold roundSubpaths shiftSubpathsX
  rw [List.map_map]
  apply List.map_congr_left
  intro sp hsp
  show (⟨(sp.points.map (fun p => (⟨p.x + δ, p.y⟩ : Point))).map roundPoint,
      sp.closed⟩ : Subpath) = ⟨sp.points.map (fun p => ⟨p.x + r6q δ, p.y⟩), sp.closed⟩
  rw [List.map_map]
  congr 1
  apply List.map_congr_left
  intro p hp
  have hmem : p ∈ allPoints sps := by
    unfold allPoints
    exact List.mem_flatMap.mpr ⟨sp, hsp, hp⟩
  obtain ⟨hx, hy, hx0⟩ := hfix p hmem
  show (⟨r6q (p.x + δ), r6q p.y⟩ : Point) = ⟨p.x + r6q δ, p.y⟩
  rw [r6q_micro_add δ hx hx0 hδ, hy]

theorem bboxStep_shiftX (δ : ℚ) (acc : Option BBox) (p : Point) :
    bboxStep (acc.map (fun b => (⟨b.minX + δ, b.maxX + δ, b.minY, b.maxY⟩ : BBox)))
        (⟨p.x + δ, p.y⟩ : Point)
      = (bboxStep acc p).map (fun b => ⟨b.minX + δ, b.maxX + δ, b.minY, b.maxY⟩) := by
  cases acc with
  | none => rfl
  | some b =>
      show some (⟨min (b.minX + δ) (p.x + δ), max (b.maxX + δ) (p.x + δ),
          min b.minY (1 - p.y), max b.maxY (1 - p.y)⟩ : BBox)
        = some ⟨min b.minX p.x + δ, max b.maxX p.x + δ,
            min b.minY (1 - p.y), max b.maxY (1 - p.y)⟩
      rw [min_add_add_right, max_add_add_right]

theorem bbox_fold_some (l : List Point) :
    ∀ b : BBox, l.foldl bboxStep (some b) ≠ none := by
  induction l with
  | nil => intro b h; exact Option.noConfusion h
  | cons p rest ih =>
      intro b
      show rest.foldl bboxStep (bboxStep (some b) p) ≠ none
      exact ih _

theorem getBoundingBox_shiftX (sps : List Subpath) (δ : ℚ)
    (hne : allPoints sps ≠ []) :
    getBoundingBox (shiftSubpathsX sps δ)
      = ⟨(getBoundingBox sps).minX + δ, (getBoundingBox sps).maxX + δ,
         (getBoundingBox sps).minY, (getBoundingBox sps).maxY⟩ := by
  have hfold : ∀ (l : List Point) (acc : Option BBox),
      (l.map (fun p => (⟨p.x + δ, p.y⟩ : Point))).foldl bboxStep
          (acc.map (fun b => (⟨b.minX + δ, b.maxX + δ, b.minY, b.maxY⟩ : BBox)))
        = (l.foldl bboxStep acc).map
            (fun b => ⟨b.minX + δ, b.maxX + δ, b.minY, b.maxY⟩) := by
    intro l
    induction l with
    | nil => intro acc; rfl
    | cons p rest ih =>
        intro acc
        simp only [List.map_cons, List.foldl_cons]
        rw [bboxStep_shiftX δ acc p]
        exact ih (bboxStep acc p)
  unfold getBoundingBox shiftSubpathsX
  rw [allPoints_mapPts]
  have h2 := hfold (allPoints sps) none
  rw [show (none : Option BBox).map
      (fun b => (⟨b.minX + δ, b.maxX + δ, b.minY, b.maxY⟩ : BBox)) = none from rfl] at h2
  rw [h2]
  cases hm : (allPoints sps).foldl bboxStep none with
  | none =>
      exfalso
      obtain ⟨p, rest, hps⟩ := List.exists_cons_of_ne_nil hne
      rw [hps] at hm
      have heq : (p :: rest).foldl bboxStep none
          = rest.foldl bboxStep (some ⟨p.x, p.x, 1 - p.y, 1 - p.y⟩) := rfl
      rw [heq] at hm
      exact bbox_fold_some rest _ hm
  | some b => rfl

theorem transform_unit (sps : List Subpath) (xs : ℚ) :
    transformSubpaths sps 1 1 xs 0 = shiftSubpathsX sps xs := by
  unfold transformSubpaths shiftSubpathsX
  apply List.map_congr_left
  intro sp _
  congr 1
  apply List.map_congr_left
  intro p _
  show (⟨p.x * 1 + xs, 1 - ((1 - p.y) * 1 + 0)⟩ : Point) = ⟨p.x + xs, p.y⟩
  have h1 : p.x * 1 + xs = p.x + xs := by ring
  have h2 : 1 - ((1 - p.y) * 1 + 0) = p.y := by ring
  rw [h1, h2]

theorem shiftX_cancel (sps : List Subpath) (a : ℚ) :
    shiftSubpathsX (shiftSubpathsX sps a) (-a) = sps := by
  unfold shiftSubpathsX
  rw [List.map_map]
  have h : ∀ sp ∈ sps,
      ((fun sp => (⟨sp.points.map (fun p => (⟨p.x + -a, p.y⟩ : Point)),
          sp.closed⟩ : Subpath))
        ∘ (fun sp => (⟨sp.points.map (fun p => (⟨p.x + a, p.y⟩ : Point)),
            sp.closed⟩ : Subpath))) sp = sp := by
    intro sp _
    show (⟨(sp.points.map (fun p => (⟨p.x + a, p.y⟩ : Point))).map
        (fun p => (⟨p.x + -a, p.y⟩ : Point)), sp.closed⟩ : Subpath) = sp
    rw [List.map_map]
    have hp : ∀ p ∈ sp.points,
        ((fun p => (⟨p.x + -a, p.y⟩ : Point))
          ∘ (fun p => (⟨p.x + a, p.y⟩ : Point))) p = p := by
      intro p _
      show (⟨p.x + a + -a, p.y⟩ : Point) = p
      have : p.x + a + -a = p.x := by ring
      rw [this]
    rw [List.map_congr_left hp]
    simp
  rw [List.map_congr_left h]
  simp

theorem adjustDot_not_ij (sps : List Subpath) (c : Char) (h : c ≠ 'i' ∧ c ≠ 'j') :
    adjustDotSubpath sps c = sps := by
  simp only [adjustDotSubpath, if_pos h]

theorem pass1Glyph_unfold (R : RefLookup) (sX sY : ℚ) (c : Char) (p : String)
    (hne : parsePathData p ≠ []) :
    pass1Glyph R sX sY c p
      = serializeSubpaths (adjustDotSubpath (transformSubpaths (parsePathData p) sX sY
          (xShiftMain sX (parsePathData p))
          (yShiftMain R sY c (parsePathData p))) c) := by
  have hemp : ¬ ((parsePathData p).isEmpty = true) := fun h2 => hne (List.isEmpty_iff.mp h2)
  simp only [pass1Glyph, if_neg hemp]
  rfl

/-- One glyph: Pass 1 at unit scales, zero vertical shift and no dot
adjustment exactly undoes a nonnegative horizontal shift of a left-aligned
6-decimal glyph. -/
theorem pass1_undo_shift (R : RefLookup) (c : Char) (sps : List Subpath) (δ : ℚ)
    (hδ : 0 ≤ δ) (hne : sps ≠ []) (hsp : ∀ sp ∈ sps, sp.points ≠ [])
    (hfix : ∀ p ∈ allPoints sps, r6q p.x = p.x ∧ r6q p.y = p.y ∧ 0 ≤ p.x)
    (hmin : (getBoundingBox sps).minX = 0)
    (hij : c ≠ 'i' ∧ c ≠ 'j')
    (hy : yShiftMain R 1 c
      (parsePathData (serializeSubpaths (shiftSubpathsX sps δ))) = 0) :
    pass1Glyph R 1 1 c (serializeSubpaths (shiftSubpathsX sps δ))
      = serializeSubpaths sps := by
  have hsp2 : ∀ sp ∈ shiftSubpathsX sps δ, sp.points ≠ [] := by
    unfold shiftSubpathsX
    exact mapPts_points_ne _ _ hsp
  have hparse : parsePathData (serializeSubpaths (shiftSubpathsX sps δ))
      = shiftSubpathsX sps (r6q δ) := by
    rw [parse_serialize _ hsp2, round_shiftX sps δ hδ hfix]
  have hne2 : parsePathData (serializeSubpaths (shiftSubpathsX sps δ)) ≠ [] := by
    rw [hparse]
    unfold shiftSubpathsX
    intro h
    exact hne (List.map_eq_nil_iff.mp h)
  rw [pass1Glyph_unfold R 1 1 c _ hne2]
  rw [hy]
  rw [hparse]
  have hap : allPoints sps ≠ [] := allPoints_ne sps hne hsp
  have hbb := getBoundingBox_shiftX sps (r6q δ) hap
  have hxs : xShiftMain 1 (shiftSubpathsX sps (r6q δ)) = -(r6q δ) := by
    unfold xShiftMain xMinScaledOf
    rw [hbb]
    show -(((getBoundingBox sps).minX + r6q δ - STROKE_WIDTH / 2) * 1) = -(r6q δ)
    rw [hmin, show (STROKE_WIDTH : ℚ) = 0 from rfl]
    ring
  rw [hxs]
  rw [transform_unit, shiftX_cancel, adjustDot_not_ij _ c hij]

/-- Pass 1 at unit scales and zero vertical shift maps a Pass-3 output table
back to the table Pass 3 ran on. -/
theorem pass1_undoes_pass3 (R : RefLookup) (v : List (Char × String))
    (hwf : ∀ e ∈ v, ∃ sps, e.2 = serializeSubpaths sps ∧ sps ≠ [] ∧
      (∀ sp ∈ sps, sp.points ≠ []) ∧
      (∀ p ∈ allPoints sps, r6q p.x = p.x ∧ r6q p.y = p.y ∧ 0 ≤ p.x) ∧
      (getBoundingBox sps).minX = 0)
    (hij : ∀ e ∈ v, e.1 ≠ 'i' ∧ e.1 ≠ 'j')
    (hy : ∀ e ∈ pass3 v, yShiftMain R 1 e.1 (parsePathData e.2) = 0) :
    pass1 R 1 1 (pass3 v) = v := by
  have hfin : ∀ e ∈ v, ∃ w,
      getGlyphWidthRatio (getLineSegments e.2) strokeWidthRatio = some w := by
    intro e he
    obtain ⟨sps, hq, _, hsp, _, _⟩ := hwf e he
    rw [hq]
    have hxs := xsOfSegs_serialize sps hsp
    rcases width_of_segs _ _ strokeWidthRatio hxs with ⟨_, hw0⟩ | ⟨M, m, _, _, hwv⟩
    · exact ⟨0, hw0⟩
    · exact ⟨M - m + strokeWidthRatio, hwv⟩
  obtain ⟨g0, hfold, hg0le, _, hub⟩ := glyphFold_props v 0 hfin
  have hgv : glyphWidthRatioOf v = some g0 := hfold
  unfold pass1 pass3
  rw [List.map_map]
  conv_rhs => rw [← List.map_id v]
  apply List.map_congr_left
  intro e he
  show ((e.1 : Char), pass1Glyph R 1 1 e.1 (pass3Glyph (glyphWidthRatioOf v) e.2))
      = id e
  obtain ⟨sps, hq, hnesps, hsp, hfix, hmin⟩ := hwf e he
  obtain ⟨w, hw⟩ := hfin e he
  have hwle := hub e he w hw
  have hd : jhalf (jsub (glyphWidthRatioOf v)
      (getGlyphWidthRatio (getLineSegments e.2) strokeWidthRatio))
      = some ((g0 - w) / 2) := by
    rw [hgv, hw]
    rfl
  have hglyph : pass3Glyph (glyphWidthRatioOf v) e.2
      = if |(g0 - w) / 2| ≤ 1 / 1000000 then e.2
        else serializeSubpaths (shiftSubpathsX (parsePathData e.2) ((g0 - w) / 2)) := by
    simp only [pass3Glyph, hd]
  have hdnn : (0 : ℚ) ≤ (g0 - w) / 2 := by linarith
  have hmem : ((e.1 : Char), pass3Glyph (glyphWidthRatioOf v) e.2) ∈ pass3 v :=
    List.mem_map.mpr ⟨e, he, rfl⟩
  have hy2 := hy _ hmem
  dsimp only at hy2
  by_cases hskip : |(g0 - w) / 2| ≤ 1 / 1000000
  · rw [hglyph, if_pos hskip] at hy2 ⊢
    have h0 : serializeSubpaths sps = serializeSubpaths (shiftSubpathsX sps 0) := by
      rw [shiftX_zero]
    rw [hq, h0] at hy2 ⊢
    rw [pass1_undo_shift R e.1 sps 0 (le_refl 0) hnesps hsp hfix hmin (hij e he) hy2]
    rw [← hq]
    rfl
  · rw [hglyph, if_neg hskip] at hy2 ⊢
    have hparse0 : parsePathData e.2 = sps := by
      rw [hq, parse_serialize sps hsp,
        roundSubpaths_fix sps (fun p hp => ⟨(hfix p hp).1, (hfix p hp).2.1⟩)]
    rw [hparse0] at hy2 ⊢
    rw [pass1_undo_shift R e.1 sps ((g0 - w) / 2) hdnn hnesps hsp hfix hmin
      (hij e he) hy2]
    rw [← hq]
    rfl

/-! ### Claim theorems

Concrete evaluations below need the kernel to unfold the four Batteries
rational primitives, which ship marked irreducible; resetting them to the
default reducibility only affects elaboration-time unfolding and changes no
semantics. -/

set_option allowUnsafeReducibility true
attribute [local semireducible] Rat.add Rat.mul Rat.inv Rat.sub

/-- C1: for every non-empty subpath list whose subpaths each have at least
one point, parsing the serialized string reproduces the subpaths with each
coordinate rounded to 6 decimals (`roundSubpaths`), and in particular the
same closed flags in the same order. -/
theorem C1_parse_serialize_roundtrip (s : List Subpath) (hne : s ≠ [])
    (hp : ∀ sp ∈ s, sp.points ≠ []) :
    parsePathData (serializeSubpaths s) = roundSubpaths s ∧
    (parsePathData (serializeSubpaths s)).map Subpath.closed = s.map Subpath.closed ∧
    (parsePathData (serializeSubpaths s)).length = s.length := by
  have h := parse_serialize s hp
  refine ⟨h, ?_, ?_⟩
  · rw [h]
    unfold roundSubpaths
    rw [List.map_map]
    rfl
  · rw [h]
    unfold roundSubpaths
    rw [List.length_map]

def c1w : List Subpath := [⟨[⟨1/3, 1/2⟩], true⟩, ⟨[⟨0, 0⟩, ⟨1, -2⟩], false⟩]

theorem C1_parse_serialize_roundtrip_witness :
    c1w ≠ [] ∧ (∀ sp ∈ c1w, sp.points ≠ []) ∧
    (parsePathData (serializeSubpaths c1w) = roundSubpaths c1w ∧
     (parsePathData (serializeSubpaths c1w)).map Subpath.closed = c1w.map Subpath.closed ∧
     (parsePathData (serializeSubpaths c1w)).length = c1w.length) :=
  ⟨by decide, by decide,
    C1_parse_serialize_roundtrip c1w (by decide) (by decide)⟩

/-- C7: the literal square path parses to one closed subpath with the four
corner points in order, and reserializing it prints the space-joined
absolute form. -/
theorem C7_literal_square :
    parsePathData "M0 0L1 0L1 1L0 1Z"
        = [⟨[⟨0, 0⟩, ⟨1, 0⟩, ⟨1, 1⟩, ⟨0, 1⟩], true⟩] ∧
    serializeSubpaths (parsePathData "M0 0L1 0L1 1L0 1Z") = "M0 0 L1 0 L1 1 L0 1 Z" := by
  constructor
  · decide
  · decide

/-- C8: a relative command (lowercase `m` or `l`) resolves every coordinate
pair against the most recently resolved point, so consecutive relative pairs
accumulate cumulatively: with a resolved current point `cp`, a relative `l`
appends the cumulative sums starting from `cp` to the open subpath, and a
relative `m` flushes the open subpath and opens a new one at `cp` plus the
first pair, with the later pairs accumulating from there; in particular
`"M0 0l1 0l0 1"` parses to `(0,0),(1,0),(1,1)`, a relative `m` against the
resolved point `(2,2)` gives `"M1 1L2 2m3 4 1 1"` →
`(1,1),(2,2)` and `(5,6),(6,7)`, and after `Z` the running current point is
reset to the closed subpath's anchor, so a following relative command
continues from the subpath start
(`"M1 2L3 4Zl1 1"` → `(1,2),(3,4),(2,3)`, closed). -/
theorem C8_relative_accumulation :
    (∀ (st : ParseState) (cur : Subpath) (cp : Point) (ns : List ℚ),
      st.current = some cur → st.currentPoint = some cp → 2 ≤ ns.length →
      applyKey st 'l' ns
        = { st with current := some ⟨cur.points ++ cumPoints cp (numsToPairs ns), cur.closed⟩
                    currentPoint := some (endPoint cp (numsToPairs ns)) }) ∧
    (∀ (st : ParseState) (cp : Point) (ns : List ℚ) (d : ℚ × ℚ) (rest : List (ℚ × ℚ)),
      st.currentPoint = some cp → numsToPairs ns = d :: rest → 2 ≤ ns.length →
      applyKey st 'm' ns
        = { flushCurrent st with
              current := some ⟨⟨d.1 + cp.x, d.2 + cp.y⟩ ::
                cumPoints ⟨d.1 + cp.x, d.2 + cp.y⟩ rest, false⟩
              currentPoint := some (endPoint ⟨d.1 + cp.x, d.2 + cp.y⟩ rest)
              subpathStart := some ⟨d.1 + cp.x, d.2 + cp.y⟩ }) ∧
    parsePathData "M0 0l1 0l0 1" = [⟨[⟨0, 0⟩, ⟨1, 0⟩, ⟨1, 1⟩], false⟩] ∧
    parsePathData "M1 2L3 4Zl1 1" = [⟨[⟨1, 2⟩, ⟨3, 4⟩, ⟨2, 3⟩], true⟩] ∧
    parsePathData "M1 1L2 2m3 4 1 1"
        = [⟨[⟨1, 1⟩, ⟨2, 2⟩], false⟩, ⟨[⟨5, 6⟩, ⟨6, 7⟩], false⟩] := by
  refine ⟨?_, ?_, by decide, by decide, by decide⟩
  · intro st cur cp ns hcur hcp hlen
    have hred : applyKey st 'l' ns = processPairs false true true (numsToPairs ns) st := by
      show (if ns.length < 2 then st else processPairs false true true (numsToPairs ns) st) = _
      rw [if_neg (by omega)]
    rw [hred, processPairs_rel _ false true st cur cp (Or.inl rfl) hcur hcp]
  · intro st cp ns d rest hcp hpairs hlen
    have hred : applyKey st 'm' ns = processPairs true true true (numsToPairs ns) st := by
      show (if ns.length < 2 then st else processPairs true true true (numsToPairs ns) st) = _
      rw [if_neg (by omega)]
    rw [hred, hpairs]
    unfold processPairs
    simp only [Bool.and_self, if_true]
    have hres : resolvePair true st.currentPoint d = ⟨d.1 + cp.x, d.2 + cp.y⟩ := by
      rw [hcp]
      rfl
    rw [hres]
    have hstart := startSubpath_fields st ⟨d.1 + cp.x, d.2 + cp.y⟩
    rw [processPairs_rel rest true false _ ⟨[⟨d.1 + cp.x, d.2 + cp.y⟩], false⟩
        ⟨d.1 + cp.x, d.2 + cp.y⟩ (Or.inr rfl) hstart.1 (by unfold startSubpath; rfl)]
    rfl

def c8st : ParseState := ⟨[], some ⟨[⟨1, 1⟩], false⟩, some ⟨1, 1⟩, some ⟨1, 1⟩⟩

theorem C8_relative_accumulation_witness :
    c8st.current = some ⟨[⟨1, 1⟩], false⟩ ∧ c8st.currentPoint = some ⟨1, 1⟩ ∧
    2 ≤ ([2, 3, 4, 5] : List ℚ).length ∧
    numsToPairs ([2, 3, 4, 5] : List ℚ) = (2, 3) :: [(4, 5)] ∧
    applyKey c8st 'l' [2, 3, 4, 5]
      = { c8st with
            current := some ⟨[⟨1, 1⟩] ++ cumPoints ⟨1, 1⟩ (numsToPairs [2, 3, 4, 5]), false⟩
            currentPoint := some (endPoint ⟨1, 1⟩ (numsToPairs [2, 3, 4, 5])) } ∧
    applyKey c8st 'm' [2, 3, 4, 5]
      = { flushCurrent c8st with
            current := some ⟨⟨3, 4⟩ :: cumPoints ⟨3, 4⟩ [(4, 5)], false⟩
            currentPoint := some (endPoint ⟨3, 4⟩ [(4, 5)])
            subpathStart := some ⟨3, 4⟩ } := by
  refine ⟨rfl, rfl, by decide, by decide, ?_, ?_⟩
  · exact C8_relative_accumulation.1 c8st ⟨[⟨1, 1⟩], false⟩ ⟨1, 1⟩ [2, 3, 4, 5] rfl rfl
      (by decide)
  · rw [C8_relative_accumulation.2.1 c8st ⟨1, 1⟩ [2, 3, 4, 5] (2, 3) [(4, 5)] rfl
      (by decide) (by decide)]
    decide

/-- C10: a relative `m`/`l` command issued before any current point has been
resolved takes its first coordinate pair as absolute coordinates, with only
the later pairs accumulating; in particular `"l1 2l3 4"` parses to
`(1,2),(4,6)`. -/
theorem C10_leading_relative_is_absolute :
    (∀ (cmd : Char) (st : ParseState) (ns : List ℚ) (d : ℚ × ℚ) (rest : List (ℚ × ℚ)),
      cmd = 'l' ∨ cmd = 'm' →
      st.current = none → st.currentPoint = none →
      numsToPairs ns = d :: rest → ¬ ns.length < 2 →
      ∃ st1 : ParseState, applyKey st cmd ns = st1 ∧
        st1.current = some ⟨⟨d.1, d.2⟩ :: cumPoints ⟨d.1, d.2⟩ rest, false⟩ ∧
        st1.currentPoint = some (endPoint ⟨d.1, d.2⟩ rest)) ∧
    parsePathData "l1 2l3 4" = [⟨[⟨1, 2⟩, ⟨4, 6⟩], false⟩] := by
  refine ⟨?_, by decide⟩
  intro cmd st ns d rest hcmd hcur hcp hpairs hlen
  have hres : resolvePair true st.currentPoint d = ⟨d.1, d.2⟩ := by
    rw [hcp]
    rfl
  rcases hcmd with rfl | rfl
  · have hred : applyKey st 'l' ns = processPairs false true true (numsToPairs ns) st := by
      show (if ns.length < 2 then st
        else processPairs false true true (numsToPairs ns) st) = _
      rw [if_neg hlen]
    rw [hred, hpairs]
    unfold processPairs
    simp only [Bool.false_and, Bool.false_eq_true, if_false]
    rw [hres]
    have hadd : addPoint st ⟨d.1, d.2⟩
        = { st with current := some ⟨[⟨d.1, d.2⟩], false⟩
                    subpathStart := some ⟨d.1, d.2⟩
                    currentPoint := some ⟨d.1, d.2⟩ } := by
      unfold addPoint
      rw [hcur]
    rw [hadd,
      processPairs_rel rest false false _ ⟨[⟨d.1, d.2⟩], false⟩ ⟨d.1, d.2⟩
        (Or.inl rfl) rfl rfl]
    exact ⟨_, rfl, by simp [cumPoints], by simp⟩
  · have hred : applyKey st 'm' ns = processPairs true true true (numsToPairs ns) st := by
      show (if ns.length < 2 then st
        else processPairs true true true (numsToPairs ns) st) = _
      rw [if_neg hlen]
    rw [hred, hpairs]
    unfold processPairs
    simp only [Bool.and_self, if_true]
    rw [hres]
    have hstart := startSubpath_fields st ⟨d.1, d.2⟩
    rw [processPairs_rel rest true false _ ⟨[⟨d.1, d.2⟩], false⟩ ⟨d.1, d.2⟩
      (Or.inr rfl) hstart.1 (by unfold startSubpath; rfl)]
    exact ⟨_, rfl, by simp [cumPoints], by simp⟩

theorem C10_leading_relative_is_absolute_witness :
    (initState.current = none) ∧ (initState.currentPoint = none) ∧
    numsToPairs ([1, 2, 3, 4] : List ℚ) = (1, 2) :: [(3, 4)] ∧
    ¬ ([1, 2, 3, 4] : List ℚ).length < 2 ∧
    (∃ st1 : ParseState, applyKey initState 'l' [1, 2, 3, 4] = st1 ∧
      st1.current = some ⟨⟨1, 2⟩ :: cumPoints ⟨1, 2⟩ [(3, 4)], false⟩ ∧
      st1.currentPoint = some (endPoint ⟨1, 2⟩ [(3, 4)])) :=
  ⟨rfl, rfl, by decide, by decide,
    C10_leading_relative_is_absolute.1 'l' initState [1, 2, 3, 4] (1, 2) [(3, 4)]
      (Or.inl rfl) rfl rfl (by decide) (by decide)⟩

/-- C9: the coordinate text emitted by `formatNumber` never uses exponential
notation (no `e`/`E` appears), never prints a negative zero, always has the
shape optional-sign, digit-only integer part, then at most 6 fractional
digits; and equal inputs produce equal text (the embedding is a pure
function). -/
theorem C9_formatNumber_text (q : ℚ) :
    (∀ c ∈ (formatNumber q).data, c ≠ 'e' ∧ c ≠ 'E') ∧
    formatNumber q ≠ "-0" ∧
    (∃ sign intCs frCs, (sign = [] ∨ sign = ['-']) ∧
      (∀ c ∈ intCs, c.isDigit = true) ∧ (∀ c ∈ frCs, c.isDigit = true) ∧
      frCs.length ≤ 6 ∧
      (formatNumber q).data = sign ++ intCs ++ (if frCs.isEmpty then [] else '.' :: frCs)) ∧
    (∀ r : ℚ, q = r → formatNumber q = formatNumber r) := by
  obtain ⟨sign, intCs, frCs, hsign, hint, hfr, hlen, heq⟩ := fmtChars_shape q
  refine ⟨?_, ?_, ⟨sign, intCs, frCs, hsign, hint, hfr, hlen, heq⟩, ?_⟩
  · intro c hc
    have hc2 : c ∈ fmtChars q := hc
    rw [heq] at hc2
    simp only [List.append_assoc, List.mem_append] at hc2
    rcases hc2 with hc2 | hc2 | hc2
    · rcases hsign with rfl | rfl
      · simp at hc2
      · rcases List.mem_singleton.mp hc2 with rfl
        exact ⟨by decide, by decide⟩
    · have h := isDigit_ne (hint c hc2)
      exact ⟨h.2.2.2.1, h.2.2.2.2⟩
    · by_cases hemp : frCs.isEmpty
      · rw [if_pos hemp] at hc2
        simp at hc2
      · rw [if_neg hemp] at hc2
        rcases List.mem_cons.mp hc2 with rfl | hc2
        · exact ⟨by decide, by decide⟩
        · have h := isDigit_ne (hfr c hc2)
          exact ⟨h.2.2.2.1, h.2.2.2.2⟩
  · intro h
    exact fmtChars_ne_negZero q (congrArg String.data h)
  · intro r hqr
    rw [hqr]

/-- C5: for characters other than 'i'/'j', and when no dot subpath is
detected, `adjustDotSubpath` returns the subpaths unchanged; when a dot is
detected (zero-height, positive-width, lowest-`minY` subpath) for 'i' or 'j',
every other subpath is unchanged, the dot's points keep their y coordinates,
and the dot's bounding box is rescaled about its own horizontal center to
width `min originalWidth 0.08`. -/
theorem C5_dot_adjustment (sps : List Subpath) (c : Char) :
    ((c ≠ 'i' ∧ c ≠ 'j') → adjustDotSubpath sps c = sps) ∧
    (findDot sps = none → adjustDotSubpath sps c = sps) ∧
    (∀ di bb, findDot sps = some (di, bb) → (c = 'i' ∨ c = 'j') →
      ∃ sp, sps.get? di = some sp ∧ rawBBox sp.points = some bb ∧
        bb.maxY - bb.minY = 0 ∧ 0 < bb.maxX - bb.minX ∧
        (∀ j, j ≠ di → (adjustDotSubpath sps c).get? j = sps.get? j) ∧
        ∃ sp2, (adjustDotSubpath sps c).get? di = some sp2 ∧
          sp2.closed = sp.closed ∧
          sp2.points.map Point.y = sp.points.map Point.y ∧
          ∃ b2, rawBBox sp2.points = some b2 ∧
            b2.maxX - b2.minX = min (bb.maxX - bb.minX) (8/100 : ℚ) ∧
            b2.minX + b2.maxX = bb.minX + bb.maxX) := by
  refine ⟨?_, ?_, ?_⟩
  · intro hc
    simp only [adjustDotSubpath, if_pos hc]
  · intro hf
    by_cases hc : c ≠ 'i' ∧ c ≠ 'j'
    · simp only [adjustDotSubpath, if_pos hc]
    · simp only [adjustDotSubpath, if_neg hc, hf]
  · intro di bb hf hc
    obtain ⟨sp, hget, hbb, hh, hw⟩ := findDot_spec sps di bb hf
    have hc' : ¬ (c ≠ 'i' ∧ c ≠ 'j') := by
      rcases hc with h | h <;> simp [h]
    have hs0 : 0 ≤ min (bb.maxX - bb.minX) (8/100 : ℚ) / (bb.maxX - bb.minX) :=
      le_of_lt (div_pos (lt_min hw (by norm_num)) hw)
    have hadj : adjustDotSubpath sps c
        = mapAtIdx (fun sp =>
            ⟨sp.points.map
              (affX ((bb.minX + bb.maxX) / 2)
                (min (bb.maxX - bb.minX) (8/100 : ℚ) / (bb.maxX - bb.minX))),
              sp.closed⟩) di 0 sps := by
      simp only [adjustDotSubpath, hf, if_neg hc', if_neg (not_not_intro hw)]
      rfl
    have hdi : (adjustDotSubpath sps c).get? di
        = some ⟨sp.points.map
            (affX ((bb.minX + bb.maxX) / 2)
              (min (bb.maxX - bb.minX) (8/100 : ℚ) / (bb.maxX - bb.minX))),
            sp.closed⟩ := by
      rw [hadj, mapAtIdx_get?, if_pos (Nat.zero_add di), hget]
      rfl
    refine ⟨sp, hget, hbb, hh, hw, ?_, ?_⟩
    · intro j hj
      rw [hadj, mapAtIdx_get?]
      rw [if_neg (by omega : ¬ 0 + j = di)]
    · refine ⟨_, hdi, rfl, ?_, ?_⟩
      · show (sp.points.map _).map Point.y = sp.points.map Point.y
        rw [List.map_map]
        rfl
      · refine ⟨affB ((bb.minX + bb.maxX) / 2)
            (min (bb.maxX - bb.minX) (8/100 : ℚ) / (bb.maxX - bb.minX)) bb,
            ?_, ?_, ?_⟩
        · show rawBBox (sp.points.map
              (affX ((bb.minX + bb.maxX) / 2)
                (min (bb.maxX - bb.minX) (8/100 : ℚ) / (bb.maxX - bb.minX)))) = _
          rw [rawBBox_aff _ _ hs0, hbb]
          rfl
        · exact affB_width ((bb.minX + bb.maxX) / 2) (8/100 : ℚ) bb hw
        · exact affB_center _ bb

def c5sps : List Subpath :=
  [⟨[⟨0, 0⟩, ⟨0, 1⟩], false⟩, ⟨[⟨1/5, 1/10⟩, ⟨2/5, 1/10⟩], true⟩]

def c5bb : BBox := ⟨1/5, 2/5, 1/10, 1/10⟩

theorem C5_dot_adjustment_witness :
    findDot c5sps = some (1, c5bb) ∧
    ∃ sp, c5sps.get? 1 = some sp ∧ rawBBox sp.points = some c5bb ∧
      c5bb.maxY - c5bb.minY = 0 ∧ 0 < c5bb.maxX - c5bb.minX ∧
      (∀ j, j ≠ 1 → (adjustDotSubpath c5sps 'i').get? j = c5sps.get? j) ∧
      ∃ sp2, (adjustDotSubpath c5sps 'i').get? 1 = some sp2 ∧
        sp2.closed = sp.closed ∧
        sp2.points.map Point.y = sp.points.map Point.y ∧
        ∃ b2, rawBBox sp2.points = some b2 ∧
          b2.maxX - b2.minX = min (c5bb.maxX - c5bb.minX) (8/100 : ℚ) ∧
          b2.minX + b2.maxX = c5bb.minX + c5bb.maxX :=
  ⟨by decide, (C5_dot_adjustment c5sps 'i').2.2 1 c5bb (by decide) (Or.inl rfl)⟩

/-- C4 counterexample: the glyph `"M0 1 L0.5 1"` has scaled width `1/2 ≤ 1`
at unit scale, yet the main script's Pass-1 shift is `0`, not the claimed
centering value `(1 - scaledWidth)/2 - xMinScaled = 1/4`; the full Pass-1
body leaves the glyph left-aligned at `x = 0` instead of centering it. -/
theorem C4_centering_counterexample :
    scaledWidthOf 1 (parsePathData "M0 1 L0.5 1") ≤ 1 ∧
    xShiftMain 1 (parsePathData "M0 1 L0.5 1")
      ≠ (1 - scaledWidthOf 1 (parsePathData "M0 1 L0.5 1")) / 2
          - xMinScaledOf 1 (parsePathData "M0 1 L0.5 1") ∧
    pass1Glyph noRef 1 1 'a' "M0 1 L0.5 1" = "M0 1 L0.5 1" := by
  refine ⟨by decide, by decide, by decide⟩

/-- C4 amended: the main script's Pass 1 always left-aligns — its horizontal
shift is `-xMinScaled` for every glyph, so the padded scaled minimum x lands
on 0 unconditionally; the conditional centering the claim describes exists
only in the older `src/unnamed/part_000` variant, whose shift centers the
padded scaled extent in the unit cell exactly when `scaledWidth ≤ 1` and
left-aligns otherwise. -/
theorem C4_pass1_left_aligns (R : RefLookup) (sX sY : ℚ) (c : Char) (p : String)
    (hne : parsePathData p ≠ []) :
    pass1Glyph R sX sY c p
      = serializeSubpaths (adjustDotSubpath
          (transformSubpaths (parsePathData p) sX sY
            (xShiftMain sX (parsePathData p))
            (yShiftMain R sY c (parsePathData p))) c) ∧
    xMinScaledOf sX (parsePathData p) + xShiftMain sX (parsePathData p) = 0 ∧
    (scaledWidthOf sX (parsePathData p) ≤ 1 →
      xMinScaledOf sX (parsePathData p) + xShiftPart000 sX (parsePathData p)
        = 1 - (xMaxScaledOf sX (parsePathData p)
                + xShiftPart000 sX (parsePathData p))) ∧
    (1 < scaledWidthOf sX (parsePathData p) →
      xMinScaledOf sX (parsePathData p) + xShiftPart000 sX (parsePathData p)
        = 0) := by
  refine ⟨?_, ?_, ?_, ?_⟩
  · have hemp : ¬ ((parsePathData p).isEmpty = true) := by
      intro h
      exact hne (List.isEmpty_iff.mp h)
    simp only [pass1Glyph, if_neg hemp]
    rfl
  · simp only [xShiftMain]
    ring
  · intro hW
    rw [xShiftPart000, if_pos hW]
    simp only [scaledWidthOf]
    ring
  · intro hW
    rw [xShiftPart000, if_neg (not_le.mpr hW)]
    ring

theorem C4_pass1_left_aligns_witness :
    parsePathData "M0 1 L0.5 1" ≠ [] ∧
    (pass1Glyph noRef 1 1 'a' "M0 1 L0.5 1"
      = serializeSubpaths (adjustDotSubpath
          (transformSubpaths (parsePathData "M0 1 L0.5 1") 1 1
            (xShiftMain 1 (parsePathData "M0 1 L0.5 1"))
            (yShiftMain noRef 1 'a' (parsePathData "M0 1 L0.5 1"))) 'a') ∧
    xMinScaledOf 1 (parsePathData "M0 1 L0.5 1")
        + xShiftMain 1 (parsePathData "M0 1 L0.5 1") = 0 ∧
    (scaledWidthOf 1 (parsePathData "M0 1 L0.5 1") ≤ 1 →
      xMinScaledOf 1 (parsePathData "M0 1 L0.5 1")
          + xShiftPart000 1 (parsePathData "M0 1 L0.5 1")
        = 1 - (xMaxScaledOf 1 (parsePathData "M0 1 L0.5 1")
                + xShiftPart000 1 (parsePathData "M0 1 L0.5 1"))) ∧
    (1 < scaledWidthOf 1 (parsePathData "M0 1 L0.5 1") →
      xMinScaledOf 1 (parsePathData "M0 1 L0.5 1")
          + xShiftPart000 1 (parsePathData "M0 1 L0.5 1") = 0)) :=
  ⟨by decide, C4_pass1_left_aligns noRef 1 1 'a' "M0 1 L0.5 1" (by decide)⟩

def c6bad : Table := [('g', "M0 0"), ('_', "M0 0.5 L1 0.5")]

/-- C6 counterexample: with `g` (a descender character) and `_` both present
but the descender maximum equal to 0, the `0 < target` guard makes Pass 2 a
no-op, Pass 3 leaves the underscore untouched, and the underscore's deepest
point (0.5) differs from the descender maximum (0) by far more than 1e-6. -/
theorem C6_descender_counterexample :
    lookupTable c6bad 'g' = some "M0 0" ∧
    lookupTable c6bad '_' = some "M0 0.5 L1 0.5" ∧
    pass2 c6bad = c6bad ∧
    lookupTable (pass3 (pass2 c6bad)) '_' = some "M0 0.5 L1 0.5" ∧
    ¬ (|getMaxYFromSubpaths (parsePathData "M0 0.5 L1 0.5")
          - descenderTargetY c6bad| ≤ 1 / 1000000) := by
  refine ⟨by decide, by decide, by decide, by decide, by decide⟩

/-- C6 amended: the alignment additionally needs the computed descender
maximum to be positive (the `0 < target` guard).  Under that premise — for an
underscore glyph with at least one point per subpath and 6-decimal y's, and a
6-decimal descender target — after Pass 2 the underscore's deepest point
equals the descender maximum within 1e-6, and Pass 3 (in its non-NaN arm)
never changes it. -/
theorem C6_descender_alignment (t : Table) (p : String)
    (hup : lookupTable t '_' = some p) (hpne : p ≠ "")
    (htgt : 0 < descenderTargetY t)
    (hap : allPoints (parsePathData p) ≠ [])
    (hsp : ∀ sp ∈ parsePathData p, sp.points ≠ [])
    (hfixy : ∀ pt ∈ allPoints (parsePathData p), r6q pt.y = pt.y)
    (htfix : r6q (descenderTargetY t) = descenderTargetY t) :
    ∃ p2, lookupTable (pass2 t) '_' = some p2 ∧
      |getMaxYFromSubpaths (parsePathData p2) - descenderTargetY t| ≤ 1 / 1000000 ∧
      lookupTable (pass3 (pass2 t)) '_'
        = some (pass3Glyph (glyphWidthRatioOf (pass2 t)) p2) ∧
      ∀ d, jhalf (jsub (glyphWidthRatioOf (pass2 t))
              (getGlyphWidthRatio (getLineSegments p2) strokeWidthRatio)) = some d →
        getMaxYFromSubpaths (parsePathData (pass3Glyph (glyphWidthRatioOf (pass2 t)) p2))
          = getMaxYFromSubpaths (parsePathData p2) := by
  by_cases hδ : 1 / 1000000
      < |descenderTargetY t - getMaxYFromSubpaths (parsePathData p)|
  · have hpass2 : pass2 t
        = setTable t '_' (serializeSubpaths (shiftSubpathsY (parsePathData p)
            (descenderTargetY t - getMaxYFromSubpaths (parsePathData p)))) := by
      simp only [pass2, hup, if_neg hpne, if_pos htgt, if_pos hδ]
    have hneS : ∀ sp ∈ shiftSubpathsY (parsePathData p)
        (descenderTargetY t - getMaxYFromSubpaths (parsePathData p)),
        sp.points ≠ [] := by
      unfold shiftSubpathsY
      exact mapPts_points_ne _ _ hsp
    have hparse2 : parsePathData (serializeSubpaths (shiftSubpathsY (parsePathData p)
            (descenderTargetY t - getMaxYFromSubpaths (parsePathData p))))
        = roundSubpaths (shiftSubpathsY (parsePathData p)
            (descenderTargetY t - getMaxYFromSubpaths (parsePathData p))) :=
      parse_serialize _ hneS
    have hmicδ : Micro (descenderTargetY t - getMaxYFromSubpaths (parsePathData p)) :=
      micro_sub (micro_of_fix htfix) (micro_getMaxY _ hfixy)
    have hfixS : ∀ pt ∈ allPoints (shiftSubpathsY (parsePathData p)
        (descenderTargetY t - getMaxYFromSubpaths (parsePathData p))),
        r6q pt.y = pt.y := by
      intro pt hpt
      unfold shiftSubpathsY at hpt
      rw [allPoints_mapPts] at hpt
      obtain ⟨pt0, hpt0, rfl⟩ := List.mem_map.mp hpt
      exact r6q_micro (micro_add (micro_of_fix (hfixy pt0 hpt0)) hmicδ)
    have hmax : getMaxYFromSubpaths (parsePathData (serializeSubpaths
            (shiftSubpathsY (parsePathData p)
              (descenderTargetY t - getMaxYFromSubpaths (parsePathData p)))))
        = descenderTargetY t := by
      rw [hparse2, getMaxY_round_fix _ hfixS, getMaxY_shiftY _ _ hap]
      ring
    have ha : lookupTable (pass2 t) '_'
        = some (serializeSubpaths (shiftSubpathsY (parsePathData p)
            (descenderTargetY t - getMaxYFromSubpaths (parsePathData p)))) := by
      rw [hpass2]
      exact lookupTable_setTable t '_' _ p hup
    refine ⟨_, ha, ?_, ?_, ?_⟩
    · rw [hmax, sub_self, abs_zero]
      norm_num
    · show lookupTable ((pass2 t).map
          (fun e => (e.1, pass3Glyph (glyphWidthRatioOf (pass2 t)) e.2))) '_' = _
      rw [lookupTable_map, ha]
      rfl
    · intro d hd
      refine pass3Glyph_maxY _ _ d hd ?_ ?_
      · rw [hparse2]
        unfold roundSubpaths
        exact mapPts_points_ne _ _ hneS
      · rw [hparse2]
        exact fixy_roundSubpaths _
  · have hpass2 : pass2 t = t := by
      simp only [pass2, hup, if_neg hpne, if_pos htgt, if_neg hδ]
    have ha : lookupTable (pass2 t) '_' = some p := by
      rw [hpass2]
      exact hup
    refine ⟨p, ha, ?_, ?_, ?_⟩
    · rw [abs_sub_comm]
      exact not_lt.mp hδ
    · show lookupTable ((pass2 t).map
          (fun e => (e.1, pass3Glyph (glyphWidthRatioOf (pass2 t)) e.2))) '_' = _
      rw [lookupTable_map, ha]
      rfl
    · intro d hd
      exact pass3Glyph_maxY _ _ d hd hsp hfixy

def c6t : Table := [('g', "M0 0 L0 0.2"), ('_', "M0 0.5 L1 0.5")]

theorem C6_descender_alignment_witness :
    lookupTable c6t '_' = some "M0 0.5 L1 0.5" ∧
    "M0 0.5 L1 0.5" ≠ "" ∧
    0 < descenderTargetY c6t ∧
    allPoints (parsePathData "M0 0.5 L1 0.5") ≠ [] ∧
    (∀ sp ∈ parsePathData "M0 0.5 L1 0.5", sp.points ≠ []) ∧
    (∀ pt ∈ allPoints (parsePathData "M0 0.5 L1 0.5"), r6q pt.y = pt.y) ∧
    r6q (descenderTargetY c6t) = descenderTargetY c6t ∧
    (∃ p2, lookupTable (pass2 c6t) '_' = some p2 ∧
      |getMaxYFromSubpaths (parsePathData p2) - descenderTargetY c6t| ≤ 1 / 1000000 ∧
      lookupTable (pass3 (pass2 c6t)) '_'
        = some (pass3Glyph (glyphWidthRatioOf (pass2 c6t)) p2) ∧
      ∀ d, jhalf (jsub (glyphWidthRatioOf (pass2 c6t))
              (getGlyphWidthRatio (getLineSegments p2) strokeWidthRatio)) = some d →
        getMaxYFromSubpaths (parsePathData (pass3Glyph (glyphWidthRatioOf (pass2 c6t)) p2))
          = getMaxYFromSubpaths (parsePathData p2)) :=
  ⟨by decide, by decide, by decide, by decide, by decide, by decide, by decide,
    C6_descender_alignment c6t "M0 0.5 L1 0.5" (by decide) (by decide) (by decide)
      (by decide) (by decide) (by decide) (by decide)⟩

/-- C3: on a table of serializer outputs whose alphabet-wide padded maximum
is the finite value `g`, every character's padded horizontal extent after
Pass 3 is finite and at most `g`, and the recomputed alphabet-wide maximum
(`finalGlyphWidthRatio`'s reduce) is exactly `some g` again. -/
theorem C3_monospace_after_pass3 (u : List (Char × String))
    (hwf : ∀ e ∈ u, ∃ sps, (∀ sp ∈ sps, sp.points ≠ []) ∧
      e.2 = serializeSubpaths sps)
    (g : ℚ) (hg : glyphWidthRatioOf u = some g) :
    (∀ e ∈ pass3 u, ∃ w,
      getGlyphWidthRatio (getLineSegments e.2) strokeWidthRatio = some w ∧ w ≤ g) ∧
    glyphWidthRatioOf (pass3 u) = some g := by
  have hfin : ∀ e ∈ u, ∃ w,
      getGlyphWidthRatio (getLineSegments e.2) strokeWidthRatio = some w := by
    intro e he
    obtain ⟨sps, hsp, hq⟩ := hwf e he
    rw [hq]
    have hxs := xsOfSegs_serialize sps hsp
    rcases width_of_segs _ _ strokeWidthRatio hxs with ⟨_, hw0⟩ | ⟨M, m, _, _, hwv⟩
    · exact ⟨0, hw0⟩
    · exact ⟨M - m + strokeWidthRatio, hwv⟩
  obtain ⟨g0, hfold, hg0le, hatt, hub⟩ := glyphFold_props u 0 hfin
  have hgg : g0 = g := by
    have h2 : glyphWidthRatioOf u = some g0 := hfold
    rw [hg] at h2
    exact (Option.some.inj h2).symm
  subst hgg
  have hstep : ∀ e ∈ u, ∃ w',
      getGlyphWidthRatio (getLineSegments
        (pass3Glyph (glyphWidthRatioOf u) e.2)) strokeWidthRatio = some w'
        ∧ w' ≤ g0 := by
    intro e he
    obtain ⟨sps, hsp, hq⟩ := hwf e he
    obtain ⟨w, hw⟩ := hfin e he
    rw [hg]
    obtain ⟨w', hw', hle', _⟩ :=
      pass3Glyph_width g0 e.2 sps hq hsp w hw (hub e he w hw)
    exact ⟨w', hw', hle'⟩
  have hmemchar : ∀ e' ∈ pass3 u, ∃ e ∈ u,
      e' = (e.1, pass3Glyph (glyphWidthRatioOf u) e.2) := by
    intro e' he'
    have hmem : e' ∈ u.map (fun e => (e.1, pass3Glyph (glyphWidthRatioOf u) e.2)) := he'
    obtain ⟨e, he, heq⟩ := List.mem_map.mp hmem
    exact ⟨e, he, heq.symm⟩
  constructor
  · intro e' he'
    obtain ⟨e, he, rfl⟩ := hmemchar e' he'
    obtain ⟨w', hw', hle'⟩ := hstep e he
    exact ⟨w', hw', hle'⟩
  · have hfin2 : ∀ e' ∈ pass3 u, ∃ w',
        getGlyphWidthRatio (getLineSegments e'.2) strokeWidthRatio = some w' := by
      intro e' he'
      obtain ⟨e, he, rfl⟩ := hmemchar e' he'
      obtain ⟨w', hw', _⟩ := hstep e he
      exact ⟨w', hw'⟩
    obtain ⟨g2, hfold2, hg2le, hatt2, hub2⟩ := glyphFold_props (pass3 u) 0 hfin2
    have hG2 : glyphWidthRatioOf (pass3 u) = some g2 := hfold2
    have hle1 : g2 ≤ g0 := by
      rcases hatt2 with h0 | ⟨e', he', hwe'⟩
      · rw [h0]
        exact hg0le
      · obtain ⟨e, he, rfl⟩ := hmemchar e' he'
        obtain ⟨w', hw', hle'⟩ := hstep e he
        have hinj : w' = g2 := by
          have h3 : getGlyphWidthRatio (getLineSegments
              ((e.1, pass3Glyph (glyphWidthRatioOf u) e.2).2)) strokeWidthRatio
              = some g2 := hwe'
          rw [hw'] at h3
          exact Option.some.inj h3
        rw [← hinj]
        exact hle'
    have hle2 : g0 ≤ g2 := by
      rcases hatt with h0 | ⟨e, he, hwe⟩
      · rw [h0]
        exact hg2le
      · obtain ⟨sps, hsp, hq⟩ := hwf e he
        obtain ⟨w', hw', hle', hskip⟩ :=
          pass3Glyph_width g0 e.2 sps hq hsp g0 hwe (le_refl g0)
        have hunch := hskip rfl
        have he' : (e.1, pass3Glyph (glyphWidthRatioOf u) e.2) ∈ pass3 u := by
          exact List.mem_map.mpr ⟨e, he, rfl⟩
        refine hub2 _ he' g0 ?_
        show getGlyphWidthRatio (getLineSegments
            (pass3Glyph (glyphWidthRatioOf u) e.2)) strokeWidthRatio = some g0
        rw [hg, hunch]
        exact hwe
    rw [hG2, le_antisymm hle1 hle2]

def c3u : List (Char × String) := [('A', "M0 0 L1 0"), ('B', "M0 0 L0.5 0")]

theorem C3_monospace_after_pass3_witness :
    (∀ e ∈ c3u, ∃ sps, (∀ sp ∈ sps, sp.points ≠ []) ∧
      e.2 = serializeSubpaths sps) ∧
    glyphWidthRatioOf c3u = some (109/100) ∧
    ((∀ e ∈ pass3 c3u, ∃ w,
        getGlyphWidthRatio (getLineSegments e.2) strokeWidthRatio = some w
          ∧ w ≤ 109/100) ∧
      glyphWidthRatioOf (pass3 c3u) = some (109/100)) := by
  have hwf : ∀ e ∈ c3u, ∃ sps, (∀ sp ∈ sps, sp.points ≠ []) ∧
      e.2 = serializeSubpaths sps := by
    intro e he
    rcases List.mem_cons.mp he with rfl | he
    · exact ⟨[⟨[⟨0, 0⟩, ⟨1, 0⟩], false⟩], by decide, by decide⟩
    rcases List.mem_cons.mp he with rfl | he
    · exact ⟨[⟨[⟨0, 0⟩, ⟨1/2, 0⟩], false⟩], by decide, by decide⟩
    · simp at he
  exact ⟨hwf, by decide,
    C3_monospace_after_pass3 c3u hwf (109/100) (by decide)⟩

/-- C2 counterexample: with no reference metrics, re-running the pipeline on
its own output applies the 0.93 vertical fallback scale again: the glyph
`"M0 0 L1 1"` becomes `"M0 0.07 L1 1"` after one run and `"M0 0.1351 L1 1"`
after two, so the pipeline is not idempotent as claimed. -/
theorem C2_idempotence_counterexample :
    runPipeline noRef [('A', "M0 0 L1 1")] = [('A', "M0 0.07 L1 1")] ∧
    runPipeline noRef (runPipeline noRef [('A', "M0 0 L1 1")])
      ≠ runPipeline noRef [('A', "M0 0 L1 1")] := by
  refine ⟨by decide, by decide⟩

/-- C2 amended: the pipeline is idempotent only conditionally.  If the
intermediate table `v` (the state after Pass 2 of a first run) consists of
serializer outputs of nonempty, left-aligned glyphs with nonnegative
6-decimal coordinates, is Pass-2 stable, has no dotted-stem keys, and the
reference metrics make the second run's scales exactly 1 with zero vertical
re-spacing, then re-running the whole pipeline on the first run's output
`pass3 v` reproduces it — Pass 1 exactly undoes the Pass-3 centering shifts
— and the derived width metric is reproduced as well.  Without those
premises idempotence fails (see the counterexample). -/
theorem C2_conditional_idempotence (R : RefLookup) (v : List (Char × String))
    (hwf : ∀ e ∈ v, ∃ sps, e.2 = serializeSubpaths sps ∧ sps ≠ [] ∧
      (∀ sp ∈ sps, sp.points ≠ []) ∧
      (∀ p ∈ allPoints sps, r6q p.x = p.x ∧ r6q p.y = p.y ∧ 0 ≤ p.x) ∧
      (getBoundingBox sps).minX = 0)
    (hij : ∀ e ∈ v, e.1 ≠ 'i' ∧ e.1 ≠ 'j')
    (hp2 : pass2 v = v)
    (hsX : baseScaleXOf R (pass3 v) = 1)
    (hsY : baseScaleYOf R (pass3 v) = 1)
    (hy : ∀ e ∈ pass3 v, yShiftMain R 1 e.1 (parsePathData e.2) = 0) :
    runPipeline R (pass3 v) = pass3 v ∧
    finalGlyphWidthRatio R (pass3 v) = glyphWidthRatioOf (pass3 v) := by
  have hmain : runPipeline R (pass3 v) = pass3 v := by
    unfold runPipeline runPass1
    rw [hsX, hsY]
    rw [pass1_undoes_pass3 R v hwf hij hy]
    rw [hp2]
  refine ⟨hmain, ?_⟩
  unfold finalGlyphWidthRatio
  rw [hmain]

def c2v : List (Char × String) := [('H', "M0 0 L1 0 L1 1 L0 1 Z")]

def c2R : RefLookup := fun c =>
  if c = 'H' then some ⟨1000, 100000/93, 0, 0, 0, 0, 1000⟩ else none

theorem C2_conditional_idempotence_witness :
    (∀ e ∈ c2v, ∃ sps, e.2 = serializeSubpaths sps ∧ sps ≠ [] ∧
      (∀ sp ∈ sps, sp.points ≠ []) ∧
      (∀ p ∈ allPoints sps, r6q p.x = p.x ∧ r6q p.y = p.y ∧ 0 ≤ p.x) ∧
      (getBoundingBox sps).minX = 0) ∧
    (∀ e ∈ c2v, e.1 ≠ 'i' ∧ e.1 ≠ 'j') ∧
    pass2 c2v = c2v ∧
    baseScaleXOf c2R (pass3 c2v) = 1 ∧
    baseScaleYOf c2R (pass3 c2v) = 1 ∧
    (∀ e ∈ pass3 c2v, yShiftMain c2R 1 e.1 (parsePathData e.2) = 0) ∧
    (runPipeline c2R (pass3 c2v) = pass3 c2v ∧
      finalGlyphWidthRatio c2R (pass3 c2v) = glyphWidthRatioOf (pass3 c2v)) := by
  have hwf : ∀ e ∈ c2v, ∃ sps, e.2 = serializeSubpaths sps ∧ sps ≠ [] ∧
      (∀ sp ∈ sps, sp.points ≠ []) ∧
      (∀ p ∈ allPoints sps, r6q p.x = p.x ∧ r6q p.y = p.y ∧ 0 ≤ p.x) ∧
      (getBoundingBox sps).minX = 0 := by
    intro e he
    rcases List.mem_cons.mp he with rfl | he
    · exact ⟨[⟨[⟨0, 0⟩, ⟨1, 0⟩, ⟨1, 1⟩, ⟨0, 1⟩], true⟩],
        by decide, by decide, by decide, by decide, by decide⟩
    · simp at he
  exact ⟨hwf, by decide, by decide, by decide, by decide, by decide,
    C2_conditional_idempotence c2R c2v hwf (by decide) (by decide) (by decide)
      (by decide) (by decide)⟩

end Alphabet
